import Mathlib

/-!
# sea-qa: the scenario execution engine

A shallow embedding of `internal/executor/executor.go` (with the parts of
`internal/ir/model.go` and `internal/hooks/process.go` it uses) and the
properties of the engine proved over it.

Conventions of the embedding

* A Go string (and a `[]byte`) is the list of its bytes, `Str`; ASCII bytes
  are written as character literals.
* A Go `map[string]T` is a partial function `Str → Option T`; a loop that
  ranges over a map and writes one key per entry is its pointwise effect.
* Everything outside the process (the HTTP endpoint, hook subprocesses, the
  clock) is an `Env` of oracles that answer from the history of events so
  far, so a statement for every `Env` is a statement for every behaviour of
  the surroundings.  The effects of the engine are the events it appends to
  the `World`.
* The suite is a value: the write of `expandRequest` into the header map of
  the request it is given is described by `expandHeaders`, and is not carried
  into later uses of the same map.
* Durations are not part of the model.
-/

namespace SeaQA

/-! ## Strings -/

/-- A Go string as the list of its bytes. -/
abbrev Str := List Char

/-- A `map[string]string`. -/
abbrev StrMap := Str → Option Str

/-- The assignment `m[k] = v`. -/
def StrMap.set (m : StrMap) (k v : Str) : StrMap :=
  fun k' => if k' = k then some v else m k'

/-- The empty map (a nil map reads the same). -/
def StrMap.empty : StrMap := fun _ => none

/-- Go `clone` of executor.go: a fresh map with the same entries. -/
def clone (m : StrMap) : StrMap := fun k => m k

/-- Go `strings.Index(s, "|") >= 0` split: the text before the first bar and the
text after it, when there is a bar. -/
def splitBar : Str → Option (Str × Str)
  | [] => none
  | c :: t =>
    if c = '|' then some ([], t)
    else match splitBar t with
      | some (k, d) => some (c :: k, d)
      | none => none

/-- Go `strings.Join`. -/
def join (sep : Str) : List Str → Str
  | [] => []
  | [a] => a
  | a :: b :: t => a ++ sep ++ join sep (b :: t)

/-- Go `strings.ToUpper` on ASCII text. -/
def toUpper (s : Str) : Str := s.map Char.toUpper

/-- Go `strings.ToLower` on ASCII text. -/
def toLower (s : Str) : Str := s.map Char.toLower

/-- Go `strings.TrimPrefix`. -/
def trimPrefix (s pre : Str) : Str :=
  if pre.isPrefixOf s then s.drop pre.length else s

/-! ## The placeholder pattern `\$\{([^}]+)\}` -/

/-- One attempt of `varPattern` anchored at the head of the text: the captured
group and the text behind the match.  The group is the longest run of bytes
other than the closing brace, it must not be empty and the closing brace must
follow it. -/
def matchAt : Str → Option (Str × Str)
  | c :: d :: t =>
    if c = '$' ∧ d = '{' then
      match t.dropWhile (fun x => x != '}') with
      | [] => none
      | _ :: rest =>
        if t.takeWhile (fun x => x != '}') = [] then none
        else some (t.takeWhile (fun x => x != '}'), rest)
    else none
  | _ => none

/-- The whole match for a captured group. -/
def token (inner : Str) : Str := '$' :: '{' :: (inner ++ ['}'])

/-- Go `varPattern.ReplaceAllStringFunc(s, f)`: leftmost matches, left to right,
never overlapping; text outside the matches is copied. The counter bounds the
number of scan positions. -/
def replaceAllAux (f : Str → Str) : Nat → Str → Str
  | 0, _ => []
  | _ + 1, [] => []
  | n + 1, c :: t =>
    match matchAt (c :: t) with
    | some (inner, rest) => f (token inner) ++ replaceAllAux f n rest
    | none => c :: replaceAllAux f n t

/-- Go `varPattern.ReplaceAllStringFunc`. -/
def replaceAll (f : Str → Str) (s : Str) : Str := replaceAllAux f s.length s

/-- Go `varPattern.FindAllStringSubmatch(s, -1)`, each match given by its
captured group `m[1]`. -/
def findAllAux : Nat → Str → List Str
  | 0, _ => []
  | _ + 1, [] => []
  | n + 1, c :: t =>
    match matchAt (c :: t) with
    | some (inner, rest) => inner :: findAllAux n rest
    | none => findAllAux n t

/-- Go `varPattern.FindAllStringSubmatch`. -/
def findAllSubmatch (s : Str) : List Str := findAllAux s.length s

/-- The callback of `interpolate`: `m` is a whole match. -/
def resolve (vars : StrMap) (m : Str) : Str :=
  let inner := (m.drop 2).take (m.length - 1 - 2)
  let kd : Str × Str := match splitBar inner with
    | some (k, d) => (k, d)
    | none => (inner, [])
  match vars kd.1 with
  | some v => if v ≠ [] then v else if kd.2 ≠ [] then kd.2 else m
  | none => if kd.2 ≠ [] then kd.2 else m

/-- Go `interpolate`. -/
def interpolate (s : Str) (vars : StrMap) : Str := replaceAll (resolve vars) s

/-- Go `findUnresolved`: the tokens of the text that carry no bar. -/
def findUnresolved (s : Str) : List Str :=
  (findAllSubmatch s).filterMap fun key =>
    match splitBar key with
    | some _ => none
    | none => some (token key)

/-! ## Dynamic values (`any`) -/

/-- A Go value of type `any` as the decoders produce it. `num n` is a Go `int`
(an integer of a YAML document). `float text trunc` is a `float64` (every number
of a JSON document, a YAML number with a fraction or an exponent), given by what
the program observes of it: `text` is what `fmt.Sprint` prints for it and
`trunc` is what the conversion `int(f)` gives. For the `float64` 201 the text is
`201`, for 1.5 it is `1.5`, and for 1000000 it is `1e+06`, since `%v` changes to
the exponent form from 10^6 on. -/
inductive GoVal where
  | null
  | bool (b : Bool)
  | num (n : Int)
  | float (text : Str) (trunc : Int)
  | str (s : Str)
  | list (xs : List GoVal)
  | map (kvs : List (Str × GoVal))

instance : Inhabited GoVal := ⟨GoVal.null⟩

/-- The verb `%d` on an integer. -/
def fmtInt (n : Int) : Str := (toString n).toList

/-- The verb `%x` on a non-negative integer. -/
def fmtHex (n : Nat) : Str := Nat.toDigits 16 n

/-- Map entries in the order `fmt` prints them: by key. -/
def sortEntries (kvs : List (Str × Str)) : List (Str × Str) :=
  kvs.insertionSort (fun a b => a.1 ≤ b.1)

mutual
/-- Go `fmt.Sprint` of one value (the verb `%v`). -/
def goSprint : GoVal → Str
  | .null => "<nil>".toList
  | .bool b => if b then "true".toList else "false".toList
  | .num n => fmtInt n
  | .float text _ => text
  | .str s => s
  | .list xs => '[' :: (join [' '] (goSprintList xs) ++ [']'])
  | .map kvs =>
    "map[".toList ++ (join [' '] ((sortEntries (goSprintMap kvs)).map fun e => e.1 ++ ':' :: e.2) ++ [']'])
/-- The printed elements of a slice. -/
def goSprintList : List GoVal → List Str
  | [] => []
  | x :: xs => goSprint x :: goSprintList xs
/-- The printed entries of a map. -/
def goSprintMap : List (Str × GoVal) → List (Str × Str)
  | [] => []
  | (k, v) :: kvs => (k, goSprint v) :: goSprintMap kvs
end

/-- The lookup `m[k]` in a `map[string]any`; a nil map has no entries. -/
def lookupField (path : Str) : Option (List (Str × GoVal)) → Option GoVal
  | none => none
  | some kvs => kvs.lookup path

/-! ## The suite model (`internal/ir/model.go`) -/

structure Request where
  Method : Str
  URL : Str
  Headers : StrMap
  Body : GoVal
  TimeoutMs : Int

structure Action where
  Name : Str
  Request : Option Request

/-- The field `Type` is written `Typ`. -/
structure Expectation where
  Typ : Str
  Target : Str
  Value : GoVal

/-- The field `Type` is written `Typ`. -/
structure Hook where
  Typ : Str
  When : Str
  Cmd : Str
  Args : List Str
  TimeoutMs : Int
  Env : StrMap
  Redact : List Str

structure Step where
  Name : Str
  Request : Request
  Expect : List Expectation
  Hooks : List Hook

structure Scenario where
  Name : Str
  Env : Str
  Tags : List Str
  Setup : List Action
  Steps : List Step
  Teardown : List Action

structure TestSuite where
  Name : Str
  OpenAPI : Str
  Scenarios : List Scenario

def ExpectStatus : Str := "status".toList
def ExpectJSONPath : Str := "jsonPath".toList
def ExpectContract : Str := "contract".toList

/-! ## Results -/

/-- A `map[string][]string` of response headers. -/
abbrev RespHeaders := Str → Option (List Str)

structure StepResult where
  Name : Str
  Passed : Bool
  StatusCode : Int
  Errors : List Str
  Method : Str
  URL : Str
  ReqHeaders : StrMap
  ReqBody : Str
  RespHeaders : RespHeaders
  RespBody : Str

structure ScenarioResult where
  Name : Str
  Passed : Bool
  TeardownRan : Bool
  Steps : List StepResult

/-- The zero value of `ScenarioResult`. -/
instance : Inhabited ScenarioResult := ⟨⟨[], false, false, []⟩⟩

structure SuiteResult where
  Passed : Bool
  Scenarios : List ScenarioResult

/-! ## Hook documents (`internal/hooks/process.go`) -/

structure Resp where
  Status : Int
  Headers : RespHeaders
  Body : Str

structure Input where
  Vars : StrMap
  Request : Option Request
  Response : Option Resp

structure ReqPatch where
  URL : Str
  Method : Str
  Headers : StrMap
  Body : GoVal

structure Output where
  Vars : StrMap
  Request : Option ReqPatch
  Errors : List Str
  Redact : List Str

/-! ## The surroundings -/

/-- What the HTTP client hands back for a request that was sent. -/
structure Response where
  Status : Int
  Body : Str
  Headers : RespHeaders

/-- What happened to a hook subprocess, one field for each point at which
`RunProcessHook` looks. -/
structure ProcRun where
  stdinPipeErr : Option Str
  stdoutPipeErr : Option Str
  startErr : Option Str
  encodeErr : Option Str
  decoded : Except Str Output
  waitErr : Option Str

/-- An observable effect of the engine. -/
inductive Event where
  /-- A request handed to the HTTP client, with its deadline in nanoseconds. -/
  | http (req : Request) (timeoutNanos : Int)
  /-- A call of `RunProcessHook`. -/
  | hook (phase : Str) (hk : Hook) (inp : Input)

/-- Everything outside the engine. The oracles answer from the events so far. -/
structure Env where
  /-- The answer of `httpClient.Do` followed by reading the body. -/
  http : List Event → Request → Int → Except Str Response
  /-- The run of a hook subprocess under a deadline in nanoseconds. -/
  proc : List Event → Hook → Int → Input → ProcRun
  /-- The reading `time.Now().UnixNano()` taken by `newUUID`. -/
  unixNano : List Event → Nat
  /-- The text `time.Now().UTC().Format(time.RFC3339)`. -/
  nowText : List Event → Str
  /-- Go `json.Marshal` of a request body. -/
  jsonMarshal : GoVal → Except Str Str
  /-- The error of `http.NewRequestWithContext` for a method and a URL. -/
  newRequestErr : Str → Str → Option Str
  /-- Go `json.Unmarshal` into a `map[string]any`: the entries on success. -/
  jsonObject : Str → Option (List (Str × GoVal))
  /-- Go `json.MarshalIndent` (falling back to `json.Marshal`) as a string. -/
  jsonIndent : GoVal → Str
  /-- The verb `%q`. -/
  fmtQuote : Str → Str
  /-- The verb `%T`. -/
  fmtType : GoVal → Str

/-- The validator of `internal/contract`: method, URL, status, response headers
and body to the templated path and the method, or the validation error. -/
abbrev Validator := Str → Str → Int → RespHeaders → Str → Except Str (Str × Str)

/-- The mutable state: the events so far and the coverage set of the runner
(method, then templated path). -/
structure World where
  trace : List Event
  covered : Str → Str → Bool

structure Runner where
  baseVars : StrMap
  contractV : Option Validator
  parallel : Int
  failFast : Bool

def New : Runner := ⟨StrMap.empty, none, 0, false⟩

def NewWithVars (vars : StrMap) : Runner := ⟨clone vars, none, 0, false⟩

def Runner.WithContract (r : Runner) (v : Validator) : Runner := { r with contractV := some v }

def Runner.WithParallel (r : Runner) (n : Int) : Runner :=
  { r with parallel := if n < 1 then 1 else n }

def Runner.WithFailFast (r : Runner) (b : Bool) : Runner := { r with failFast := b }

/-! ## Interpolation of requests -/

mutual
/-- Go `walkInterpolate`. -/
def walkInterpolate : GoVal → StrMap → GoVal
  | .str x, vars => .str (interpolate x vars)
  | .map x, vars => .map (walkInterpolateMap x vars)
  | .list x, vars => .list (walkInterpolateList x vars)
  | .null, _ => .null
  | .bool b, _ => .bool b
  | .num n, _ => .num n
  | .float text trunc, _ => .float text trunc
/-- The loop of `walkInterpolate` over the entries of a map. -/
def walkInterpolateMap : List (Str × GoVal) → StrMap → List (Str × GoVal)
  | [], _ => []
  | (k, vv) :: rest, vars => (k, walkInterpolate vv vars) :: walkInterpolateMap rest vars
/-- The loop of `walkInterpolate` over the elements of a slice. -/
def walkInterpolateList : List GoVal → StrMap → List GoVal
  | [], _ => []
  | x :: rest, vars => walkInterpolate x vars :: walkInterpolateList rest vars
end

/-- The header map after the loop of `expandRequest`, which writes every value
back into the map it ranges over. -/
def expandHeaders (h : StrMap) (vars : StrMap) : StrMap :=
  fun k => (h k).map fun v => interpolate v vars

/-- Go `expandRequest`. -/
def expandRequest (rq : Request) (vars : StrMap) : Request :=
  { rq with
    URL := interpolate rq.URL vars
    Headers := expandHeaders rq.Headers vars
    Body := walkInterpolate rq.Body vars
    Method := toUpper rq.Method }

/-- Go `stringifyBody`. -/
def stringifyBody (env : Env) : GoVal → Str
  | .null => []
  | .str x => x
  | b => env.jsonIndent b

/-- Go `limitBody`. -/
def limitBody (b : Str) (max : Nat) : Str :=
  if b.length ≤ max then b else b.take max ++ "\n...[truncated]...".toList

/-- Go `newUUID`. -/
def newUUID (env : Env) (w : World) : Str := fmtHex (env.unixNano w.trace)

/-! ## HTTP -/

/-- An `int64` product as the machine computes it. -/
def wrapInt64 (x : Int) : Int := (x + 2 ^ 63) % 2 ^ 64 - 2 ^ 63

/-- The deadline in nanoseconds that `doRequest` and `RunProcessHook` derive from
a `TimeoutMs`: `time.Duration(ms) * time.Millisecond`, ten seconds when that is
not positive. -/
def timeoutNanos (ms : Int) : Int :=
  if wrapInt64 (ms * 1000000) ≤ 0 then 10 * 1000000000 else wrapInt64 (ms * 1000000)

/-- The error of the body switch of `doRequest`, if any. -/
def bodyErr (env : Env) : GoVal → Option Str
  | .null => none
  | .str _ => none
  | .map kvs =>
    match env.jsonMarshal (.map kvs) with
    | .error e => some ("json marshal body: ".toList ++ e)
    | .ok _ => none
  | .list xs =>
    match env.jsonMarshal (.list xs) with
    | .error e => some ("json marshal body: ".toList ++ e)
    | .ok _ => none
  | b =>
    match env.jsonMarshal b with
    | .error _ => some ("unsupported body type ".toList ++ env.fmtType b)
    | .ok _ => none

/-- Go `Runner.doRequest`. On an error the status is 0 and body and headers are
nil, which is how the callers read `Except.error`. -/
def doRequest (env : Env) (req : Request) (w : World) : Except Str Response × World :=
  match bodyErr env req.Body with
  | some e => (.error e, w)
  | none =>
    match env.newRequestErr req.Method req.URL with
    | some e => (.error ("new request: ".toList ++ e), w)
    | none =>
      let w1 : World := { w with trace := w.trace ++ [Event.http req (timeoutNanos req.TimeoutMs)] }
      match env.http w.trace req (timeoutNanos req.TimeoutMs) with
      | .error e => (.error ("do: ".toList ++ e), w1)
      | .ok resp => (.ok resp, w1)

/-- Go `Runner.runActions`: the error it returns, if any. -/
def runActions (env : Env) : List Action → StrMap → World → Option Str × World
  | [], _, w => (none, w)
  | a :: rest, vars, w =>
    match a.Request with
    | none => runActions env rest vars w
    | some rq =>
      match doRequest env (expandRequest rq vars) w with
      | (.error err, w1) => (some err, w1)
      | (.ok _, w1) => runActions env rest vars w1

/-! ## Hooks -/

/-- The part of `RunProcessHook` behind the type check: the first failure in the
order pipes, start, encode, decode, wait; else the decoded output. -/
def procOutcome (run : ProcRun) : Except Str Output :=
  match run.stdinPipeErr with
  | some e => .error ("stdin: ".toList ++ e)
  | none =>
  match run.stdoutPipeErr with
  | some e => .error ("stdout: ".toList ++ e)
  | none =>
  match run.startErr with
  | some e => .error ("start: ".toList ++ e)
  | none =>
  match run.encodeErr with
  | some e => .error ("encode stdin: ".toList ++ e)
  | none =>
  match run.decoded with
  | .error e => .error ("decode stdout: ".toList ++ e)
  | .ok out =>
  match run.waitErr with
  | some e => .error ("hook exit: ".toList ++ e)
  | none => .ok out

/-- Go `hooks.RunProcessHook`. -/
def RunProcessHook (env : Env) (phase : Str) (h : Hook) (inp : Input) (w : World) :
    Except Str Output × World :=
  let w1 : World := { w with trace := w.trace ++ [Event.hook phase h inp] }
  if h.Typ ≠ "process".toList then
    (.error ("unsupported hook type ".toList ++ env.fmtQuote h.Typ), w1)
  else
    match procOutcome (env.proc w.trace h (timeoutNanos h.TimeoutMs) inp) with
    | .error e => (.error e, w1)
    | .ok out => (.ok (if phase ≠ "before".toList then { out with Request := none } else out), w1)

/-- The loop `for k, v := range out.Vars` of `runScenario`. -/
def mergeVars (vars out : StrMap) : StrMap :=
  fun k => match out k with
    | some v => if v ≠ [] then some v else vars k
    | none => vars k

/-- The request patch of a before hook applied to the pending request. -/
def applyPatch (req : Request) (p : ReqPatch) : Request :=
  let req1 : Request := if p.URL ≠ [] then { req with URL := p.URL } else req
  let req2 : Request := if p.Method ≠ [] then { req1 with Method := toUpper p.Method } else req1
  let req3 : Request :=
    { req2 with Headers := fun k => match p.Headers k with
        | some v => some v
        | none => req2.Headers k }
  match p.Body with
  | .null => req3
  | b => { req3 with Body := b }

/-- The state that the loops inside one step carry. -/
structure StepState where
  stepRes : StepResult
  req : Request
  vars : StrMap
  w : World

/-- One round of the loop over the hooks ahead of the request. -/
def beforeHook (env : Env) (s : StepState) (hk : Hook) : StepState :=
  if toLower hk.When ≠ "before".toList then s
  else
    match RunProcessHook env "before".toList hk ⟨clone s.vars, some s.req, none⟩ s.w with
    | (.error err, w1) =>
      { s with
        w := w1
        stepRes := { s.stepRes with
          Passed := false
          Errors := s.stepRes.Errors ++ ["hook(before) error: ".toList ++ err] } }
    | (.ok out, w1) =>
      { w := w1
        vars := mergeVars s.vars out.Vars
        req := match out.Request with
          | none => s.req
          | some p => applyPatch s.req p
        stepRes :=
          if out.Errors.length > 0 then
            { s.stepRes with Passed := false, Errors := s.stepRes.Errors ++ out.Errors }
          else s.stepRes }

/-- One round of the loop over the hooks behind the request. -/
def afterHook (env : Env) (resp : Resp) (s : StepState) (hk : Hook) : StepState :=
  if toLower hk.When ≠ "after".toList then s
  else
    match RunProcessHook env "after".toList hk ⟨clone s.vars, some s.req, some resp⟩ s.w with
    | (.error err, w1) =>
      { s with
        w := w1
        stepRes := { s.stepRes with
          Passed := false
          Errors := s.stepRes.Errors ++ ["hook(after) error: ".toList ++ err] } }
    | (.ok out, w1) =>
      { s with
        w := w1
        vars := mergeVars s.vars out.Vars
        stepRes :=
          if out.Errors.length > 0 then
            { s.stepRes with Passed := false, Errors := s.stepRes.Errors ++ out.Errors }
          else s.stepRes }

/-! ## Expectations -/

/-- The message `jsonPath %s: got %v, want %v`. -/
def jsonPathMsg (target : Str) (got want : GoVal) : Str :=
  "jsonPath ".toList ++ target ++ ": got ".toList ++ goSprint got ++ ", want ".toList ++ goSprint want

/-- The `jsonPath` case of `evalExpectation` once the field is found. A string
from the body is compared with the expected value as values of type `any`: they
are equal only when the expected value is a string too, with the same bytes. -/
def compareJSON (target : Str) (got want : GoVal) : Bool × Str :=
  match got with
  | .str gs =>
    match want with
    | .str ws => if gs ≠ ws then (false, jsonPathMsg target (.str gs) want) else (true, [])
    | _ => (false, jsonPathMsg target (.str gs) want)
  | _ =>
    if goSprint got ≠ goSprint want then (false, jsonPathMsg target got want) else (true, [])

/-- The expected value of a `jsonPath` expectation: a string is interpolated
against the variables, any other value is taken as it is. -/
def wantValue (want : GoVal) (vars : StrMap) : GoVal :=
  match want with
  | .str ws => .str (interpolate ws vars)
  | v => v

/-- Go `Runner.evalExpectation`. The coverage set is part of the world. -/
def evalExpectation (r : Runner) (exp : Expectation) (status : Int)
    (jsonBody : Option (List (Str × GoVal))) (vars : StrMap) (method url : Str)
    (respHeaders : RespHeaders) (rawBody : Str) (w : World) : (Bool × Str) × World :=
  if exp.Typ = ExpectStatus then
    match exp.Value with
    | .num want =>
      if status ≠ want then
        ((false, "status: got ".toList ++ fmtInt status ++ ", want ".toList ++ fmtInt want), w)
      else ((true, []), w)
    | .float _ want =>
      if status ≠ want then
        ((false, "status: got ".toList ++ fmtInt status ++ ", want ".toList ++ fmtInt want), w)
      else ((true, []), w)
    | _ => ((false, "status expectation has non-integer value".toList), w)
  else if exp.Typ = ExpectJSONPath then
    match lookupField (trimPrefix exp.Target "$.".toList) jsonBody with
    | none => ((false, "jsonPath: ".toList ++ exp.Target ++ " not found".toList), w)
    | some got =>
      (compareJSON exp.Target got (wantValue exp.Value vars), w)
  else if exp.Typ = ExpectContract then
    match r.contractV with
    | none => ((false, "contract: requested but no OpenAPI spec configured".toList), w)
    | some v =>
      match v method url status respHeaders rawBody with
      | .error err => ((false, "contract: ".toList ++ err), w)
      | .ok (path, mth) =>
        ((true, []),
          { w with covered := fun m p => if m = mth ∧ p = path then true else w.covered m p })
  else ((false, "unknown expectation type: ".toList ++ exp.Typ), w)

/-- The loop over the expectations of a step. -/
def evalExpectations (r : Runner) (status : Int) (jsonBody : Option (List (Str × GoVal)))
    (vars : StrMap) (method url : Str) (respHeaders : RespHeaders) (rawBody : Str) :
    List Expectation → StepResult → World → StepResult × World
  | [], stepRes, w => (stepRes, w)
  | exp :: rest, stepRes, w =>
    match evalExpectation r exp status jsonBody vars method url respHeaders rawBody w with
    | ((ok, msg), w1) =>
      evalExpectations r status jsonBody vars method url respHeaders rawBody rest
        (if !ok then { stepRes with Passed := false, Errors := stepRes.Errors ++ [msg] }
          else stepRes) w1

/-! ## Scenario execution -/

/-- The message of the unresolved-variable guard. -/
def unresolvedMsg (unresolved : List Str) : Str :=
  "unresolved variables in URL: ".toList ++ join ", ".toList unresolved ++
    " (define via --env or use ${VAR|default})".toList

/-- The state that the loop over the steps carries. -/
structure ScenarioState where
  scRes : ScenarioResult
  vars : StrMap
  w : World

/-- The body of the loop over the steps of `runScenario`. -/
def runStep (r : Runner) (env : Env) (s : ScenarioState) (st : Step) : ScenarioState :=
  let s1 : StepState := st.Hooks.foldl (beforeHook env)
    { stepRes := ⟨[], true, 0, [], [], [], StrMap.empty, [], fun _ => none, []⟩
      req := expandRequest st.Request s.vars
      vars := s.vars
      w := s.w }
  let stepRes1 : StepResult :=
    { s1.stepRes with
      Method := s1.req.Method
      URL := s1.req.URL
      ReqHeaders := clone s1.req.Headers
      ReqBody := stringifyBody env s1.req.Body }
  if (findUnresolved s1.req.URL).length > 0 then
    { scRes := { s.scRes with
        Passed := false
        Steps := s.scRes.Steps ++
          [{ stepRes1 with
              Passed := false
              Errors := stepRes1.Errors ++ [unresolvedMsg (findUnresolved s1.req.URL)] }] }
      vars := s1.vars
      w := s1.w }
  else
    let sent := doRequest env s1.req s1.w
    let status : Int := match sent.1 with
      | .ok resp => resp.Status
      | .error _ => 0
    let body : Str := match sent.1 with
      | .ok resp => resp.Body
      | .error _ => []
    let respHdrs : RespHeaders := match sent.1 with
      | .ok resp => resp.Headers
      | .error _ => fun _ => none
    let stepRes2 : StepResult :=
      { stepRes1 with StatusCode := status, RespHeaders := respHdrs, RespBody := limitBody body (64 * 1024) }
    let stepRes3 : StepResult := match sent.1 with
      | .ok _ => stepRes2
      | .error err =>
        { stepRes2 with Passed := false, Errors := stepRes2.Errors ++ ["request error: ".toList ++ err] }
    let s2 : StepState := st.Hooks.foldl (afterHook env ⟨status, respHdrs, body⟩)
      { stepRes := stepRes3, req := s1.req, vars := s1.vars, w := sent.2 }
    let jsonBody : Option (List (Str × GoVal)) :=
      if body.length > 0 then env.jsonObject body else none
    let done := evalExpectations r status jsonBody s2.vars s2.req.Method s2.req.URL respHdrs body
      st.Expect s2.stepRes s2.w
    { scRes := { s.scRes with
        Passed := if !done.1.Passed then false else s.scRes.Passed
        Steps := s.scRes.Steps ++ [done.1] }
      vars := s2.vars
      w := done.2 }

/-- The variables a scenario starts from: a clone of the base variables with
`uuid` and `now` set. -/
def scenarioVars (r : Runner) (env : Env) (w : World) : StrMap :=
  ((clone r.baseVars).set "uuid".toList (newUUID env w)).set "now".toList (env.nowText w.trace)

/-- The state of `runScenario` when the loop over the steps is done. -/
def afterSteps (r : Runner) (env : Env) (sc : Scenario) (w : World) : ScenarioState :=
  let vars : StrMap := scenarioVars r env w
  let setup := runActions env sc.Setup vars w
  sc.Steps.foldl (runStep r env)
    { scRes := ⟨sc.Name, (match setup.1 with
        | some _ => false
        | none => true), false, []⟩
      vars := vars
      w := setup.2 }

/-- Go `Runner.runScenario`. -/
def runScenario (r : Runner) (env : Env) (sc : Scenario) (w : World) : ScenarioResult × World :=
  let s := afterSteps r env sc w
  ({ s.scRes with TeardownRan := true }, (runActions env sc.Teardown s.vars s.w).2)

/-! ## Suite execution -/

/-- The loop of the sequential mode of `RunSuite`, from scenario `i` on. -/
def runSequential (r : Runner) (env : Env) : List Scenario → Nat → SuiteResult → World →
    SuiteResult × World
  | [], _, res, w => (res, w)
  | sc :: rest, i, res, w =>
    let done := runScenario r env sc w
    let res1 : SuiteResult :=
      { Passed := if !done.1.Passed then false else res.Passed
        Scenarios := res.Scenarios.set i done.1 }
    if r.failFast && !done.1.Passed then
      ({ res1 with Scenarios := res1.Scenarios.take (i + 1) }, done.2)
    else runSequential r env rest (i + 1) res1 done.2

/-- The collector of the worker-pool mode of `RunSuite`. The list `order` holds
the indices of the jobs in the order in which their results reach the
collector; the scenario of a job is run at the point where its result is
delivered, so the interleaving of the workers is the order of that list, and
the accesses of two scenarios to the coverage set are never interleaved. -/
def runPool (r : Runner) (env : Env) (scenarios : List Scenario) : List Nat → SuiteResult →
    World → SuiteResult × World
  | [], res, w => (res, w)
  | idx :: rest, res, w =>
    match scenarios[idx]? with
    | none => runPool r env scenarios rest res w
    | some sc =>
      let done := runScenario r env sc w
      runPool r env scenarios rest
        { Passed := if !done.1.Passed then false else res.Passed
          Scenarios := res.Scenarios.set idx done.1 } done.2

/-- Go `Runner.RunSuite`; `order` is the order in which the workers deliver
their results when the pool is used. -/
def RunSuite (r : Runner) (env : Env) (order : List Nat) (suite : Option TestSuite) (w : World) :
    Except Str (SuiteResult × World) :=
  match suite with
  | none => .error "nil suite".toList
  | some suite =>
    let res : SuiteResult := ⟨true, List.replicate suite.Scenarios.length default⟩
    let parallel : Int := if r.failFast then 1 else r.parallel
    let parallel : Int := if parallel < 1 then 1 else parallel
    if parallel = 1 then .ok (runSequential r env suite.Scenarios 0 res w)
    else .ok (runPool r env suite.Scenarios order res w)

/-- The adjustment of `main` ahead of building the runner: fail-fast enforces
sequential execution. -/
def mainParallel (failFast : Bool) (parallel : Int) : Int :=
  if failFast ∧ parallel ≠ 1 then 1 else parallel

/-! ## Contract diff (`internal/contract/diff.go`) -/

/-- The part of an `openapi3.Operation` that the diff reads: the keys of
`Responses.Map()`, nothing when `Responses` is nil. -/
structure Operation where
  Responses : Option (List Str)

/-- The operations of an `openapi3.PathItem`, each nil or set. -/
structure PathItem where
  Get : Option Operation
  Post : Option Operation
  Put : Option Operation
  Delete : Option Operation
  Patch : Option Operation
  Head : Option Operation
  Options : Option Operation
  Trace : Option Operation

/-- An `openapi3.T` as far as the diff reads it: `Paths` is nil, or the entries
of `Paths.Map()` in the order in which a range statement visits them; a path
may be bound to a nil item. -/
structure OpenAPI where
  Paths : Option (List (Str × Option PathItem))

structure OpSig where
  Method : Str
  Path : Str
deriving DecidableEq

structure StatusChange where
  Method : Str
  Path : Str
  A : List Str
  B : List Str
deriving DecidableEq

structure DiffReport where
  Added : List OpSig
  Removed : List OpSig
  ChangedStatus : List StatusChange

/-- The body of the loop of `listOps` for one path and its item. -/
def pathOps (p : Str) (pi : PathItem) : List OpSig :=
  (if pi.Get.isSome then [⟨"GET".toList, p⟩] else []) ++
  (if pi.Post.isSome then [⟨"POST".toList, p⟩] else []) ++
  (if pi.Put.isSome then [⟨"PUT".toList, p⟩] else []) ++
  (if pi.Delete.isSome then [⟨"DELETE".toList, p⟩] else []) ++
  (if pi.Patch.isSome then [⟨"PATCH".toList, p⟩] else []) ++
  (if pi.Head.isSome then [⟨"HEAD".toList, p⟩] else []) ++
  (if pi.Options.isSome then [⟨"OPTIONS".toList, p⟩] else []) ++
  (if pi.Trace.isSome then [⟨"TRACE".toList, p⟩] else [])

/-- The loop of `listOps` over the entries of the path map. -/
def listOpsLoop : List (Str × Option PathItem) → List OpSig
  | [] => []
  | (_, none) :: rest => listOpsLoop rest
  | (p, some pi) :: rest => pathOps p pi ++ listOpsLoop rest

/-- Go `listOps`. -/
def listOps (doc : Option OpenAPI) : List OpSig :=
  match doc with
  | none => []
  | some d =>
    match d.Paths with
    | none => []
    | some entries => listOpsLoop entries

/-- The operation that the switch of `statusSet` selects for a method name. -/
def methodOp (pi : PathItem) (method : Str) : Option Operation :=
  if method = "GET".toList then pi.Get
  else if method = "POST".toList then pi.Post
  else if method = "PUT".toList then pi.Put
  else if method = "DELETE".toList then pi.Delete
  else if method = "PATCH".toList then pi.Patch
  else if method = "HEAD".toList then pi.Head
  else if method = "OPTIONS".toList then pi.Options
  else if method = "TRACE".toList then pi.Trace
  else none

/-- The lookup `doc.Paths.Value(path)`, nil for a nil document or nil paths. -/
def pathValue (doc : Option OpenAPI) (path : Str) : Option PathItem :=
  match doc with
  | none => none
  | some d =>
    match d.Paths with
    | none => none
    | some entries => (entries.lookup path).join

/-- Go `statusSet`: the keys of the set it builds. -/
def statusSet (doc : Option OpenAPI) (op : OpSig) : List Str :=
  match pathValue doc op.Path with
  | none => []
  | some pi =>
    match methodOp pi (toUpper op.Method) with
    | none => []
    | some o =>
      match o.Responses with
      | none => []
      | some codes => codes.dedup

/-- Go `toSet`: the membership test of the set it builds. -/
def toSet (ops : List OpSig) : OpSig → Bool := fun o => decide (o ∈ ops)

/-- Go `equalStrSet`, on the key lists of the two sets. -/
def equalStrSet (a b : List Str) : Bool :=
  if a.length ≠ b.length then false else a.all fun k => decide (k ∈ b)

/-- Go `toSortedSlice`: the keys in the order of `sort.Strings`. -/
def toSortedSlice (m : List Str) : List Str := m.insertionSort (· ≤ ·)

/-- The `less` function of `sortOps` and `sortChanges`, on path and method. -/
def opLess (p1 m1 p2 m2 : Str) : Prop :=
  if p1 = p2 then m1 < m2 else p1 < p2

instance (p1 m1 p2 m2 : Str) : Decidable (opLess p1 m1 p2 m2) := by
  unfold opLess
  infer_instance

/-- Go `sortOps`: the slice sorted by `less`. The elements compared are pairwise
different under `less` here, so every sorting procedure gives this result. -/
def sortOps (ops : List OpSig) : List OpSig :=
  ops.insertionSort fun x y => ¬ opLess y.Path y.Method x.Path x.Method

/-- Go `sortChanges`. -/
def sortChanges (ch : List StatusChange) : List StatusChange :=
  ch.insertionSort fun x y => ¬ opLess y.Path y.Method x.Path x.Method

/-- Go `DiffDocs`. -/
def DiffDocs (a b : Option OpenAPI) : DiffReport :=
  let opsA := listOps a
  let opsB := listOps b
  let added := opsB.filter fun op => !toSet opsA op
  let removed := opsA.filter fun op => !toSet opsB op
  let changed := opsA.filterMap fun op =>
    if toSet opsB op then
      if !equalStrSet (statusSet a op) (statusSet b op) then
        some ⟨op.Method, op.Path, toSortedSlice (statusSet a op), toSortedSlice (statusSet b op)⟩
      else none
    else none
  ⟨sortOps added, sortOps removed, sortChanges changed⟩

/-! ## Vocabulary of the statements -/

/-- The text holds a placeholder token: an opening `${`, a non-empty run of bytes
other than the closing brace, and the closing brace. -/
def HasToken (s : Str) : Prop :=
  ∃ p k q, s = p ++ token k ++ q ∧ k ≠ [] ∧ '}' ∉ k

/-- The text holds the two bytes `${` next to each other. -/
def HasOpener (s : Str) : Prop := ['$', '{'] <:+: s

instance (s : Str) : Decidable (HasOpener s) := by
  unfold HasOpener
  infer_instance

/-- The event of a request that reaches the HTTP client. -/
def httpEvent (q : Request) : Event := Event.http q (timeoutNanos q.TimeoutMs)

/-- The requests of a list of actions, in declared order, as `runActions` expands
them. -/
def actionRequests (acts : List Action) (vars : StrMap) : List Request :=
  (acts.filterMap fun a => a.Request).map fun rq => expandRequest rq vars

/-- The URL of a request sent, nothing for a hook call. -/
def eventURL : Event → Option Str
  | .http q _ => some q.URL
  | .hook _ _ _ => none

/-- The results of the scenarios run one after the other, each in the world the
one before it left, and the world at the end; with `ff` set the run ends with
the first scenario that fails. -/
def runInOrder (ff : Bool) (r : Runner) (env : Env) : List Scenario → World →
    List ScenarioResult × World
  | [], w => ([], w)
  | sc :: rest, w =>
    if ff && !(runScenario r env sc w).1.Passed then
      ([(runScenario r env sc w).1], (runScenario r env sc w).2)
    else
      ((runScenario r env sc w).1 :: (runInOrder ff r env rest (runScenario r env sc w).2).1,
        (runInOrder ff r env rest (runScenario r env sc w).2).2)

/-- A world in which nothing has happened yet. -/
def World.init : World := ⟨[], fun _ _ => false⟩

/-- No hook process can be started. -/
def noProc : ProcRun := ⟨none, none, some "not found".toList, none, .error [], none⟩

/-- An endpoint that refuses every connection. -/
def refusingEnv : Env :=
  { http := fun _ _ _ => .error "connection refused".toList
    proc := fun _ _ _ _ => noProc
    unixNano := fun _ => 0
    nowText := fun _ => []
    jsonMarshal := fun _ => .ok []
    newRequestErr := fun _ _ => none
    jsonObject := fun _ => none
    jsonIndent := fun _ => []
    fmtQuote := fun s => s
    fmtType := fun _ => [] }

/-- An endpoint that answers every request with status 200 and the body `body`,
read as the JSON object `obj`. -/
def answeringEnv (body : Str) (obj : Option (List (Str × GoVal))) : Env :=
  { refusingEnv with
    http := fun _ _ _ => .ok ⟨200, body, fun _ => none⟩
    jsonObject := fun _ => obj }

/-- A request with a method and a URL only. -/
def simpleRequest (method url : Str) : Request := ⟨method, url, StrMap.empty, .null, 0⟩

/-- A scenario without steps whose teardown has the two requests `/a` and `/b`. -/
def twoTeardowns : Scenario :=
  { Name := "cleanup".toList, Env := [], Tags := [], Setup := [], Steps := []
    Teardown :=
      [⟨[], some (simpleRequest "POST".toList "/a".toList)⟩,
        ⟨[], some (simpleRequest "POST".toList "/b".toList)⟩] }

/-- A scenario of one step that requests `url` and expects the status `want`. -/
def oneStep (name url : Str) (want : Int) : Scenario :=
  { Name := name, Env := [], Tags := [], Setup := []
    Steps := [⟨[], simpleRequest "GET".toList url, [⟨ExpectStatus, [], .num want⟩], []⟩]
    Teardown := [] }

/-- Two scenarios against an endpoint that answers 200: `A` expects 418 and
fails, `B` expects 200 and passes. -/
def failThenPass : TestSuite :=
  ⟨"demo".toList, [], [oneStep "A".toList "/fail".toList 418, oneStep "B".toList "/ok".toList 200]⟩

/-- A scenario of one step whose URL names a variable that is not defined. -/
def unresolvedScenario : Scenario :=
  { Name := "lookup".toList, Env := [], Tags := [], Setup := []
    Steps := [⟨[], simpleRequest "GET".toList "/users/${id}".toList, [], []⟩]
    Teardown := [] }

/-- Every pair covered in the first world is covered in the second. -/
def CoverageLe (w w2 : World) : Prop :=
  ∀ m p, w.covered m p = true → w2.covered m p = true

/-- The only step result of a scenario, the zero value when there is not exactly
one. -/
def onlyStep (res : ScenarioResult) : StepResult :=
  match res.Steps with
  | [x] => x
  | _ => ⟨[], false, 0, [], [], [], StrMap.empty, [], fun _ => none, []⟩

/-- The hook is declared for the phase ahead of the request. -/
def isBefore (hk : Hook) : Bool := decide (toLower hk.When = "before".toList)

/-- The hook is declared for the phase behind the request. -/
def isAfter (hk : Hook) : Bool := decide (toLower hk.When = "after".toList)

/-- The calls of `RunProcessHook` for a list of hooks in one phase, given the
input of each call. -/
def hookEvents (phase : Str) (hooks : List Hook) (inps : List Input) : List Event :=
  List.zipWith (fun hk inp => Event.hook phase hk inp) hooks inps

/-- The state of a step when the loop over the hooks ahead of the request is
done. -/
def beforeState (env : Env) (s : ScenarioState) (st : Step) : StepState :=
  st.Hooks.foldl (beforeHook env)
    { stepRes := ⟨[], true, 0, [], [], [], StrMap.empty, [], fun _ => none, []⟩
      req := expandRequest st.Request s.vars
      vars := s.vars
      w := s.w }

/-- The request of a step as the hooks ahead of it leave it. -/
def pendingRequest (env : Env) (s : ScenarioState) (st : Step) : Request :=
  (beforeState env s st).req

/-- For a hook call: its phase, whether its input carries a request and whether
it carries a response. -/
def hookSummary : Event → Option (Str × Bool × Bool)
  | .http _ _ => none
  | .hook phase _ inp => some (phase, inp.Request.isSome, inp.Response.isSome)

/-- The event is a request, or a hook call in the phase before or after whose
input carries a request, and carries a response exactly in the phase after. -/
def hookShape : Event → Bool
  | .http _ _ => true
  | .hook phase _ inp =>
    (decide (phase = "before".toList) || decide (phase = "after".toList)) &&
      inp.Request.isSome && (inp.Response.isSome == decide (phase = "after".toList))

/-- A hook process. -/
def processHook (phase cmd : Str) : Hook := ⟨"process".toList, phase, cmd, [], 0, StrMap.empty, []⟩

/-- A scenario of one step with one hook and no expectation. -/
def hookedScenario (url : Str) (hk : Hook) : Scenario :=
  { Name := "hooked".toList, Env := [], Tags := [], Setup := []
    Steps := [⟨[], simpleRequest "GET".toList url, [], [hk]⟩]
    Teardown := [] }

/-- The second trace is the first one followed by events that all satisfy `P`. -/
def ExtendsWith (P : Event → Bool) (t t2 : List Event) : Prop :=
  ∃ new, t2 = t ++ new ∧ new.all P = true

/-- The keys of the path map of a document. -/
def pathKeys (doc : Option OpenAPI) : List Str :=
  match doc with
  | none => []
  | some d =>
    match d.Paths with
    | none => []
    | some entries => entries.map fun e => e.1

/-- The document declares the operation: its path map binds the path to an item
that has an operation under the method name. -/
def Declares (doc : Option OpenAPI) (op : OpSig) : Prop :=
  ∃ d entries pi o, doc = some d ∧ d.Paths = some entries ∧ (op.Path, some pi) ∈ entries ∧
    methodOp pi op.Method = some o

/-- The document declares the status code for the operation. -/
def DeclaresCode (doc : Option OpenAPI) (op : OpSig) (code : Str) : Prop :=
  ∃ d entries pi o codes, doc = some d ∧ d.Paths = some entries ∧
    (op.Path, some pi) ∈ entries ∧ methodOp pi op.Method = some o ∧
    o.Responses = some codes ∧ code ∈ codes

/-- An operation with the given status codes. -/
def opWith (codes : List Str) : Option Operation := some ⟨some codes⟩

/-- A path item without operations. -/
def noOps : PathItem := ⟨none, none, none, none, none, none, none, none⟩

/-- Spec A of `diff_test.go`. -/
def specA : Option OpenAPI :=
  some ⟨some
    [("/users".toList,
        some { noOps with Get := opWith ["200".toList], Post := opWith ["201".toList] }),
      ("/health".toList, some { noOps with Get := opWith ["200".toList] })]⟩

/-- Spec B of `diff_test.go`. -/
def specB : Option OpenAPI :=
  some ⟨some
    [("/users".toList,
        some { noOps with Get := opWith ["200".toList], Post := opWith ["200".toList] }),
      ("/status".toList, some { noOps with Get := opWith ["200".toList] })]⟩

/-- Surroundings in which every hook process runs to its end and prints the
output document `out`, and every request is answered with status 200. -/
def hookEnv (out : Output) : Env :=
  { answeringEnv [] none with proc := fun _ _ _ _ => ⟨none, none, none, none, .ok out, none⟩ }

/-- A step in flight with the variables `vars` and the pending request `req`. -/
def stepAt (vars : StrMap) (req : Request) : StepState :=
  ⟨⟨[], true, 0, [], [], [], StrMap.empty, [], fun _ => none, []⟩, req, vars, World.init⟩

/-- An output document that sets `token` to `abc` and `trace` to the empty
string. -/
def tokenOutput : Output :=
  ⟨(StrMap.empty.set "token".toList "abc".toList).set "trace".toList [], none, [], []⟩

/-- Variables with `token` and `trace` set ahead of a hook. -/
def tokenVars : StrMap :=
  (StrMap.empty.set "token".toList "old".toList).set "trace".toList "t1".toList

/-- The text holds no lower-case ASCII letter. -/
def IsUpper (s : Str) : Prop := ∀ c ∈ s, c.isLower = false

instance (s : Str) : Decidable (IsUpper s) := by
  unfold IsUpper
  infer_instance

/-- An output document with the request patch `p` and nothing else. -/
def patchOutput (p : ReqPatch) : Output := ⟨StrMap.empty, some p, [], []⟩

/-- A patch that sets the URL `/v2`, the method `put` and the header `X-Sig`,
and carries no body. -/
def signPatch : ReqPatch :=
  ⟨"/v2".toList, "put".toList, StrMap.empty.set "X-Sig".toList "s1".toList, .null⟩

/-- A request `POST /v1` with the header `Accept`, a body and a timeout. -/
def draftRequest : Request :=
  ⟨"POST".toList, "/v1".toList, StrMap.empty.set "Accept".toList "text/plain".toList,
    .str "hello".toList, 250⟩

/-- One step into a value: an index into a list or a key of a map. -/
inductive Sel where
  | idx (i : Nat)
  | key (k : Str)

/-- The element of a list at an index, the value of a map under a key (the first
entry with the key); nothing in every other case. -/
def child (v : GoVal) (sel : Sel) : Option GoVal :=
  match sel, v with
  | .idx i, .list xs => xs[i]?
  | .key k, .map kvs => kvs.lookup k
  | _, _ => none

/-- The value reached from `v` along a path of indices and keys. -/
def descend : List Sel → GoVal → Option GoVal
  | [], v => some v
  | sel :: rest, v =>
    match child v sel with
    | none => none
    | some c => descend rest c

/-- The value is a number, a boolean or null. -/
def isScalar : GoVal → Bool
  | .null => true
  | .bool _ => true
  | .num _ => true
  | .float _ _ => true
  | _ => false

/-- A body with a nested mapping and a list, as a YAML document gives it. -/
def nestedBody : GoVal :=
  .map [("user".toList, .map [("id".toList, .str "${uuid}".toList), ("age".toList, .num 42)]),
    ("tags".toList, .list [.str "a-${env}".toList, .bool true, .null])]

/-- The variables `uuid = u1` and `env = dev`. -/
def sampleVars : StrMap :=
  (StrMap.empty.set "uuid".toList "u1".toList).set "env".toList "dev".toList

/-- A request whose timeout of 9,223,372,036,855 ms is the least positive one
whose count of nanoseconds does not fit an `int64`. -/
def longRequest : Request := ⟨"GET".toList, "/slow".toList, StrMap.empty, .null, 9223372036855⟩

/-- The status that a step reads off the outcome of its request, 0 on an error. -/
def sentStatus (o : Except Str Response) : Int :=
  match o with
  | .ok resp => resp.Status
  | .error _ => 0

/-- The body that a step reads off the outcome of its request, nil on an error. -/
def sentBody (o : Except Str Response) : Str :=
  match o with
  | .ok resp => resp.Body
  | .error _ => []

/-- The response headers that a step reads off the outcome of its request. -/
def sentHeaders (o : Except Str Response) : RespHeaders :=
  match o with
  | .ok resp => resp.Headers
  | .error _ => fun _ => none

/-- The outcome of the request of a step that passes the guard. -/
def stepSent (env : Env) (s : ScenarioState) (st : Step) : Except Str Response :=
  (doRequest env (pendingRequest env s st) (beforeState env s st).w).1

/-- The outcome of every expectation of a step, in declared order, evaluated on
the response of the step, the variables at the end of the step and the pending
request. -/
def expectationOutcomes (r : Runner) (env : Env) (s : ScenarioState) (st : Step) :
    List (Bool × Str) :=
  st.Expect.map fun exp =>
    (evalExpectation r exp (sentStatus (stepSent env s st))
      (if (sentBody (stepSent env s st)).length > 0 then
        env.jsonObject (sentBody (stepSent env s st)) else none)
      (runStep r env s st).vars (pendingRequest env s st).Method (pendingRequest env s st).URL
      (sentHeaders (stepSent env s st)) (sentBody (stepSent env s st)) World.init).1

/-- A step that requests `/users` and expects the status 200, the field `id` to
be 7 and the status 201. -/
def threeExpectations : Step :=
  ⟨[], simpleRequest "GET".toList "/users".toList,
    [⟨ExpectStatus, [], .num 200⟩, ⟨ExpectJSONPath, "$.id".toList, .num 7⟩,
      ⟨ExpectStatus, [], .num 201⟩], []⟩

/-- A scenario with one setup request, two steps and one teardown request. -/
def setupScenario : Scenario :=
  { Name := "seeded".toList, Env := [], Tags := []
    Setup := [⟨[], some (simpleRequest "POST".toList "/seed".toList)⟩]
    Steps := [⟨[], simpleRequest "GET".toList "/a".toList, [], []⟩,
      ⟨[], simpleRequest "GET".toList "/b".toList, [], []⟩]
    Teardown := [⟨[], some (simpleRequest "DELETE".toList "/seed".toList)⟩] }

/-- The string maps that exist at a point of the run. A map variable of the Go
code is a reference, here the index of its map in this list, so two variables
share a map exactly when they hold the same index. -/
abbrev Heap := List StrMap

/-- The map behind a reference. -/
def Heap.read (h : Heap) (a : Nat) : StrMap := h.getD a StrMap.empty

/-- The assignment `m[k] = v` through the reference `a`. -/
def Heap.assign (h : Heap) (a : Nat) (k v : Str) : Heap := h.set a ((h.read a).set k v)

/-- Go `clone` on references: `make` allocates a new map, the loop copies the
entries; the reference of the new map is returned. -/
def cloneRef (h : Heap) (a : Nat) : Nat × Heap := (h.length, h ++ [clone (h.read a)])

/-- Go `NewWithVars` on references: the reference that the runner keeps in
`baseVars`. -/
def NewWithVarsRef (h : Heap) (vars : Nat) : Nat × Heap := cloneRef h vars

/-- The first lines of `runScenario` on references: `vars := clone(r.baseVars)`
and the two assignments of `uuid` and `now`. -/
def scenarioVarsRef (env : Env) (w : World) (h : Heap) (baseVars : Nat) : Nat × Heap :=
  ((cloneRef h baseVars).1,
    (((cloneRef h baseVars).2.assign (cloneRef h baseVars).1 "uuid".toList (newUUID env w)).assign
      (cloneRef h baseVars).1 "now".toList (env.nowText w.trace)))

/-- The pair that `less` compares, first the path and then the method, as an
element of the lexicographic order. -/
def opKey (p m : Str) : Lex (Str × Str) := toLex (p, m)

/-- The entries of the path map of a document in the order in which they are
enumerated; none for a nil document or nil paths. -/
def pathEntries (doc : Option OpenAPI) : List (Str × Option PathItem) :=
  match doc with
  | none => []
  | some d =>
    match d.Paths with
    | none => []
    | some entries => entries

/-- The entry of `ChangedStatus` for the same operation with the two lists of
status codes exchanged. -/
def StatusChange.swap (c : StatusChange) : StatusChange := ⟨c.Method, c.Path, c.B, c.A⟩

/-- The first element comes before the second in the order by path and, for
equal paths, by method. -/
def Before (p1 m1 p2 m2 : Str) : Prop := p1 < p2 ∨ (p1 = p2 ∧ m1 < m2)

/-- Spec A of `diff_test.go` with its paths enumerated in the other order. -/
def specA2 : Option OpenAPI :=
  some ⟨some
    [("/health".toList, some { noOps with Get := opWith ["200".toList] }),
      ("/users".toList,
        some { noOps with Get := opWith ["200".toList], Post := opWith ["201".toList] })]⟩

/-- Spec B of `diff_test.go` with its paths enumerated in the other order. -/
def specB2 : Option OpenAPI :=
  some ⟨some
    [("/status".toList, some { noOps with Get := opWith ["200".toList] }),
      ("/users".toList,
        some { noOps with Get := opWith ["200".toList], Post := opWith ["200".toList] })]⟩

/-- The body of the loop of `DiffDocs` over the operations of A: the entry of
`ChangedStatus` for an operation, if it has one. -/
def changedEntry (a b : Option OpenAPI) (op : OpSig) : Option StatusChange :=
  if toSet (listOps b) op then
    if !equalStrSet (statusSet a op) (statusSet b op) then
      some ⟨op.Method, op.Path, toSortedSlice (statusSet a op), toSortedSlice (statusSet b op)⟩
    else none
  else none

/-- The pass flag of a step result is set exactly when its error list is empty. -/
def Consistent (sr : StepResult) : Prop := sr.Passed = true ↔ sr.Errors = []

/-- A scenario of three steps: the first requests `/a`, the second names a
variable that is not defined, the third requests `/c`. -/
def threeSteps : Scenario :=
  { Name := "three".toList, Env := [], Tags := [], Setup := []
    Steps := [⟨[], simpleRequest "GET".toList "/a".toList, [], []⟩,
      ⟨[], simpleRequest "GET".toList "/b/${id}".toList, [], []⟩,
      ⟨[], simpleRequest "GET".toList "/c".toList, [], []⟩]
    Teardown := [] }

/-- A validator that accepts every response as an answer of `GET /users`. -/
def acceptAll : Validator := fun _ _ _ _ _ => .ok ("/users".toList, "GET".toList)

/-- A hook process that writes nothing to its standard output and exits with
status 1: decoding the output meets the end of the stream, waiting reports the
exit status. -/
def failedRun : ProcRun :=
  ⟨none, none, none, none, .error "EOF".toList, some "exit status 1".toList⟩

/-- Surroundings in which every hook process runs as `run` says. -/
def procEnv (run : ProcRun) : Env := { answeringEnv [] none with proc := fun _ _ _ _ => run }

/-- A hook process that writes the empty output document and exits with
status 1. -/
def exitRun : ProcRun :=
  ⟨none, none, none, none, .ok ⟨StrMap.empty, none, [], []⟩, some "exit status 1".toList⟩

/-! ## The parser (`internal/parser/parser.go`) -/

/-- A Go error as far as its callers look at it: the text of `Error()` and
whether `errors.Is(err, ErrValidation)` holds. -/
structure GoError where
  text : Str
  isValidation : Bool
deriving DecidableEq

/-- Go `wrapValidation`: the error `%w: %s` around `ErrValidation`, whose text
is `validation error`. -/
def wrapValidation (msg : Str) : GoError := ⟨"validation error: ".toList ++ msg, true⟩

/-- Go `validateStep`: the error, if any. -/
def validateStep (st : Step) (i j : Nat) : Option GoError :=
  if st.Request.Method = [] then
    some (wrapValidation ("scenario[".toList ++ fmtInt i ++ "].step[".toList ++ fmtInt j ++
      "].request.method must not be empty".toList))
  else if st.Request.URL = [] then
    some (wrapValidation ("scenario[".toList ++ fmtInt i ++ "].step[".toList ++ fmtInt j ++
      "].request.url must not be empty".toList))
  else none

/-- The loop of `validateScenario` over the steps, from step `j` on. -/
def validateSteps : List Step → Nat → Nat → Option GoError
  | [], _, _ => none
  | st :: rest, i, j =>
    match validateStep st i j with
    | some err => some err
    | none => validateSteps rest i (j + 1)

/-- Go `validateScenario`: the error, if any. -/
def validateScenario (sc : Scenario) (idx : Nat) : Option GoError :=
  if sc.Name = [] then
    some (wrapValidation ("scenario[".toList ++ fmtInt idx ++ "].name must not be empty".toList))
  else if sc.Steps.length = 0 then
    some (wrapValidation ("scenario[".toList ++ fmtInt idx ++ "].steps must not be empty".toList))
  else validateSteps sc.Steps idx 0

/-- The loop of `validateSuite` over the scenarios, from scenario `i` on. -/
def validateScenarios : List Scenario → Nat → Option GoError
  | [], _ => none
  | sc :: rest, i =>
    match validateScenario sc i with
    | some err => some err
    | none => validateScenarios rest (i + 1)

/-- Go `validateSuite`: the error, if any. -/
def validateSuite (s : TestSuite) : Option GoError :=
  if s.Name = [] then some (wrapValidation "suite.name must not be empty".toList)
  else if s.Scenarios.length = 0 then
    some (wrapValidation "suite.scenarios must not be empty".toList)
  else validateScenarios s.Scenarios 0

/-- Go `Parser.ParseBytes`. The YAML decoder is a parameter: the suite that
`Decode` fills in, or the text of its error. -/
def ParseBytes (decode : Str → Except Str TestSuite) (b : Str) : Except GoError TestSuite :=
  match decode b with
  | .error err => .error ⟨"decode: ".toList ++ err, false⟩
  | .ok suite =>
    match validateSuite suite with
    | some err => .error err
    | none =>
      .ok { suite with
        Scenarios := suite.Scenarios.map fun sc =>
          { sc with
            Steps := sc.Steps.map fun st =>
              { st with Request := { st.Request with Method := toUpper st.Request.Method } } } }

/-- The request of the step has a method and a URL. -/
def ValidStep (st : Step) : Prop := st.Request.Method ≠ [] ∧ st.Request.URL ≠ []

instance (st : Step) : Decidable (ValidStep st) := by
  unfold ValidStep
  infer_instance

/-- The scenario has a name and at least one step, and every step is valid. -/
def ValidScenario (sc : Scenario) : Prop :=
  sc.Name ≠ [] ∧ sc.Steps ≠ [] ∧ ∀ st ∈ sc.Steps, ValidStep st

instance (sc : Scenario) : Decidable (ValidScenario sc) := by
  unfold ValidScenario
  letI : Decidable (sc.Steps ≠ []) :=
    decidable_of_iff (sc.Steps.length ≠ 0) (by simp [List.length_eq_zero])
  infer_instance

/-- The suite has a name and at least one scenario, and every scenario is
valid. -/
def ValidSuite (s : TestSuite) : Prop :=
  s.Name ≠ [] ∧ s.Scenarios ≠ [] ∧ ∀ sc ∈ s.Scenarios, ValidScenario sc

instance (s : TestSuite) : Decidable (ValidSuite s) := by
  unfold ValidSuite
  letI : Decidable (s.Scenarios ≠ []) :=
    decidable_of_iff (s.Scenarios.length ≠ 0) (by simp [List.length_eq_zero])
  infer_instance

/-- A suite whose second scenario has a second step without a URL, and whose
third scenario has no name. -/
def brokenSuite : TestSuite :=
  ⟨"demo".toList, [],
    [oneStep "A".toList "/a".toList 200,
      { Name := "B".toList, Env := [], Tags := [], Setup := []
        Steps := [⟨[], simpleRequest "get".toList "/b".toList, [], []⟩,
          ⟨[], simpleRequest "get".toList [], [], []⟩]
        Teardown := [] },
      oneStep [] "/c".toList 200]⟩

/-! ## Coverage report (`internal/reporter/coverage.go`) -/

/-- The report of `ComputeCoverage`. `Percent` is a `float64`, held as the
rational number that the float stands for. -/
structure CoverageReport where
  Total : Int
  Covered : Int
  Percent : ℚ
  CoveredSet : List Str
  UncoveredSet : List Str

/-- Go `sig`: the text `%s %s` of a method and a path. -/
def sig (method path : Str) : Str := method ++ ' ' :: path

/-- The body of the loop of `allOps` for one path and its item. -/
def pathSigs (p : Str) (pi : PathItem) : List Str :=
  (if pi.Get.isSome then [sig "GET".toList p] else []) ++
  (if pi.Post.isSome then [sig "POST".toList p] else []) ++
  (if pi.Put.isSome then [sig "PUT".toList p] else []) ++
  (if pi.Delete.isSome then [sig "DELETE".toList p] else []) ++
  (if pi.Patch.isSome then [sig "PATCH".toList p] else []) ++
  (if pi.Head.isSome then [sig "HEAD".toList p] else []) ++
  (if pi.Options.isSome then [sig "OPTIONS".toList p] else []) ++
  (if pi.Trace.isSome then [sig "TRACE".toList p] else [])

/-- The loop of `allOps` over the entries of the path map. -/
def allOpsLoop : List (Str × Option PathItem) → List Str
  | [] => []
  | (_, none) :: rest => allOpsLoop rest
  | (p, some pi) :: rest => pathSigs p pi ++ allOpsLoop rest

/-- Go `allOps`. -/
def allOps (doc : Option OpenAPI) : List Str :=
  match doc with
  | none => []
  | some d =>
    match d.Paths with
    | none => []
    | some entries => allOpsLoop entries

/-- A `map[string]map[string]bool`: the entries of the outer map and of every
inner map in the order in which a range statement visits them. -/
abbrev CoveredMap := List (Str × List (Str × Bool))

/-- Go `flattenCovered`: the keys of the set it builds. The loop ranges over
the keys of the inner maps and does not read their values. -/
def flattenCovered (m : CoveredMap) : List Str :=
  m.flatMap fun e => e.2.map fun pe => sig (toUpper e.1) pe.1

/-- Go `sort.Strings`. -/
def sortStrings (l : List Str) : List Str := l.insertionSort (· ≤ ·)

/-- Rounding of a rational to the nearest integer, a tie going to the even one. -/
def roundEven (q : ℚ) : Int :=
  if q - ⌊q⌋ < 1 / 2 then ⌊q⌋
  else if 1 / 2 < q - ⌊q⌋ then ⌊q⌋ + 1
  else if ⌊q⌋ % 2 = 0 then ⌊q⌋ else ⌊q⌋ + 1

/-- The `float64` nearest to a positive rational `x`: with `e` the binary
exponent of `x` (`2 ^ e ≤ x < 2 ^ (e + 1)`), the floats around `x` are the
multiples of `2 ^ (e - 52)`, and `x` goes to the nearest one, a tie to the one
with the even 53-bit significand. -/
def roundPos (x : ℚ) : ℚ :=
  (roundEven (x / (2 : ℚ) ^ (Int.log 2 x - 52)) : ℚ) * (2 : ℚ) ^ (Int.log 2 x - 52)

/-- The result in `float64` of a conversion or an operation whose exact value
is `x` (IEEE 754 round to nearest, ties to even). The subnormal range and the
overflow to infinity are left out: `pct` works on Go `int` operands, whose
products and quotients are 0 or of a magnitude between `2 ^ (-57)` and
`2 ^ 70`. -/
def round64 (x : ℚ) : ℚ :=
  if x = 0 then 0 else if x < 0 then - roundPos (-x) else roundPos x

/-- Go `pct`: `float64(n) * 100.0 / float64(d)`, the two conversions, the
product and the quotient each rounded to `float64`. -/
def pct (n d : Int) : ℚ :=
  if d = 0 then 100 else round64 (round64 (round64 (n : ℚ) * 100) / round64 (d : ℚ))

/-- Go `ComputeCoverage`. -/
def ComputeCoverage (doc : Option OpenAPI) (covered : CoveredMap) : CoverageReport :=
  let all := allOps doc
  let cset := flattenCovered covered
  let coveredList := all.filter fun op => decide (op ∈ cset)
  let uncoveredList := all.filter fun op => !decide (op ∈ cset)
  { Total := all.length
    Covered := coveredList.length
    Percent := pct coveredList.length all.length
    CoveredSet := sortStrings coveredList
    UncoveredSet := sortStrings uncoveredList }

/-- The covered map of `TestWriteCoverage`, with an entry whose value is false
and an entry for an operation that the document does not declare. -/
def sampleCovered : CoveredMap :=
  [("post".toList, [("/users".toList, true)]),
    ("GET".toList, [("/health".toList, false), ("/missing".toList, true)])]

/-- The value of a hexadecimal digit as `%x` writes it. -/
def hexDigit (c : Char) : Nat := if c.toNat ≤ 57 then c.toNat - 48 else c.toNat - 87

/-- The number that a text of hexadecimal digits stands for. -/
def hexValue : Str → Nat
  | [] => 0
  | c :: cs => hexDigit c * 16 ^ cs.length + hexValue cs

/-- Surroundings whose clock gives the same reading to every reader, as it does
to two workers of a pool that start their scenarios within one tick of the
clock; every request is answered with status 200. -/
def frozenClockEnv : Env := { answeringEnv [] none with unixNano := fun _ => 1730000000000000000 }

/-- Two scenarios that each send their `uuid` in the URL of a request. -/
def uuidSuite : TestSuite :=
  ⟨"ids".toList, [],
    [oneStep "A".toList "/u/${uuid}".toList 200, oneStep "B".toList "/u/${uuid}".toList 200]⟩

/-- The URLs of the requests sent in a suite run. -/
def suiteURLs (out : Except Str (SuiteResult × World)) : List (Option Str) :=
  match out with
  | .ok (_, w) => w.trace.map eventURL
  | .error _ => []

/-- The error of `json.Encoder.Encode` on the input document of a hook, as far
as the response body decides it. `Resp.Body` is a `json.RawMessage` with
`omitempty`: an empty body is left out, and the bytes of any other body are
written only if they are one JSON value. The check of `encoding/json` for that
is the parameter `valid`. -/
def encodeInputErr (valid : Str → Bool) (inp : Input) : Option Str :=
  match inp.Response with
  | none => none
  | some resp =>
    if resp.Body = [] then none
    else if valid resp.Body then none
    else some "json: error calling MarshalJSON for type json.RawMessage".toList

/-- Surroundings in which every request is answered with status 200 and the body
`body`, and every hook process would write the empty output document and exit
with status 0; the encoder of the input document is `encodeInputErr`. -/
def rawMessageEnv (valid : Str → Bool) (body : Str) : Env :=
  { answeringEnv body none with
    proc := fun _ _ _ inp =>
      ⟨none, none, none, encodeInputErr valid inp, .ok ⟨StrMap.empty, none, [], []⟩, none⟩ }

/-- The loop of `expandRequest` over the headers, on references: the request
`rq` is a copy of the request of the step, so its field `Headers` holds the
reference of the same map, and every assignment `rq.Headers[k] = ...` of the
loop writes into that map. -/
def expandHeadersRef (h : Heap) (headers : Nat) (vars : StrMap) : Heap :=
  h.set headers (expandHeaders (h.read headers) vars)

/-- The header map of a step that sends the `uuid` of the scenario. -/
def idHeaders : StrMap := StrMap.empty.set "X-Id".toList "${uuid}".toList

/-- The coverage set as the runner holds it: the outer map binds a method to
the reference of an inner map, and an inner map is the list of the paths it
binds to true. -/
structure CovMem where
  outer : Str → Option Nat
  inner : List (List Str)

/-- The place of a goroutine in the three lines of `evalExpectation` that
record a pair: ahead of the test `r.covered[mth] == nil`, ahead of the
assignment of a new inner map, ahead of the assignment
`r.covered[mth][path] = true`, or behind it. -/
inductive CovPc where
  | test
  | create
  | write
  | done
deriving DecidableEq

/-- A goroutine that records the pair of a method and a path. -/
structure CovThread where
  mth : Str
  path : Str
  pc : CovPc

/-- One memory access of a goroutine. -/
def covStep (m : CovMem) (t : CovThread) : CovMem × CovThread :=
  match t.pc with
  | .test => (m, { t with pc := if (m.outer t.mth).isNone then .create else .write })
  | .create =>
    ({ outer := fun k => if k = t.mth then some m.inner.length else m.outer k
       inner := m.inner ++ [[]] }, { t with pc := .write })
  | .write =>
    match m.outer t.mth with
    | none => (m, { t with pc := .done })
    | some ref => ({ m with inner := m.inner.modify (fun paths => t.path :: paths) ref },
        { t with pc := .done })
  | .done => (m, t)

/-- Two goroutines run under a schedule: `true` lets the first one make its
next memory access, `false` the second one. -/
def runSchedule : List Bool → CovMem → CovThread → CovThread → CovMem × CovThread × CovThread
  | [], m, a, b => (m, a, b)
  | true :: rest, m, a, b => runSchedule rest (covStep m a).1 (covStep m a).2 b
  | false :: rest, m, a, b => runSchedule rest (covStep m b).1 a (covStep m b).2

/-- The pair is in the coverage set. -/
def CovMem.covers (m : CovMem) (mth path : Str) : Bool :=
  match m.outer mth with
  | none => false
  | some ref => decide (path ∈ m.inner.getD ref [])

/-- The coverage set that `WithContract` makes: an empty outer map. -/
def CovMem.init : CovMem := ⟨fun _ => none, []⟩

/-- The world after the first `k` requests of a list were handed to the client
from the world `w`. -/
def sentWorld (w : World) (reqs : List Request) (k : Nat) : World :=
  { w with trace := w.trace ++ (reqs.take k).map httpEvent }

/-- The request can be built: the body switch of `doRequest` and
`http.NewRequestWithContext` return no error. -/
def Buildable (env : Env) (q : Request) : Prop :=
  bodyErr env q.Body = none ∧ env.newRequestErr q.Method q.URL = none

/-- An endpoint that answers the first request it is sent and refuses every
connection after that. -/
def oneAnswerEnv : Env :=
  { refusingEnv with
    http := fun trace _ _ =>
      if trace.length = 0 then .ok ⟨200, [], fun _ => none⟩
      else .error "connection refused".toList }

/-- A scenario without steps whose teardown has the three requests `/a`, `/b`
and `/c`. -/
def threeTeardowns : Scenario :=
  { Name := "cleanup".toList, Env := [], Tags := [], Setup := [], Steps := []
    Teardown :=
      [⟨[], some (simpleRequest "POST".toList "/a".toList)⟩,
        ⟨[], some (simpleRequest "POST".toList "/b".toList)⟩,
        ⟨[], some (simpleRequest "POST".toList "/c".toList)⟩] }

/-- The text is ASCII: every byte is below 128. On such text the byte-wise
`toUpper` of this development is Go `strings.ToUpper`, and holding no lower-case
letter (`IsUpper`) is being upper-case. -/
def IsAscii (s : Str) : Prop := ∀ c ∈ s, c.toNat < 128

instance (s : Str) : Decidable (IsAscii s) := by
  unfold IsAscii
  infer_instance

/-- The coverage memory and the two goroutines at the moment when the second
worker has made the test `r.covered["GET"] == nil` for `GET /orders` on the
empty coverage set and the first worker has then evaluated the contract
expectation that records `GET /users`. -/
def usersRecorded : CovMem × CovThread × CovThread :=
  runSchedule [false, true, true, true] CovMem.init
    ⟨"GET".toList, "/users".toList, .test⟩ ⟨"GET".toList, "/orders".toList, .test⟩

/-- The next contract expectation of the first worker, which records
`GET /health`, evaluated from `usersRecorded` while the second worker assigns
its inner map. -/
def healthRecorded : CovMem × CovThread × CovThread :=
  runSchedule [true, false, true] usersRecorded.1
    ⟨"GET".toList, "/health".toList, .test⟩ usersRecorded.2.2

/-! ## Interpolation -/

theorem takeWhile_notBrace (k q : Str) (hk : '}' ∉ k) :
    (k ++ '}' :: q).takeWhile (fun x => x != '}') = k := by
  induction k with
  | nil => simp
  | cons a k ih =>
    have ha : a ≠ '}' := fun h => hk (by simp [h])
    have hk2 : '}' ∉ k := fun h => hk (List.mem_cons_of_mem _ h)
    simp [List.takeWhile_cons, ha, ih hk2]

theorem dropWhile_notBrace (k q : Str) (hk : '}' ∉ k) :
    (k ++ '}' :: q).dropWhile (fun x => x != '}') = '}' :: q := by
  induction k with
  | nil => simp
  | cons a k ih =>
    have ha : a ≠ '}' := fun h => hk (by simp [h])
    have hk2 : '}' ∉ k := fun h => hk (List.mem_cons_of_mem _ h)
    simp [List.dropWhile_cons, ha, ih hk2]

theorem matchAt_token (k q : Str) (hk : k ≠ []) (hb : '}' ∉ k) :
    matchAt (token k ++ q) = some (k, q) := by
  have e : token k ++ q = '$' :: '{' :: (k ++ '}' :: q) := by simp [token]
  rw [e]
  simp only [matchAt, and_self, if_true, dropWhile_notBrace k q hb, takeWhile_notBrace k q hb]
  simp [hk]

theorem dropWhile_head_brace (t : Str) (e : Char) (rest : Str)
    (h : t.dropWhile (fun x => x != '}') = e :: rest) : e = '}' := by
  induction t with
  | nil => simp at h
  | cons a t ih =>
    by_cases ha : a = '}'
    · subst ha
      simp at h
      exact h.1.symm
    · have hp : (a != '}') = true := by simp [ha]
      simp only [List.dropWhile_cons, hp, if_true] at h
      exact ih h

theorem matchAt_some (s k q : Str) (h : matchAt s = some (k, q)) :
    s = token k ++ q ∧ k ≠ [] ∧ '}' ∉ k := by
  match s, h with
  | c :: d :: t, h =>
    simp only [matchAt] at h
    split at h
    · rename_i hcd
      split at h
      · simp at h
      · rename_i e rest hd
        split at h
        · simp at h
        · rename_i hne
          simp only [Option.some.injEq, Prod.mk.injEq] at h
          obtain ⟨h1, h2⟩ := h
          have he := dropWhile_head_brace t e rest hd
          have hsplit := List.takeWhile_append_dropWhile (fun x => x != '}') t
          rw [hd, h1, he] at hsplit
          refine ⟨?_, ?_, ?_⟩
          · simp [token, hcd.1, hcd.2, ← hsplit, h2]
          · rw [← h1]; exact hne
          · intro hmem
            rw [← h1] at hmem
            have := List.mem_takeWhile_imp hmem
            simp at this
    · simp at h

theorem matchAt_none_of_noToken (s : Str) (h : ¬ HasToken s) : matchAt s = none := by
  cases hm : matchAt s with
  | none => rfl
  | some kq =>
    obtain ⟨k, q⟩ := kq
    obtain ⟨e, hk, hb⟩ := matchAt_some s k q hm
    exact absurd ⟨[], k, q, by simpa using e, hk, hb⟩ h

theorem noToken_tail (c : Char) (t : Str) (h : ¬ HasToken (c :: t)) : ¬ HasToken t := by
  rintro ⟨p, k, q, e, hk, hb⟩
  exact h ⟨c :: p, k, q, by simp [e], hk, hb⟩

theorem replaceAllAux_noToken (f : Str → Str) (n : Nat) (s : Str) (hn : s.length ≤ n)
    (h : ¬ HasToken s) : replaceAllAux f n s = s := by
  induction n generalizing s with
  | zero =>
    have : s = [] := List.length_eq_zero.mp (Nat.le_zero.mp hn)
    subst this
    rfl
  | succ n ih =>
    cases s with
    | nil => rfl
    | cons c t =>
      simp only [replaceAllAux, matchAt_none_of_noToken _ h]
      rw [ih t (by simpa using hn) (noToken_tail c t h)]

theorem noToken_of_noOpener (s : Str) (h : ¬ HasOpener s) : ¬ HasToken s := by
  rintro ⟨p, k, q, e, _, _⟩
  apply h
  refine ⟨p, k ++ '}' :: q, ?_⟩
  simp [e, token]

/-- More fuel than the length of the text changes nothing. -/
theorem replaceAllAux_fuel (f : Str → Str) (n : Nat) (s : Str) (hn : s.length ≤ n) :
    replaceAllAux f n s = replaceAll f s := by
  suffices H : ∀ (m : Nat) (s : Str) (n : Nat), s.length ≤ m → s.length ≤ n →
      replaceAllAux f n s = replaceAllAux f m s from H s.length s n (le_refl _) hn
  intro m
  induction m with
  | zero =>
    intro s n hm _
    have : s = [] := List.length_eq_zero.mp (Nat.le_zero.mp hm)
    subst this
    cases n <;> rfl
  | succ m ih =>
    intro s n hm hn
    cases s with
    | nil => cases n <;> rfl
    | cons c t =>
      cases n with
      | zero => simp at hn
      | succ n =>
        simp only [replaceAllAux]
        cases hmt : matchAt (c :: t) with
        | none =>
          simp only []
          rw [ih t n (by simpa using hm) (by simpa using hn)]
        | some kq =>
          obtain ⟨k, q⟩ := kq
          obtain ⟨e, _, _⟩ := matchAt_some _ k q hmt
          have hlen : q.length ≤ t.length := by
            have := congrArg List.length e
            simp [token] at this
            omega
          simp only []
          rw [ih q n (by simp at hm; omega) (by simp at hn; omega)]

theorem replaceAll_nil (f : Str → Str) : replaceAll f [] = [] := rfl

theorem replaceAll_cons_none (f : Str → Str) (c : Char) (t : Str) (h : matchAt (c :: t) = none) :
    replaceAll f (c :: t) = c :: replaceAll f t := by
  show replaceAllAux f (t.length + 1) (c :: t) = _
  simp only [replaceAllAux, h]
  rfl

theorem replaceAll_token (f : Str → Str) (k q : Str) (hk : k ≠ []) (hb : '}' ∉ k) :
    replaceAll f (token k ++ q) = f (token k) ++ replaceAll f q := by
  have e : token k ++ q = '$' :: '{' :: (k ++ '}' :: q) := by simp [token]
  have hm := matchAt_token k q hk hb
  rw [e] at hm
  show replaceAllAux f (token k ++ q).length (token k ++ q) = _
  rw [e]
  simp only [List.length_cons, replaceAllAux, hm]
  rw [replaceAllAux_fuel]
  simp only [List.length_append, List.length_cons]
  omega

theorem replaceAll_noToken (f : Str → Str) (s : Str) (h : ¬ HasToken s) : replaceAll f s = s :=
  replaceAllAux_noToken f s.length s (le_refl _) h

/-- Text without `${` ahead of a token is copied. -/
theorem replaceAll_before_token (f : Str → Str) (p k q : Str) (hp : ¬ HasOpener p) :
    replaceAll f (p ++ token k ++ q) = p ++ replaceAll f (token k ++ q) := by
  induction p with
  | nil => simp
  | cons c p ih =>
    have hp2 : ¬ HasOpener p := by
      rintro ⟨a, b, e⟩
      exact hp ⟨c :: a, b, by simp [← e]⟩
    have hnone : matchAt (c :: (p ++ token k ++ q)) = none := by
      cases p with
      | nil =>
        simp only [List.nil_append, token, List.cons_append, matchAt]
        simp
      | cons d p =>
        simp only [List.cons_append, matchAt]
        split
        · rename_i hcd
          exact absurd ⟨[], p, by simp [hcd.1, hcd.2]⟩ hp
        · rfl
    have e : (c :: p) ++ token k ++ q = c :: (p ++ token k ++ q) := by simp
    rw [e, replaceAll_cons_none f c _ hnone, ih hp2]
    simp

theorem splitBar_none (k : Str) (h : '|' ∉ k) : splitBar k = none := by
  induction k with
  | nil => rfl
  | cons a k ih =>
    have ha : a ≠ '|' := fun e => h (by simp [e])
    have hk : '|' ∉ k := fun e => h (List.mem_cons_of_mem _ e)
    simp [splitBar, ha, ih hk]

theorem splitBar_bar (k d : Str) (h : '|' ∉ k) : splitBar (k ++ '|' :: d) = some (k, d) := by
  induction k with
  | nil => simp [splitBar]
  | cons a k ih =>
    have ha : a ≠ '|' := fun e => h (by simp [e])
    have hk : '|' ∉ k := fun e => h (List.mem_cons_of_mem _ e)
    simp [splitBar, ha, ih hk]

theorem splitBar_some (s : Str) (h : splitBar s ≠ none) : '|' ∈ s := by
  induction s with
  | nil => simp [splitBar] at h
  | cons a s ih =>
    by_cases ha : a = '|'
    · simp [ha]
    · simp only [splitBar, ha, if_false] at h
      cases hs : splitBar s with
      | none => simp [hs] at h
      | some kd => exact List.mem_cons_of_mem _ (ih (by simp [hs]))

/-- The group that the callback of `interpolate` cuts out of a whole match. -/
theorem token_inner (k : Str) :
    ((token k).drop 2).take ((token k).length - 1 - 2) = k := by
  simp [token]

theorem resolve_plain (vars : StrMap) (k : Str) (h : '|' ∉ k) :
    resolve vars (token k) = match vars k with
      | some v => if v ≠ [] then v else token k
      | none => token k := by
  unfold resolve
  simp only [token_inner, splitBar_none k h]
  cases vars k <;> simp

theorem resolve_default (vars : StrMap) (k d : Str) (h : '|' ∉ k) :
    resolve vars (token (k ++ '|' :: d)) = match vars k with
      | some v => if v ≠ [] then v else if d ≠ [] then d else token (k ++ '|' :: d)
      | none => if d ≠ [] then d else token (k ++ '|' :: d) := by
  unfold resolve
  simp only [token_inner, splitBar_bar k d h]

/-- C7: a token `${K}` whose key has neither a closing brace nor a bar, between
texts free of `${`, is replaced by the value of K when K is present and not
empty, and is left as it stands when K is absent or empty. -/
theorem interpolate_token_without_default (K p q : Str) (vars : StrMap)
    (hK : K ≠ []) (hb : '}' ∉ K) (hbar : '|' ∉ K) (hp : ¬ HasOpener p) (hq : ¬ HasOpener q) :
    (∀ v, vars K = some v → v ≠ [] → interpolate (p ++ token K ++ q) vars = p ++ v ++ q) ∧
    ((vars K = none ∨ vars K = some []) →
      interpolate (p ++ token K ++ q) vars = p ++ token K ++ q) := by
  have key : interpolate (p ++ token K ++ q) vars = p ++ (resolve vars (token K) ++ q) := by
    unfold interpolate
    rw [replaceAll_before_token _ p K q hp, replaceAll_token _ K q hK hb,
      replaceAll_noToken _ q (noToken_of_noOpener q hq)]
  rw [key, resolve_plain vars K hbar]
  constructor
  · intro v hv hne
    simp [hv, hne]
  · rintro (h | h) <;> simp [h]

/-- C7 at the key `uuid` bound to `42`, inside `a${uuid}b`. -/
theorem interpolate_token_without_default_witness :
    interpolate "a${uuid}b".toList (StrMap.empty.set "uuid".toList "42".toList) = "a42b".toList :=
  (interpolate_token_without_default "uuid".toList "a".toList "b".toList
    (StrMap.empty.set "uuid".toList "42".toList) (by decide) (by decide) (by decide)
    (by decide) (by decide)).1 "42".toList (by decide) (by decide)

/-- C8, as the code has it: a token `${K|d}` whose key has no bar and whose
default is not empty is replaced by the value of K when K is present and not
empty, and by the default otherwise. -/
theorem interpolate_token_with_default (K d : Str) (vars : StrMap)
    (hb : '}' ∉ K) (hbar : '|' ∉ K) (hd : '}' ∉ d) (hne : d ≠ []) :
    (∀ v, vars K = some v → v ≠ [] → interpolate (token (K ++ '|' :: d)) vars = v) ∧
    ((vars K = none ∨ vars K = some []) → interpolate (token (K ++ '|' :: d)) vars = d) := by
  have hin : K ++ '|' :: d ≠ [] := by simp
  have hbr : '}' ∉ K ++ '|' :: d := by
    intro h
    rcases List.mem_append.mp h with h | h
    · exact hb h
    · rcases List.mem_cons.mp h with h | h
      · exact absurd h (by decide)
      · exact hd h
  have key : interpolate (token (K ++ '|' :: d)) vars = resolve vars (token (K ++ '|' :: d)) := by
    unfold interpolate
    have := replaceAll_token (resolve vars) (K ++ '|' :: d) [] hin hbr
    simpa [replaceAll_nil] using this
  rw [key, resolve_default vars K d hbar]
  constructor
  · intro v hv hv2
    simp [hv, hv2]
  · rintro (h | h) <;> simp [h, hne]

/-- C8 at the key `env` with the default `dev`, no variable being set. -/
theorem interpolate_token_with_default_witness :
    interpolate "${env|dev}".toList StrMap.empty = "dev".toList :=
  (interpolate_token_with_default "env".toList "dev".toList StrMap.empty
    (by decide) (by decide) (by decide) (by decide)).2 (Or.inl rfl)

/-- C8 fails as stated: with an empty default the token survives (the claim has
the empty text), and with a bar inside the key the text behind the first bar is
the default. -/
theorem interpolate_token_with_default_counterexample :
    interpolate "${K|}".toList StrMap.empty = "${K|}".toList ∧
    interpolate "${a|b|c}".toList StrMap.empty = "b|c".toList := by
  constructor <;> rfl

/-- C9: a text without a placeholder token is returned as it is; hence a result
of interpolation that holds no token is a fixed point of interpolation. -/
theorem interpolate_noToken (s : Str) (vars vars2 : StrMap) :
    (¬ HasToken s → interpolate s vars = s) ∧
    (¬ HasToken (interpolate s vars) →
      interpolate (interpolate s vars) vars2 = interpolate s vars) :=
  ⟨fun h => replaceAll_noToken _ s h, fun h => replaceAll_noToken _ _ h⟩

/-- C9 at a URL without a token, and at the result `a42b` of interpolating
`a${uuid}b`. -/
theorem interpolate_noToken_witness :
    interpolate "http://host/users".toList StrMap.empty = "http://host/users".toList ∧
    interpolate (interpolate "a${uuid}b".toList (StrMap.empty.set "uuid".toList "42".toList))
        StrMap.empty =
      interpolate "a${uuid}b".toList (StrMap.empty.set "uuid".toList "42".toList) :=
  ⟨(interpolate_noToken "http://host/users".toList StrMap.empty StrMap.empty).1
      (noToken_of_noOpener _ (by decide)),
    (interpolate_noToken "a${uuid}b".toList (StrMap.empty.set "uuid".toList "42".toList)
      StrMap.empty).2 (noToken_of_noOpener _ (by decide))⟩

/-! ## Scenario execution -/

theorem runStep_result (r : Runner) (env : Env) (s : ScenarioState) (st : Step) :
    ∃ sr : StepResult,
      (runStep r env s st).scRes.Steps = s.scRes.Steps ++ [sr] ∧
      (runStep r env s st).scRes.Passed = (s.scRes.Passed && sr.Passed) ∧
      (runStep r env s st).scRes.Name = s.scRes.Name := by
  unfold runStep
  simp only []
  split
  · exact ⟨_, rfl, by simp, rfl⟩
  · refine ⟨_, rfl, ?_, rfl⟩
    simp only []
    cases (evalExpectations _ _ _ _ _ _ _ _ _ _ _).1.Passed <;> simp

theorem runSteps_result (r : Runner) (env : Env) (steps : List Step) (s : ScenarioState) :
    ∃ new : List StepResult,
      (steps.foldl (runStep r env) s).scRes.Steps = s.scRes.Steps ++ new ∧
      new.length = steps.length ∧
      (steps.foldl (runStep r env) s).scRes.Passed =
        (s.scRes.Passed && new.all fun x => x.Passed) ∧
      (steps.foldl (runStep r env) s).scRes.Name = s.scRes.Name := by
  induction steps generalizing s with
  | nil => exact ⟨[], by simp, rfl, by simp, rfl⟩
  | cons st rest ih =>
    obtain ⟨sr, h1, h2, h3⟩ := runStep_result r env s st
    obtain ⟨new, g1, g2, g3, g4⟩ := ih (runStep r env s st)
    refine ⟨sr :: new, ?_, ?_, ?_, ?_⟩
    · simp [List.foldl_cons, g1, h1]
    · simp [g2]
    · simp [List.foldl_cons, g3, h2, Bool.and_assoc]
    · simp [List.foldl_cons, g4, h3]

/-- C1: the pass flag of a scenario is the conjunction of "setup returned no
error" and the pass flags of all its step results, and the result is the same
whatever the teardown actions are and however their requests end. -/
theorem runScenario_passed (r : Runner) (env : Env) (sc : Scenario) (w : World) :
    (runScenario r env sc w).1.Passed =
      ((runActions env sc.Setup (scenarioVars r env w) w).1.isNone &&
        (runScenario r env sc w).1.Steps.all fun x => x.Passed) ∧
    ∀ td : List Action,
      (runScenario r env { sc with Teardown := td } w).1 = (runScenario r env sc w).1 := by
  constructor
  · obtain ⟨new, g1, _, g3, _⟩ := runSteps_result r env sc.Steps
      { scRes := ⟨sc.Name, (match (runActions env sc.Setup (scenarioVars r env w) w).1 with
          | some _ => false
          | none => true), false, []⟩
        vars := scenarioVars r env w
        w := (runActions env sc.Setup (scenarioVars r env w) w).2 }
    simp only [runScenario, afterSteps]
    rw [g3, g1]
    cases (runActions env sc.Setup (scenarioVars r env w) w).1 <;> simp
  · intro td
    rfl

/-- What one call of `doRequest` does to the world: nothing, or the one event of
the request; an answer without error means the request was sent. -/
theorem doRequest_trace (env : Env) (q : Request) (w : World) :
    ((doRequest env q w).2 = w ∨
      (doRequest env q w).2 = { w with trace := w.trace ++ [httpEvent q] }) ∧
    (∀ resp, (doRequest env q w).1 = .ok resp →
      (doRequest env q w).2 = { w with trace := w.trace ++ [httpEvent q] }) := by
  unfold doRequest httpEvent
  cases bodyErr env q.Body with
  | some e => simp
  | none =>
    cases env.newRequestErr q.Method q.URL with
    | some e => simp
    | none =>
      cases env.http w.trace q (timeoutNanos q.TimeoutMs) <;> simp

/-- The requests that `runActions` sends are the first `k` requests of its
actions, in declared order; all of them when it returns no error. -/
theorem runActions_trace (env : Env) (acts : List Action) (vars : StrMap) (w : World) :
    ∃ k, k ≤ (actionRequests acts vars).length ∧
      (runActions env acts vars w).2 =
        { w with trace := w.trace ++ ((actionRequests acts vars).take k).map httpEvent } ∧
      ((runActions env acts vars w).1 = none → k = (actionRequests acts vars).length) := by
  induction acts generalizing w with
  | nil => exact ⟨0, by simp [actionRequests], by simp [runActions], by simp [actionRequests]⟩
  | cons a rest ih =>
    cases ha : a.Request with
    | none =>
      obtain ⟨k, h1, h2, h3⟩ := ih w
      refine ⟨k, ?_, ?_, ?_⟩
      · simpa [actionRequests, ha] using h1
      · simpa [runActions, actionRequests, ha] using h2
      · simpa [runActions, actionRequests, ha] using h3
    | some rq =>
      have hreq : actionRequests (a :: rest) vars =
          expandRequest rq vars :: actionRequests rest vars := by
        simp [actionRequests, ha]
      obtain ⟨hcase, hok⟩ := doRequest_trace env (expandRequest rq vars) w
      cases hd : doRequest env (expandRequest rq vars) w with
      | mk out w1 =>
        rw [hd] at hcase hok
        cases out with
        | error e =>
          rcases hcase with h | h
          · refine ⟨0, by simp, ?_, ?_⟩
            · simp only [runActions, ha, hd]
              simpa using h
            · simp [runActions, ha, hd]
          · refine ⟨1, by simp [hreq], ?_, ?_⟩
            · simp only [runActions, ha, hd, hreq]
              simpa using h
            · simp [runActions, ha, hd]
        | ok resp =>
          have hw1 := hok resp rfl
          simp only [] at hw1
          obtain ⟨k, h1, h2, h3⟩ := ih w1
          refine ⟨k + 1, by simp [hreq]; omega, ?_, ?_⟩
          · simp only [runActions, ha, hd, hreq]
            rw [h2, hw1]
            simp
          · simp only [runActions, ha, hd, hreq]
            intro hnone
            simp [h3 hnone]

/-- C2 fails as stated: when the endpoint refuses the first teardown request,
the second teardown request is never sent. -/
theorem runScenario_teardown_counterexample :
    (runScenario New refusingEnv twoTeardowns World.init).2.trace.map eventURL =
      [some "/a".toList] := by
  rfl

/-! ## Suite execution -/

theorem runScenario_name (r : Runner) (env : Env) (sc : Scenario) (w : World) :
    (runScenario r env sc w).1.Name = sc.Name := by
  obtain ⟨_, _, _, _, g4⟩ := runSteps_result r env sc.Steps
    { scRes := ⟨sc.Name, (match (runActions env sc.Setup (scenarioVars r env w) w).1 with
        | some _ => false
        | none => true), false, []⟩
      vars := scenarioVars r env w
      w := (runActions env sc.Setup (scenarioVars r env w) w).2 }
  simp only [runScenario, afterSteps]
  exact g4

theorem evalExpectations_congr (r r2 : Runner) (h : r.contractV = r2.contractV)
    (status : Int) (jsonBody : Option (List (Str × GoVal))) (vars : StrMap) (method url : Str)
    (respHeaders : RespHeaders) (rawBody : Str) (exps : List Expectation) (sr : StepResult)
    (w : World) :
    evalExpectations r status jsonBody vars method url respHeaders rawBody exps sr w =
      evalExpectations r2 status jsonBody vars method url respHeaders rawBody exps sr w := by
  induction exps generalizing sr w with
  | nil => rfl
  | cons e rest ih =>
    have he : evalExpectation r e status jsonBody vars method url respHeaders rawBody w =
        evalExpectation r2 e status jsonBody vars method url respHeaders rawBody w := by
      unfold evalExpectation
      rw [h]
    simp only [evalExpectations, he, ih]

/-- A scenario runs the same under two runners with the same base variables and
the same validator. -/
theorem runScenario_congr (r r2 : Runner) (hv : r.baseVars = r2.baseVars)
    (hc : r.contractV = r2.contractV) (env : Env) :
    runScenario r env = runScenario r2 env := by
  have hstep : runStep r env = runStep r2 env := by
    funext s st
    unfold runStep
    simp only [evalExpectations_congr r r2 hc]
  funext sc w
  simp only [runScenario, afterSteps, scenarioVars, hstep, hv]

theorem runInOrder_congr (ff : Bool) (r r2 : Runner) (hv : r.baseVars = r2.baseVars)
    (hc : r.contractV = r2.contractV) (env : Env) (scs : List Scenario) (w : World) :
    runInOrder ff r env scs w = runInOrder ff r2 env scs w := by
  induction scs generalizing w with
  | nil => rfl
  | cons sc rest ih => simp only [runInOrder, runScenario_congr r r2 hv hc env, ih]

theorem set_middle {α : Type} (done : List α) (a x : α) (t : List α) :
    (done ++ a :: t).set done.length x = done ++ x :: t := by
  induction done with
  | nil => rfl
  | cons d done ih => simp [List.set, ih]

theorem take_middle {α : Type} (done : List α) (x : α) (t : List α) :
    (done ++ x :: t).take (done.length + 1) = done ++ [x] := by
  induction done with
  | nil => simp
  | cons d done ih => simpa using ih

/-- The loop of the sequential mode, started on a result vector whose first
places are filled, fills the next places with the results of `runInOrder`. -/
theorem runSequential_eq (r : Runner) (env : Env) (scs : List Scenario) (done : List ScenarioResult)
    (p : Bool) (w : World) :
    runSequential r env scs done.length ⟨p, done ++ List.replicate scs.length default⟩ w =
      (⟨p && (runInOrder r.failFast r env scs w).1.all fun x => x.Passed,
          done ++ (runInOrder r.failFast r env scs w).1⟩,
        (runInOrder r.failFast r env scs w).2) := by
  induction scs generalizing done p w with
  | nil => simp [runSequential, runInOrder]
  | cons sc rest ih =>
    simp only [runSequential, runInOrder, List.length_cons, List.replicate_succ, set_middle]
    by_cases hb : (r.failFast && !(runScenario r env sc w).1.Passed) = true
    · simp only [hb, if_true, take_middle]
      have hp : (runScenario r env sc w).1.Passed = false := by
        simp only [Bool.and_eq_true, Bool.not_eq_true'] at hb
        exact hb.2
      simp [hp]
    · simp only [hb, if_false]
      have h := ih (done ++ [(runScenario r env sc w).1])
        (if !(runScenario r env sc w).1.Passed then false else p) (runScenario r env sc w).2
      simp only [List.length_append, List.length_singleton, List.append_assoc,
        List.singleton_append] at h
      rw [h]
      cases hq : (runScenario r env sc w).1.Passed <;> simp [hq]

theorem runInOrder_names (r : Runner) (env : Env) (scs : List Scenario) (w : World) :
    (runInOrder false r env scs w).1.map (fun x => x.Name) = scs.map fun sc => sc.Name := by
  induction scs generalizing w with
  | nil => rfl
  | cons sc rest ih => simp [runInOrder, runScenario_name, ih]

/-- With fail-fast set, the run in order is the run without fail-fast of the
scenarios up to the first one that fails. -/
theorem runInOrder_failFast (r : Runner) (env : Env) (scs : List Scenario) (w : World) (k : Nat)
    (hk : ((runInOrder false r env scs w).1[k]?).map (fun x => x.Passed) = some false)
    (hbefore : ∀ j, j < k →
      ((runInOrder false r env scs w).1[j]?).map (fun x => x.Passed) = some true) :
    runInOrder true r env scs w = runInOrder false r env (scs.take (k + 1)) w ∧
    (runInOrder false r env (scs.take (k + 1)) w).1 =
      (runInOrder false r env scs w).1.take (k + 1) := by
  induction scs generalizing w k with
  | nil => simp [runInOrder] at hk
  | cons sc rest ih =>
    cases k with
    | zero =>
      have hp : (runScenario r env sc w).1.Passed = false := by
        simpa [runInOrder] using hk
      simp [runInOrder, hp]
    | succ k =>
      have hp : (runScenario r env sc w).1.Passed = true := by
        simpa [runInOrder] using hbefore 0 (Nat.succ_pos k)
      have hk2 : ((runInOrder false r env rest (runScenario r env sc w).2).1[k]?).map
          (fun x => x.Passed) = some false := by
        simpa [runInOrder] using hk
      have hb2 : ∀ j, j < k →
          ((runInOrder false r env rest (runScenario r env sc w).2).1[j]?).map
            (fun x => x.Passed) = some true := by
        intro j hj
        simpa [runInOrder] using hbefore (j + 1) (Nat.succ_lt_succ hj)
      obtain ⟨h1, h2⟩ := ih (runScenario r env sc w).2 k hk2 hb2
      constructor
      · simp only [runInOrder, List.take_succ_cons, hp, Bool.not_true, Bool.and_false,
          Bool.false_eq_true, if_false, h1]
      · simp only [runInOrder, List.take_succ_cons, Bool.false_and, Bool.false_eq_true,
          if_false, h2]

/-- The collector of the pool, for a delivery order without repetition: the
places of the delivered jobs hold the results of their scenarios, the other
places are untouched, and the flag stays true exactly when it was true and all
delivered results passed. -/
theorem runPool_spec (r : Runner) (env : Env) (scs : List Scenario) (rest : List Nat)
    (res : SuiteResult) (w : World) (hlt : ∀ i ∈ rest, i < scs.length) (hnd : rest.Nodup)
    (hlen : res.Scenarios.length = scs.length) :
    (runPool r env scs rest res w).1.Scenarios.length = scs.length ∧
    (∀ i, i ∉ rest → (runPool r env scs rest res w).1.Scenarios[i]? = res.Scenarios[i]?) ∧
    (∀ i ∈ rest, ∃ sc wi, scs[i]? = some sc ∧
      (runPool r env scs rest res w).1.Scenarios[i]? = some (runScenario r env sc wi).1) ∧
    ((runPool r env scs rest res w).1.Passed = true ↔
      res.Passed = true ∧ ∀ i ∈ rest, ∃ x,
        (runPool r env scs rest res w).1.Scenarios[i]? = some x ∧ x.Passed = true) := by
  induction rest generalizing res w with
  | nil => simp [runPool, hlen]
  | cons idx rest ih =>
    have hidx : idx < scs.length := hlt idx (List.mem_cons_self _ _)
    have hsc : scs[idx]? = some scs[idx] := List.getElem?_eq_getElem hidx
    have hnot : idx ∉ rest := (List.nodup_cons.mp hnd).1
    have hnd2 : rest.Nodup := (List.nodup_cons.mp hnd).2
    have hlt2 : ∀ i ∈ rest, i < scs.length := fun i hi => hlt i (List.mem_cons_of_mem _ hi)
    obtain ⟨h1, h2, h3, h4⟩ := ih
      { Passed := if !(runScenario r env scs[idx] w).1.Passed then false else res.Passed
        Scenarios := res.Scenarios.set idx (runScenario r env scs[idx] w).1 }
      (runScenario r env scs[idx] w).2 hlt2 hnd2 (by simp [hlen])
    have hset : (res.Scenarios.set idx (runScenario r env scs[idx] w).1)[idx]? =
        some (runScenario r env scs[idx] w).1 := by
      exact List.getElem?_set_self (by simp [hlen, hidx])
    simp only [runPool, hsc]
    refine ⟨h1, ?_, ?_, ?_⟩
    · intro i hi
      have hne : i ≠ idx := fun e => hi (by simp [e])
      have hir : i ∉ rest := fun e => hi (List.mem_cons_of_mem _ e)
      rw [h2 i hir]
      exact List.getElem?_set_ne (Ne.symm hne)
    · intro i hi
      rcases List.mem_cons.mp hi with e | e
      · subst e
        exact ⟨scs[i], w, hsc, by rw [h2 i hnot, hset]⟩
      · exact h3 i e
    · rw [h4]
      constructor
      · rintro ⟨hp, hall⟩
        have hx : (runScenario r env scs[idx] w).1.Passed = true := by
          cases hq : (runScenario r env scs[idx] w).1.Passed
          · simp [hq] at hp
          · rfl
        refine ⟨by simpa [hx] using hp, ?_⟩
        intro i hi
        rcases List.mem_cons.mp hi with e | e
        · subst e
          exact ⟨_, by rw [h2 i hnot, hset], hx⟩
        · exact hall i e
      · rintro ⟨hp, hall⟩
        obtain ⟨x, hx1, hx2⟩ := hall idx (List.mem_cons_self _ _)
        rw [h2 idx hnot, hset] at hx1
        have hx : (runScenario r env scs[idx] w).1.Passed = true := by
          rw [Option.some.inj hx1]
          exact hx2
        exact ⟨by simp [hx, hp], fun i hi => hall i (List.mem_cons_of_mem _ hi)⟩

/-- What `RunSuite` returns in the sequential mode. -/
theorem RunSuite_sequential (r : Runner) (env : Env) (order : List Nat) (suite : TestSuite)
    (w : World) (h : r.failFast = true ∨ r.parallel ≤ 1) :
    RunSuite r env order (some suite) w =
      .ok (⟨(runInOrder r.failFast r env suite.Scenarios w).1.all fun x => x.Passed,
          (runInOrder r.failFast r env suite.Scenarios w).1⟩,
        (runInOrder r.failFast r env suite.Scenarios w).2) := by
  have hseq := runSequential_eq r env suite.Scenarios [] true w
  simp only [List.length_nil, List.nil_append, Bool.true_and] at hseq
  have hpar : (if (if r.failFast = true then (1 : Int) else r.parallel) < 1 then (1 : Int)
      else (if r.failFast = true then (1 : Int) else r.parallel)) = 1 := by
    rcases h with h | h
    · simp [h]
    · by_cases hf : r.failFast = true
      · simp [hf]
      · simp only [hf, if_false]
        split <;> omega
  simp only [RunSuite, hpar, if_true, hseq]

/-- What `RunSuite` returns in the worker-pool mode. -/
theorem RunSuite_pool (r : Runner) (env : Env) (order : List Nat) (suite : TestSuite)
    (w : World) (hff : r.failFast = false) (hpar : 1 < r.parallel) :
    RunSuite r env order (some suite) w =
      .ok (runPool r env suite.Scenarios order
        ⟨true, List.replicate suite.Scenarios.length default⟩ w) := by
  have hne : ¬ ((if (if r.failFast = true then (1 : Int) else r.parallel) < 1 then (1 : Int)
      else (if r.failFast = true then (1 : Int) else r.parallel)) = 1) := by
    simp only [hff, Bool.false_eq_true, if_false]
    split <;> omega
  simp only [RunSuite, hne, if_false]

theorem order_facts (order : List Nat) (n : Nat) (h : order.Perm (List.range n)) :
    (∀ i, i ∈ order ↔ i < n) ∧ order.Nodup :=
  ⟨fun i => by rw [h.mem_iff, List.mem_range], h.nodup_iff.mpr (List.nodup_range n)⟩

/-- C3: the pass flag of the suite result is the conjunction of the pass flags
of the scenario results returned, in each mode of execution (in the pool, for
every order in which the workers deliver their results). -/
theorem RunSuite_passed (r : Runner) (env : Env) (order : List Nat) (suite : TestSuite)
    (w : World) (horder : order.Perm (List.range suite.Scenarios.length)) :
    ∃ res w2, RunSuite r env order (some suite) w = .ok (res, w2) ∧
      res.Passed = res.Scenarios.all fun x => x.Passed := by
  by_cases hseq : r.failFast = true ∨ r.parallel ≤ 1
  · exact ⟨_, _, RunSuite_sequential r env order suite w hseq, rfl⟩
  · have hff : r.failFast = false := by
      cases h : r.failFast
      · rfl
      · exact absurd (Or.inl h) hseq
    have hpar : 1 < r.parallel := by
      by_contra hc
      exact hseq (Or.inr (by omega))
    obtain ⟨hmem, hnd⟩ := order_facts order _ horder
    obtain ⟨h1, _, _, h4⟩ := runPool_spec r env suite.Scenarios order
      ⟨true, List.replicate suite.Scenarios.length default⟩ w
      (fun i hi => (hmem i).mp hi) hnd (by simp)
    refine ⟨_, _, RunSuite_pool r env order suite w hff hpar, ?_⟩
    rw [Bool.eq_iff_iff, h4, List.all_eq_true]
    constructor
    · rintro ⟨_, hall⟩ x hx
      obtain ⟨i, hi, rfl⟩ := List.mem_iff_getElem.mp hx
      obtain ⟨y, hy1, hy2⟩ := hall i ((hmem i).mpr (by rw [← h1]; exact hi))
      rw [List.getElem?_eq_getElem hi] at hy1
      rw [Option.some.inj hy1]
      exact hy2
    · intro hall
      refine ⟨rfl, fun i hi => ?_⟩
      have hlt : i < (runPool r env suite.Scenarios order
          ⟨true, List.replicate suite.Scenarios.length default⟩ w).1.Scenarios.length := by
        rw [h1]
        exact (hmem i).mp hi
      exact ⟨_, List.getElem?_eq_getElem hlt, hall _ (List.getElem_mem hlt)⟩

/-- C3 on the suite `failThenPass` run by a pool of two workers that deliver
the second result first. -/
theorem RunSuite_passed_witness :
    ∃ res w2, RunSuite (New.WithParallel 2) (answeringEnv [] none) [1, 0] (some failThenPass)
        World.init = .ok (res, w2) ∧
      res.Passed = res.Scenarios.all fun x => x.Passed :=
  RunSuite_passed (New.WithParallel 2) (answeringEnv [] none) [1, 0] failThenPass World.init
    (by decide)

/-- C4: with fail-fast off, `RunSuite` returns one result for each declared
scenario and result `i` carries the name of scenario `i`, whatever the number of
workers and whatever the order in which they deliver their results. -/
theorem RunSuite_order (r : Runner) (env : Env) (order : List Nat) (suite : TestSuite)
    (w : World) (hff : r.failFast = false)
    (horder : order.Perm (List.range suite.Scenarios.length)) :
    ∃ res w2, RunSuite r env order (some suite) w = .ok (res, w2) ∧
      res.Scenarios.length = suite.Scenarios.length ∧
      res.Scenarios.map (fun x => x.Name) = suite.Scenarios.map fun sc => sc.Name := by
  by_cases hseq : r.parallel ≤ 1
  · refine ⟨_, _, RunSuite_sequential r env order suite w (Or.inr hseq), ?_, ?_⟩
    · have := congrArg List.length (runInOrder_names r env suite.Scenarios w)
      simpa [hff] using this
    · simpa [hff] using runInOrder_names r env suite.Scenarios w
  · have hpar : 1 < r.parallel := by omega
    obtain ⟨hmem, hnd⟩ := order_facts order _ horder
    obtain ⟨h1, _, h3, _⟩ := runPool_spec r env suite.Scenarios order
      ⟨true, List.replicate suite.Scenarios.length default⟩ w
      (fun i hi => (hmem i).mp hi) hnd (by simp)
    refine ⟨_, _, RunSuite_pool r env order suite w hff hpar, h1, ?_⟩
    apply List.ext_getElem?
    intro i
    by_cases hi : i < suite.Scenarios.length
    · obtain ⟨sc, wi, e1, e2⟩ := h3 i ((hmem i).mpr hi)
      simp only [List.getElem?_map, e1, e2, Option.map_some', runScenario_name]
    · have hge : suite.Scenarios.length ≤ i := by omega
      rw [List.getElem?_eq_none (by simpa [h1] using hge),
        List.getElem?_eq_none (by simpa using hge)]

/-- C4 on the suite `failThenPass` run by a pool of two workers that deliver
the second result first. -/
theorem RunSuite_order_witness :
    ∃ res w2, RunSuite (New.WithParallel 2) (answeringEnv [] none) [1, 0] (some failThenPass)
        World.init = .ok (res, w2) ∧
      res.Scenarios.length = failThenPass.Scenarios.length ∧
      res.Scenarios.map (fun x => x.Name) = failThenPass.Scenarios.map fun sc => sc.Name :=
  RunSuite_order (New.WithParallel 2) (answeringEnv [] none) [1, 0] failThenPass World.init
    rfl (by decide)

/-- C5: with fail-fast set and whatever parallelism is requested, when scenario
`k` is the first that fails (in the run of the suite without fail-fast),
`RunSuite` returns `k + 1` results, the first `k` passed, the last one failed,
the suite failed, and the run is, result and final world, the sequential run of
the suite cut behind scenario `k`: no later scenario is executed. -/
theorem RunSuite_failFast (r : Runner) (env : Env) (order : List Nat) (suite : TestSuite)
    (w : World) (k : Nat) (full : SuiteResult) (wf : World) (hff : r.failFast = true)
    (hfull : RunSuite ((r.WithFailFast false).WithParallel 1) env order (some suite) w =
      .ok (full, wf))
    (hk : (full.Scenarios[k]?).map (fun x => x.Passed) = some false)
    (hbefore : ∀ j, j < k → (full.Scenarios[j]?).map (fun x => x.Passed) = some true) :
    ∃ res w2, RunSuite r env order (some suite) w = .ok (res, w2) ∧
      res.Scenarios.length = k + 1 ∧
      (∀ j, j < k → (res.Scenarios[j]?).map (fun x => x.Passed) = some true) ∧
      (res.Scenarios[k]?).map (fun x => x.Passed) = some false ∧
      res.Passed = false ∧
      res.Scenarios = full.Scenarios.take (k + 1) ∧
      RunSuite ((r.WithFailFast false).WithParallel 1) env order
        (some { suite with Scenarios := suite.Scenarios.take (k + 1) }) w = .ok (res, w2) := by
  have hr2 : ((r.WithFailFast false).WithParallel 1).failFast = false := rfl
  have hcongr := fun scs => runInOrder_congr false ((r.WithFailFast false).WithParallel 1) r
    rfl rfl env scs w
  have e1 := RunSuite_sequential ((r.WithFailFast false).WithParallel 1) env order suite w
    (Or.inr (by simp [Runner.WithParallel]))
  rw [hr2, hcongr, hfull] at e1
  have hfs : full.Scenarios = (runInOrder false r env suite.Scenarios w).1 := by
    have := congrArg (fun x => match x with
      | Except.ok y => y.1.Scenarios
      | Except.error _ => []) e1
    simpa using this
  rw [hfs] at hk hbefore
  obtain ⟨h1, h2⟩ := runInOrder_failFast r env suite.Scenarios w k hk hbefore
  have e2 := RunSuite_sequential r env order suite w (Or.inl hff)
  rw [hff, h1] at e2
  have e3 := RunSuite_sequential ((r.WithFailFast false).WithParallel 1) env order
    { suite with Scenarios := suite.Scenarios.take (k + 1) } w
    (Or.inr (by simp [Runner.WithParallel]))
  rw [hr2, hcongr] at e3
  have hklt : k < (runInOrder false r env suite.Scenarios w).1.length := by
    by_contra hc
    rw [List.getElem?_eq_none (by omega)] at hk
    simp at hk
  have hkth : ((runInOrder false r env (suite.Scenarios.take (k + 1)) w).1[k]?).map
      (fun x => x.Passed) = some false := by
    rw [h2, List.getElem?_take_of_lt (Nat.lt_succ_self k)]
    exact hk
  refine ⟨_, _, e2, ?_, ?_, hkth, ?_, ?_, e3⟩
  · simp only [h2, List.length_take]
    omega
  · intro j hj
    simp only [h2]
    rw [List.getElem?_take_of_lt (Nat.lt_succ_of_lt hj)]
    exact hbefore j hj
  · simp only []
    rw [Bool.eq_false_iff]
    intro hall
    rw [List.all_eq_true] at hall
    cases hx : (runInOrder false r env (suite.Scenarios.take (k + 1)) w).1[k]? with
    | none => simp [hx] at hkth
    | some x =>
      have hmem : x ∈ (runInOrder false r env (suite.Scenarios.take (k + 1)) w).1 :=
        List.getElem?_mem hx
      have := hall x hmem
      simp [hx, this] at hkth
  · simp only [h2, hfs]

/-- C5 on the suite `failThenPass`, whose first scenario fails, with four
workers requested. -/
theorem RunSuite_failFast_witness :
    ∃ res w2, RunSuite ((New.WithParallel 4).WithFailFast true) (answeringEnv [] none) []
        (some failThenPass) World.init = .ok (res, w2) ∧
      res.Scenarios.length = 0 + 1 ∧
      (∀ j, j < 0 → (res.Scenarios[j]?).map (fun x => x.Passed) = some true) ∧
      (res.Scenarios[0]?).map (fun x => x.Passed) = some false ∧
      res.Passed = false ∧
      res.Scenarios =
        (runSequential (((New.WithParallel 4).WithFailFast true).WithFailFast false)
          (answeringEnv [] none) failThenPass.Scenarios 0
          ⟨true, List.replicate 2 default⟩ World.init).1.Scenarios.take (0 + 1) ∧
      RunSuite ((((New.WithParallel 4).WithFailFast true).WithFailFast false).WithParallel 1)
        (answeringEnv [] none) []
        (some { failThenPass with Scenarios := failThenPass.Scenarios.take (0 + 1) })
        World.init = .ok (res, w2) :=
  RunSuite_failFast ((New.WithParallel 4).WithFailFast true) (answeringEnv [] none) []
    failThenPass World.init 0 _ _ rfl rfl (by decide) (fun j hj => absurd hj (Nat.not_lt_zero j))

/-! ## The unresolved-variable guard -/

theorem mem_findUnresolved (s key : Str) (hmem : key ∈ findAllSubmatch s) (hbar : '|' ∉ key) :
    token key ∈ findUnresolved s := by
  unfold findUnresolved
  rw [List.mem_filterMap]
  exact ⟨key, hmem, by simp [splitBar_none key hbar]⟩

theorem infix_join (sep t : Str) (l : List Str) (h : t ∈ l) : t <:+: join sep l := by
  induction l with
  | nil => simp at h
  | cons a l ih =>
    cases l with
    | nil =>
      have : t = a := by simpa using h
      subst this
      exact List.infix_refl _
    | cons b l =>
      rcases List.mem_cons.mp h with e | e
      · subst e
        exact ⟨[], sep ++ join sep (b :: l), by simp [join]⟩
      · obtain ⟨x, y, hxy⟩ := ih e
        exact ⟨a ++ sep ++ x, y, by simp [join, ← hxy]⟩

theorem infix_unresolvedMsg (t : Str) (l : List Str) (h : t ∈ l) : t <:+: unresolvedMsg l := by
  obtain ⟨x, y, hxy⟩ := infix_join ", ".toList t l h
  refine ⟨"unresolved variables in URL: ".toList ++ x,
    y ++ " (define via --env or use ${VAR|default})".toList, ?_⟩
  unfold unresolvedMsg
  rw [← hxy]
  simp only [List.append_assoc]

/-- The guard at the level of one step without hooks. -/
theorem runStep_unresolved (r : Runner) (env : Env) (s : ScenarioState) (st : Step)
    (hhooks : st.Hooks = [])
    (htok : ∃ key ∈ findAllSubmatch (interpolate st.Request.URL s.vars), '|' ∉ key) :
    ∃ sr, (runStep r env s st).scRes.Steps = s.scRes.Steps ++ [sr] ∧
      sr.Passed = false ∧
      sr.Errors = [unresolvedMsg (findUnresolved (interpolate st.Request.URL s.vars))] ∧
      (runStep r env s st).w = s.w ∧
      (runStep r env s st).scRes.Passed = false := by
  obtain ⟨key, hmem, hbar⟩ := htok
  have hpos : (findUnresolved (interpolate st.Request.URL s.vars)).length > 0 :=
    List.length_pos_of_mem (mem_findUnresolved _ key hmem hbar)
  unfold runStep
  simp only [hhooks, List.foldl_nil]
  have hurl : (expandRequest st.Request s.vars).URL = interpolate st.Request.URL s.vars := rfl
  rw [hurl]
  rw [if_pos hpos]
  exact ⟨_, rfl, rfl, by simp, rfl, rfl⟩

theorem runSteps_failed (r : Runner) (env : Env) (steps : List Step) (s : ScenarioState)
    (h : s.scRes.Passed = false) : (steps.foldl (runStep r env) s).scRes.Passed = false := by
  obtain ⟨_, _, _, g3, _⟩ := runSteps_result r env steps s
  rw [g3, h]
  rfl

/-- C6: when a step without hooks is reached with variables under which its
expanded URL still holds a token `${KEY}` without a default, its result, at the
place of the step, has failed with exactly one error, the error names every
such token, the step leaves the world as it found it (no request is sent), and
the scenario fails. -/
theorem runScenario_unresolved (r : Runner) (env : Env) (sc : Scenario) (w : World)
    (pre post : List Step) (st : Step) (hsteps : sc.Steps = pre ++ st :: post)
    (hhooks : st.Hooks = [])
    (htok : ∃ key ∈ findAllSubmatch
      (interpolate st.Request.URL (afterSteps r env { sc with Steps := pre } w).vars), '|' ∉ key) :
    ∃ sr msg, (runScenario r env sc w).1.Steps[pre.length]? = some sr ∧
      sr.Passed = false ∧ sr.Errors = [msg] ∧
      (∀ key ∈ findAllSubmatch
          (interpolate st.Request.URL (afterSteps r env { sc with Steps := pre } w).vars),
        '|' ∉ key → token key <:+: msg) ∧
      (runStep r env (afterSteps r env { sc with Steps := pre } w) st).w =
        (afterSteps r env { sc with Steps := pre } w).w ∧
      (runScenario r env sc w).1.Passed = false := by
  obtain ⟨sr, h1, h2, h3, h4, h5⟩ :=
    runStep_unresolved r env (afterSteps r env { sc with Steps := pre } w) st hhooks htok
  have hsplit : afterSteps r env sc w =
      post.foldl (runStep r env) (runStep r env (afterSteps r env { sc with Steps := pre } w) st) := by
    simp only [afterSteps, hsteps, List.foldl_append, List.foldl_cons]
  obtain ⟨new1, a1, a2, _, _⟩ := runSteps_result r env pre
    { scRes := ⟨sc.Name, (match (runActions env sc.Setup (scenarioVars r env w) w).1 with
        | some _ => false
        | none => true), false, []⟩
      vars := scenarioVars r env w
      w := (runActions env sc.Setup (scenarioVars r env w) w).2 }
  have hpre : (afterSteps r env { sc with Steps := pre } w).scRes.Steps = new1 := by
    simp only [afterSteps]
    simpa using a1
  obtain ⟨new2, b1, _, _, _⟩ := runSteps_result r env post
    (runStep r env (afterSteps r env { sc with Steps := pre } w) st)
  refine ⟨sr, _, ?_, h2, h3, ?_, h4, ?_⟩
  · simp only [runScenario, hsplit, b1, h1, hpre]
    rw [← a2, List.append_assoc, List.getElem?_append_right (le_refl _)]
    simp
  · intro key hmem hbar
    exact infix_unresolvedMsg _ _ (mem_findUnresolved _ key hmem hbar)
  · simp only [runScenario, hsplit]
    exact runSteps_failed r env post _ h5

/-- C6 on a scenario whose only step requests `/users/${id}` while `id` is not
defined. -/
theorem runScenario_unresolved_witness :
    ∃ sr msg, (runScenario New refusingEnv unresolvedScenario World.init).1.Steps[0]? = some sr ∧
      sr.Passed = false ∧ sr.Errors = [msg] ∧
      (∀ key ∈ findAllSubmatch (interpolate "/users/${id}".toList
          (afterSteps New refusingEnv { unresolvedScenario with Steps := [] } World.init).vars),
        '|' ∉ key → token key <:+: msg) ∧
      (runStep New refusingEnv
          (afterSteps New refusingEnv { unresolvedScenario with Steps := [] } World.init)
          ⟨[], simpleRequest "GET".toList "/users/${id}".toList, [], []⟩).w =
        (afterSteps New refusingEnv { unresolvedScenario with Steps := [] } World.init).w ∧
      (runScenario New refusingEnv unresolvedScenario World.init).1.Passed = false :=
  runScenario_unresolved New refusingEnv unresolvedScenario World.init [] []
    ⟨[], simpleRequest "GET".toList "/users/${id}".toList, [], []⟩ rfl rfl
    ⟨"id".toList, by decide, by decide⟩

/-! ## The `jsonPath` expectation -/

theorem compareJSON_str (target gs : Str) (want : GoVal) :
    (compareJSON target (.str gs) want).1 = true ↔ want = .str gs := by
  cases want <;> simp [compareJSON]
  rename_i ws
  by_cases h : gs = ws
  · simp [h]
  · simp [h, Ne.symm h]

theorem compareJSON_other (target : Str) (got want : GoVal) (h : ∀ gs, got ≠ .str gs) :
    (compareJSON target got want).1 = true ↔ goSprint got = goSprint want := by
  cases got with
  | str gs => exact absurd rfl (h gs)
  | _ =>
    simp only [compareJSON]
    split <;> simp_all

/-- C10, as the code has it: for a field present at the top level of the body
with value `g`, a `jsonPath` expectation with the value `w` passes, when `g` is
a string, iff `w` is a string whose interpolation is `g`; and, when `g` is not
a string, iff the canonical string forms of `g` and of `w` (interpolated first
when it is a string) are equal. -/
theorem evalExpectation_jsonPath (r : Runner) (exp : Expectation) (status : Int)
    (jsonBody : Option (List (Str × GoVal))) (vars : StrMap) (method url : Str)
    (respHeaders : RespHeaders) (rawBody : Str) (w : World) (g : GoVal)
    (htyp : exp.Typ = ExpectJSONPath)
    (hfield : lookupField (trimPrefix exp.Target "$.".toList) jsonBody = some g) :
    (∀ gs, g = .str gs →
      ((evalExpectation r exp status jsonBody vars method url respHeaders rawBody w).1.1 = true ↔
        ∃ ws, exp.Value = .str ws ∧ interpolate ws vars = gs)) ∧
    ((∀ gs, g ≠ .str gs) →
      ((evalExpectation r exp status jsonBody vars method url respHeaders rawBody w).1.1 = true ↔
        goSprint g = goSprint (wantValue exp.Value vars))) := by
  have hne : ¬ (ExpectJSONPath = ExpectStatus) := by decide
  have hev : (evalExpectation r exp status jsonBody vars method url respHeaders rawBody w).1 =
      compareJSON exp.Target g (wantValue exp.Value vars) := by
    unfold evalExpectation
    simp only [htyp, hne, if_false, if_true, hfield]
  rw [hev]
  constructor
  · intro gs hg
    subst hg
    rw [compareJSON_str]
    cases hv : exp.Value <;> simp [wantValue]
  · intro hg
    exact compareJSON_other _ _ _ hg

/-- C10 for the number 201 in the body, a `float64` that prints as `201`,
against the expected string `201`: the expectation passes. The number 1000000
in the body prints as `1e+06`, and the expectation fails against the expected
integer 1000000, which prints as `1000000`. -/
theorem evalExpectation_jsonPath_witness :
    (evalExpectation New ⟨ExpectJSONPath, "$.code".toList, .str "201".toList⟩ 201
        (some [("code".toList, .float "201".toList 201)]) StrMap.empty [] [] (fun _ => none) []
        World.init).1.1 = true ∧
    (evalExpectation New ⟨ExpectJSONPath, "$.n".toList, .num 1000000⟩ 200
        (some [("n".toList, .float "1e+06".toList 1000000)]) StrMap.empty [] [] (fun _ => none)
        [] World.init).1.1 = false :=
  ⟨((evalExpectation_jsonPath New ⟨ExpectJSONPath, "$.code".toList, .str "201".toList⟩ 201
      (some [("code".toList, .float "201".toList 201)]) StrMap.empty [] [] (fun _ => none) []
      World.init (.float "201".toList 201) rfl rfl).2 (fun gs h => by cases h)).mpr rfl,
    Bool.eq_false_iff.mpr fun hpass =>
      absurd (((evalExpectation_jsonPath New ⟨ExpectJSONPath, "$.n".toList, .num 1000000⟩ 200
        (some [("n".toList, .float "1e+06".toList 1000000)]) StrMap.empty [] []
        (fun _ => none) [] World.init (.float "1e+06".toList 1000000) rfl rfl).2
        (fun gs h => by cases h)).mp hpass) (by decide)⟩

/-- C10 fails as stated: the string `201` in the body and the expected number
201 have the same canonical string form, and the expectation fails; so does the
string `true` against the expected boolean. -/
theorem evalExpectation_jsonPath_counterexample :
    goSprint (.str "201".toList) = goSprint (.num 201) ∧
    (evalExpectation New ⟨ExpectJSONPath, "$.code".toList, .num 201⟩ 201
        (some [("code".toList, .str "201".toList)]) StrMap.empty [] [] (fun _ => none) []
        World.init).1.1 = false ∧
    goSprint (.str "true".toList) = goSprint (.bool true) ∧
    (evalExpectation New ⟨ExpectJSONPath, "$.ok".toList, .bool true⟩ 200
        (some [("ok".toList, .str "true".toList)]) StrMap.empty [] [] (fun _ => none) []
        World.init).1.1 = false := by
  refine ⟨by rfl, by rfl, by rfl, by rfl⟩

/-! ## The captured response body -/

theorem limitBody_length (b : Str) (max : Nat) : (limitBody b max).length ≤ max + 18 := by
  unfold limitBody
  split
  · omega
  · simp only [List.length_append, List.length_take]
    have : "\n...[truncated]...".toList.length = 18 := by decide
    omega

theorem beforeHook_respBody (env : Env) (s : StepState) (hk : Hook) :
    (beforeHook env s hk).stepRes.RespBody = s.stepRes.RespBody := by
  unfold beforeHook
  split
  · rfl
  · split
    · rfl
    · simp only []
      split <;> rfl

theorem afterHook_respBody (env : Env) (resp : Resp) (s : StepState) (hk : Hook) :
    (afterHook env resp s hk).stepRes.RespBody = s.stepRes.RespBody := by
  unfold afterHook
  split
  · rfl
  · split
    · rfl
    · simp only []
      split <;> rfl

theorem beforeHooks_respBody (env : Env) (hooks : List Hook) (s : StepState) :
    (hooks.foldl (beforeHook env) s).stepRes.RespBody = s.stepRes.RespBody := by
  induction hooks generalizing s with
  | nil => rfl
  | cons hk rest ih => rw [List.foldl_cons, ih, beforeHook_respBody]

theorem afterHooks_respBody (env : Env) (resp : Resp) (hooks : List Hook) (s : StepState) :
    (hooks.foldl (afterHook env resp) s).stepRes.RespBody = s.stepRes.RespBody := by
  induction hooks generalizing s with
  | nil => rfl
  | cons hk rest ih => rw [List.foldl_cons, ih, afterHook_respBody]

theorem evalExpectations_respBody (r : Runner) (status : Int)
    (jsonBody : Option (List (Str × GoVal))) (vars : StrMap) (method url : Str)
    (respHeaders : RespHeaders) (rawBody : Str) (exps : List Expectation) (sr : StepResult)
    (w : World) :
    (evalExpectations r status jsonBody vars method url respHeaders rawBody exps sr w).1.RespBody =
      sr.RespBody := by
  induction exps generalizing sr w with
  | nil => rfl
  | cons e rest ih =>
    simp only [evalExpectations]
    rw [ih]
    split <;> rfl

/-- The body captured by a step is the result of `limitBody`. -/
theorem runStep_respBody (r : Runner) (env : Env) (s : ScenarioState) (st : Step) :
    ∃ sr body, (runStep r env s st).scRes.Steps = s.scRes.Steps ++ [sr] ∧
      sr.RespBody = limitBody body (64 * 1024) := by
  unfold runStep
  simp only []
  split
  · refine ⟨_, [], rfl, ?_⟩
    simp only [beforeHooks_respBody]
    rfl
  · generalize doRequest env _ _ = sent
    obtain ⟨out, w1⟩ := sent
    cases out with
    | error e => exact ⟨_, [], rfl, by rw [evalExpectations_respBody, afterHooks_respBody]⟩
    | ok resp =>
      exact ⟨_, resp.Body, rfl, by rw [evalExpectations_respBody, afterHooks_respBody]⟩

/-- A property that every step establishes for its result holds for all the
results that the loop over the steps adds. -/
theorem runSteps_all (r : Runner) (env : Env) (P : StepResult → Prop)
    (hstep : ∀ s st, ∃ sr, (runStep r env s st).scRes.Steps = s.scRes.Steps ++ [sr] ∧ P sr)
    (steps : List Step) (s : ScenarioState) (h : ∀ x ∈ s.scRes.Steps, P x) :
    ∀ x ∈ (steps.foldl (runStep r env) s).scRes.Steps, P x := by
  induction steps generalizing s with
  | nil => exact h
  | cons st rest ih =>
    rw [List.foldl_cons]
    apply ih
    obtain ⟨sr, h1, h2⟩ := hstep s st
    intro x hx
    rw [h1] at hx
    rcases List.mem_append.mp hx with hx | hx
    · exact h x hx
    · rw [List.mem_singleton.mp hx]
      exact h2

/-- The body captured in a step result is the result of `limitBody`: a body of
at most 65,536 bytes itself, a longer one cut to its first 65,536 bytes with
the mark of 18 bytes behind them; so the captured body has at most 65,554
bytes. -/
theorem runScenario_respBody (r : Runner) (env : Env) (sc : Scenario) (w : World)
    (sr : StepResult) (hsr : sr ∈ (runScenario r env sc w).1.Steps) :
    (∃ body, sr.RespBody = limitBody body (64 * 1024) ∧
      (body.length ≤ 65536 → sr.RespBody = body) ∧
      (65536 < body.length →
        sr.RespBody = body.take 65536 ++ "\n...[truncated]...".toList)) ∧
    sr.RespBody.length ≤ 65536 + 18 := by
  have hall := runSteps_all r env (fun x => ∃ body, x.RespBody = limitBody body (64 * 1024))
    (fun s st => by
      obtain ⟨x, body, h1, h2⟩ := runStep_respBody r env s st
      exact ⟨x, h1, body, h2⟩)
    sc.Steps
    { scRes := ⟨sc.Name, (match (runActions env sc.Setup (scenarioVars r env w) w).1 with
        | some _ => false
        | none => true), false, []⟩
      vars := scenarioVars r env w
      w := (runActions env sc.Setup (scenarioVars r env w) w).2 }
    (by simp)
  obtain ⟨body, hb⟩ := hall sr (by simpa [runScenario, afterSteps] using hsr)
  refine ⟨⟨body, hb, ?_, ?_⟩, ?_⟩
  · intro hle
    rw [hb]
    simp [limitBody, hle]
  · intro hlt
    rw [hb]
    have : ¬ body.length ≤ 64 * 1024 := by omega
    simp [limitBody, this]
  · rw [hb]
    exact limitBody_length body (64 * 1024)

/-- The captured body of a scenario of one step whose request is answered with
the body `ok`. -/
theorem runScenario_respBody_witness :
    (∃ body, (onlyStep (runScenario New (answeringEnv "ok".toList none)
          (oneStep "A".toList "/a".toList 200) World.init).1).RespBody =
        limitBody body (64 * 1024) ∧
      (body.length ≤ 65536 →
        (onlyStep (runScenario New (answeringEnv "ok".toList none)
          (oneStep "A".toList "/a".toList 200) World.init).1).RespBody = body) ∧
      (65536 < body.length →
        (onlyStep (runScenario New (answeringEnv "ok".toList none)
          (oneStep "A".toList "/a".toList 200) World.init).1).RespBody =
          body.take 65536 ++ "\n...[truncated]...".toList)) ∧
    (onlyStep (runScenario New (answeringEnv "ok".toList none)
      (oneStep "A".toList "/a".toList 200) World.init).1).RespBody.length ≤ 65536 + 18 :=
  runScenario_respBody New (answeringEnv "ok".toList none) (oneStep "A".toList "/a".toList 200)
    World.init _ (List.mem_singleton.mpr rfl)

/-- The body captured by the one step of `oneStep`, for every answer. -/
theorem oneStep_respBody (body : Str) :
    (onlyStep (runScenario New (answeringEnv body none)
      (oneStep "A".toList "/a".toList 200) World.init).1).RespBody =
      limitBody body (64 * 1024) := by
  rfl

/-- C13 at a failing input: for a response body of 65,537 bytes the captured
body has 65,554 bytes, more than the 64 KB that the comment at the call of
`limitBody` gives as the cap. -/
theorem runScenario_respBody_counterexample :
    (onlyStep (runScenario New (answeringEnv (List.replicate 65537 'a') none)
      (oneStep "A".toList "/a".toList 200) World.init).1).RespBody.length = 65554 := by
  rw [oneStep_respBody]
  unfold limitBody
  rw [if_neg (by rw [List.length_replicate]; omega), List.length_append, List.length_take,
    List.length_replicate]
  decide

/-! ## Status, missing fields and the contract expectation -/

/-- C14: a status expectation whose value is the integer `n` passes iff the
observed status is `n`, and when it fails its message is
`status: got s, want n`. -/
theorem evalExpectation_status (r : Runner) (exp : Expectation) (n status : Int)
    (jsonBody : Option (List (Str × GoVal))) (vars : StrMap) (method url : Str)
    (respHeaders : RespHeaders) (rawBody : Str) (w : World)
    (htyp : exp.Typ = ExpectStatus) (hval : exp.Value = .num n) :
    ((evalExpectation r exp status jsonBody vars method url respHeaders rawBody w).1.1 = true ↔
      status = n) ∧
    (status ≠ n →
      (evalExpectation r exp status jsonBody vars method url respHeaders rawBody w).1.2 =
        "status: got ".toList ++ fmtInt status ++ ", want ".toList ++ fmtInt n) := by
  unfold evalExpectation
  simp only [htyp, if_true, hval]
  by_cases h : status = n
  · simp [h]
  · simp [h]

/-- C14 for the observed status 200 against the expected 418. -/
theorem evalExpectation_status_witness :
    ((evalExpectation New ⟨ExpectStatus, "code".toList, .num 418⟩ 200 none StrMap.empty [] []
        (fun _ => none) [] World.init).1.1 = true ↔ (200 : Int) = 418) ∧
    ((200 : Int) ≠ 418 →
      (evalExpectation New ⟨ExpectStatus, "code".toList, .num 418⟩ 200 none StrMap.empty [] []
        (fun _ => none) [] World.init).1.2 =
        "status: got ".toList ++ fmtInt 200 ++ ", want ".toList ++ fmtInt 418) :=
  evalExpectation_status New ⟨ExpectStatus, "code".toList, .num 418⟩ 418 200 none StrMap.empty
    [] [] (fun _ => none) [] World.init rfl rfl

theorem trimPrefix_dollarDot (f : Str) : trimPrefix ('$' :: '.' :: f) "$.".toList = f := by
  simp [trimPrefix, List.isPrefixOf]

/-- C15: for a `jsonPath` expectation with the target `$.f`, when the body is
empty, or is not read as a JSON object, or is an object without the top-level
key `f`, the expectation fails with `jsonPath: $.f not found` and changes
nothing; and when the object has the top-level key `f` the value compared is the
value of that key, whatever `f` is: a dotted `f` is one key. -/
theorem evalExpectation_notFound (r : Runner) (env : Env) (exp : Expectation) (status : Int)
    (vars : StrMap) (method url : Str) (respHeaders : RespHeaders) (body f : Str) (w : World)
    (htyp : exp.Typ = ExpectJSONPath) (htarget : exp.Target = '$' :: '.' :: f) :
    ((body = [] ∨ env.jsonObject body = none ∨
        ∃ kvs, env.jsonObject body = some kvs ∧ kvs.lookup f = none) →
      evalExpectation r exp status (if body.length > 0 then env.jsonObject body else none)
          vars method url respHeaders body w =
        ((false, "jsonPath: ".toList ++ exp.Target ++ " not found".toList), w) ∧
      "not found".toList <:+: "jsonPath: ".toList ++ exp.Target ++ " not found".toList) ∧
    (∀ kvs g, body ≠ [] → env.jsonObject body = some kvs → kvs.lookup f = some g →
      evalExpectation r exp status (if body.length > 0 then env.jsonObject body else none)
          vars method url respHeaders body w =
        (compareJSON exp.Target g (wantValue exp.Value vars), w)) := by
  have hne : ¬ (ExpectJSONPath = ExpectStatus) := by decide
  constructor
  · intro hmiss
    have hlook : lookupField f (if body.length > 0 then env.jsonObject body else none) = none := by
      rcases hmiss with h | h | ⟨kvs, h1, h2⟩
      · simp [h, lookupField]
      · split <;> simp [h, lookupField]
      · split <;> simp [h1, h2, lookupField]
    refine ⟨?_, ⟨"jsonPath: ".toList ++ exp.Target ++ [' '], [], by simp⟩⟩
    unfold evalExpectation
    simp only [htyp, hne, if_false, if_true]
    rw [htarget, trimPrefix_dollarDot, hlook]
  · intro kvs g hbody hobj hlook
    have hpos : body.length > 0 := List.length_pos.mpr hbody
    unfold evalExpectation
    simp only [htyp, hne, if_false, if_true, hpos]
    rw [htarget, trimPrefix_dollarDot, hobj]
    simp only [lookupField, hlook]

/-- C15 for the target `$.a.b` against a body that is an object with the one key
`a`, whose value is an object with the key `b`: the key `a.b` is not at the top
level, the nested value is not reached. -/
theorem evalExpectation_notFound_witness :
    evalExpectation New ⟨ExpectJSONPath, "$.a.b".toList, .num 1⟩ 200
        (if "\x7b\"a\":\x7b\"b\":1\x7d\x7d".toList.length > 0
          then (answeringEnv [] (some [("a".toList, .map [("b".toList, .num 1)])])).jsonObject
            "\x7b\"a\":\x7b\"b\":1\x7d\x7d".toList
          else none)
        StrMap.empty [] [] (fun _ => none) "\x7b\"a\":\x7b\"b\":1\x7d\x7d".toList World.init =
      ((false, "jsonPath: ".toList ++ "$.a.b".toList ++ " not found".toList), World.init) ∧
    "not found".toList <:+: "jsonPath: ".toList ++ "$.a.b".toList ++ " not found".toList :=
  (evalExpectation_notFound New (answeringEnv [] (some [("a".toList, .map [("b".toList, .num 1)])]))
    ⟨ExpectJSONPath, "$.a.b".toList, .num 1⟩ 200 StrMap.empty [] [] (fun _ => none)
    "\x7b\"a\":\x7b\"b\":1\x7d\x7d".toList "a.b".toList World.init rfl rfl).1
    (Or.inr (Or.inr ⟨_, rfl, rfl⟩))

/-- C16: without a validator a contract expectation fails with the
configuration error and leaves the world, the coverage set with it, as it
was. -/
theorem evalExpectation_noValidator (r : Runner) (exp : Expectation) (status : Int)
    (jsonBody : Option (List (Str × GoVal))) (vars : StrMap) (method url : Str)
    (respHeaders : RespHeaders) (rawBody : Str) (w : World)
    (htyp : exp.Typ = ExpectContract) (hv : r.contractV = none) :
    evalExpectation r exp status jsonBody vars method url respHeaders rawBody w =
      ((false, "contract: requested but no OpenAPI spec configured".toList), w) := by
  have h1 : ¬ (ExpectContract = ExpectStatus) := by decide
  have h2 : ¬ (ExpectContract = ExpectJSONPath) := by decide
  unfold evalExpectation
  simp only [htyp, h1, h2, if_false, if_true, hv]

/-- C16 for the runner `New`, which has no validator. -/
theorem evalExpectation_noValidator_witness :
    evalExpectation New ⟨ExpectContract, [], .bool true⟩ 200 none StrMap.empty
        "GET".toList "/users".toList (fun _ => none) [] World.init =
      ((false, "contract: requested but no OpenAPI spec configured".toList), World.init) :=
  evalExpectation_noValidator New ⟨ExpectContract, [], .bool true⟩ 200 none StrMap.empty
    "GET".toList "/users".toList (fun _ => none) [] World.init rfl rfl

/-- C17: with a validator attached, a contract expectation passes when the
validator succeeds, and the pair it returns is covered afterwards; when the
validator returns an error the expectation fails with `contract: ` followed by
that error and the world, the coverage set with it, is unchanged. -/
theorem evalExpectation_contract (r : Runner) (v : Validator) (exp : Expectation) (status : Int)
    (jsonBody : Option (List (Str × GoVal))) (vars : StrMap) (method url : Str)
    (respHeaders : RespHeaders) (rawBody : Str) (w : World)
    (htyp : exp.Typ = ExpectContract) (hv : r.contractV = some v) :
    (∀ path mth, v method url status respHeaders rawBody = .ok (path, mth) →
      (evalExpectation r exp status jsonBody vars method url respHeaders rawBody w).1 =
        (true, []) ∧
      (evalExpectation r exp status jsonBody vars method url respHeaders rawBody w).2.covered
        mth path = true) ∧
    (∀ err, v method url status respHeaders rawBody = .error err →
      evalExpectation r exp status jsonBody vars method url respHeaders rawBody w =
        ((false, "contract: ".toList ++ err), w)) := by
  have h1 : ¬ (ExpectContract = ExpectStatus) := by decide
  have h2 : ¬ (ExpectContract = ExpectJSONPath) := by decide
  constructor
  · intro path mth hok
    unfold evalExpectation
    simp only [htyp, h1, h2, if_false, if_true, hv, hok]
    simp
  · intro err herr
    unfold evalExpectation
    simp only [htyp, h1, h2, if_false, if_true, hv, herr]

/-- C17 for a validator that routes every response to `GET /users`. -/
theorem evalExpectation_contract_witness :
    (evalExpectation (New.WithContract fun _ _ _ _ _ => .ok ("/users".toList, "GET".toList))
        ⟨ExpectContract, [], .bool true⟩ 200 none StrMap.empty "GET".toList "/users".toList
        (fun _ => none) [] World.init).1 = (true, []) ∧
    (evalExpectation (New.WithContract fun _ _ _ _ _ => .ok ("/users".toList, "GET".toList))
        ⟨ExpectContract, [], .bool true⟩ 200 none StrMap.empty "GET".toList "/users".toList
        (fun _ => none) [] World.init).2.covered "GET".toList "/users".toList = true :=
  (evalExpectation_contract (New.WithContract fun _ _ _ _ _ => .ok ("/users".toList, "GET".toList))
    (fun _ _ _ _ _ => .ok ("/users".toList, "GET".toList)) ⟨ExpectContract, [], .bool true⟩ 200
    none StrMap.empty "GET".toList "/users".toList (fun _ => none) [] World.init rfl rfl).1
    "/users".toList "GET".toList rfl

/-! ## The coverage set only grows -/

theorem coverageLe_refl (w : World) : CoverageLe w w := fun _ _ h => h

theorem coverageLe_trans {a b c : World} (h1 : CoverageLe a b) (h2 : CoverageLe b c) :
    CoverageLe a c := fun m p h => h2 m p (h1 m p h)

theorem coverageLe_of_eq {a b : World} (h : b.covered = a.covered) : CoverageLe a b :=
  fun m p hc => by rw [h]; exact hc

theorem doRequest_covered (env : Env) (q : Request) (w : World) :
    (doRequest env q w).2.covered = w.covered := by
  rcases (doRequest_trace env q w).1 with h | h <;> rw [h]

theorem runActions_covered (env : Env) (acts : List Action) (vars : StrMap) (w : World) :
    (runActions env acts vars w).2.covered = w.covered := by
  obtain ⟨_, _, h, _⟩ := runActions_trace env acts vars w
  rw [h]

theorem RunProcessHook_covered (env : Env) (phase : Str) (h : Hook) (inp : Input) (w : World) :
    (RunProcessHook env phase h inp w).2.covered = w.covered := by
  unfold RunProcessHook
  simp only []
  split
  · rfl
  · split <;> rfl

theorem beforeHook_covered (env : Env) (s : StepState) (hk : Hook) :
    (beforeHook env s hk).w.covered = s.w.covered := by
  unfold beforeHook
  split
  · rfl
  · have h := RunProcessHook_covered env "before".toList hk ⟨clone s.vars, some s.req, none⟩ s.w
    split
    · rename_i e
      rw [e] at h
      exact h
    · rename_i e
      rw [e] at h
      exact h

theorem afterHook_covered (env : Env) (resp : Resp) (s : StepState) (hk : Hook) :
    (afterHook env resp s hk).w.covered = s.w.covered := by
  unfold afterHook
  split
  · rfl
  · have h := RunProcessHook_covered env "after".toList hk
      ⟨clone s.vars, some s.req, some resp⟩ s.w
    split
    · rename_i e
      rw [e] at h
      exact h
    · rename_i e
      rw [e] at h
      exact h

theorem beforeHooks_covered (env : Env) (hooks : List Hook) (s : StepState) :
    (hooks.foldl (beforeHook env) s).w.covered = s.w.covered := by
  induction hooks generalizing s with
  | nil => rfl
  | cons hk rest ih => rw [List.foldl_cons, ih, beforeHook_covered]

theorem afterHooks_covered (env : Env) (resp : Resp) (hooks : List Hook) (s : StepState) :
    (hooks.foldl (afterHook env resp) s).w.covered = s.w.covered := by
  induction hooks generalizing s with
  | nil => rfl
  | cons hk rest ih => rw [List.foldl_cons, ih, afterHook_covered]

theorem evalExpectation_coverage (r : Runner) (exp : Expectation) (status : Int)
    (jsonBody : Option (List (Str × GoVal))) (vars : StrMap) (method url : Str)
    (respHeaders : RespHeaders) (rawBody : Str) (w : World) :
    CoverageLe w (evalExpectation r exp status jsonBody vars method url respHeaders rawBody w).2 := by
  unfold evalExpectation
  split
  · split <;> try split
    all_goals exact coverageLe_refl w
  · split
    · split <;> exact coverageLe_refl w
    · split
      · split
        · exact coverageLe_refl w
        · split
          · exact coverageLe_refl w
          · intro m p h
            simp only []
            split
            · rfl
            · exact h
      · exact coverageLe_refl w

theorem evalExpectations_coverage (r : Runner) (status : Int)
    (jsonBody : Option (List (Str × GoVal))) (vars : StrMap) (method url : Str)
    (respHeaders : RespHeaders) (rawBody : Str) (exps : List Expectation) (sr : StepResult)
    (w : World) :
    CoverageLe w
      (evalExpectations r status jsonBody vars method url respHeaders rawBody exps sr w).2 := by
  induction exps generalizing sr w with
  | nil => exact coverageLe_refl w
  | cons e rest ih =>
    simp only [evalExpectations]
    exact coverageLe_trans
      (evalExpectation_coverage r e status jsonBody vars method url respHeaders rawBody w)
      (ih _ _)

theorem runStep_coverage (r : Runner) (env : Env) (s : ScenarioState) (st : Step) :
    CoverageLe s.w (runStep r env s st).w := by
  unfold runStep
  simp only []
  split
  · exact coverageLe_of_eq (beforeHooks_covered env st.Hooks _)
  · refine coverageLe_trans ?_ (evalExpectations_coverage _ _ _ _ _ _ _ _ _ _ _)
    apply coverageLe_of_eq
    rw [afterHooks_covered, doRequest_covered, beforeHooks_covered]

theorem runSteps_coverage (r : Runner) (env : Env) (steps : List Step) (s : ScenarioState) :
    CoverageLe s.w (steps.foldl (runStep r env) s).w := by
  induction steps generalizing s with
  | nil => exact coverageLe_refl _
  | cons st rest ih =>
    rw [List.foldl_cons]
    exact coverageLe_trans (runStep_coverage r env s st) (ih _)

theorem runScenario_coverage (r : Runner) (env : Env) (sc : Scenario) (w : World) :
    CoverageLe w (runScenario r env sc w).2 := by
  simp only [runScenario, afterSteps]
  refine coverageLe_trans ?_ (coverageLe_of_eq (runActions_covered env sc.Teardown _ _))
  refine coverageLe_trans ?_ (runSteps_coverage r env sc.Steps _)
  exact coverageLe_of_eq (runActions_covered env sc.Setup _ w)

theorem runSequential_coverage (r : Runner) (env : Env) (scs : List Scenario) (i : Nat)
    (res : SuiteResult) (w : World) : CoverageLe w (runSequential r env scs i res w).2 := by
  induction scs generalizing i res w with
  | nil => exact coverageLe_refl w
  | cons sc rest ih =>
    simp only [runSequential]
    split
    · exact runScenario_coverage r env sc w
    · exact coverageLe_trans (runScenario_coverage r env sc w) (ih _ _ _)

theorem runPool_coverage (r : Runner) (env : Env) (scs : List Scenario) (order : List Nat)
    (res : SuiteResult) (w : World) : CoverageLe w (runPool r env scs order res w).2 := by
  induction order generalizing res w with
  | nil => exact coverageLe_refl w
  | cons idx rest ih =>
    simp only [runPool]
    split
    · exact ih _ _
    · exact coverageLe_trans (runScenario_coverage r env _ w) (ih _ _)

/-- Coverage only grows where no two goroutines write the coverage set at the
same time: every pair covered before an expectation is evaluated, before a
scenario is run, or before a suite is run is covered afterwards. For the pool
this is the run in which every scenario is evaluated as a whole in the order of
delivery; the memory accesses of two workers that interleave are the subject of
`runSchedule`. -/
theorem coverage_monotone (r : Runner) (env : Env) :
    (∀ (exp : Expectation) (status : Int) (jsonBody : Option (List (Str × GoVal)))
        (vars : StrMap) (method url : Str) (respHeaders : RespHeaders) (rawBody : Str)
        (w : World),
      CoverageLe w
        (evalExpectation r exp status jsonBody vars method url respHeaders rawBody w).2) ∧
    (∀ (sc : Scenario) (w : World), CoverageLe w (runScenario r env sc w).2) ∧
    (∀ (order : List Nat) (suite : TestSuite) (w : World),
      ∃ res w2, RunSuite r env order (some suite) w = .ok (res, w2) ∧ CoverageLe w w2) := by
  refine ⟨evalExpectation_coverage r, runScenario_coverage r env, ?_⟩
  intro order suite w
  have hcases : RunSuite r env order (some suite) w =
        .ok (runSequential r env suite.Scenarios 0
          ⟨true, List.replicate suite.Scenarios.length default⟩ w) ∨
      RunSuite r env order (some suite) w =
        .ok (runPool r env suite.Scenarios order
          ⟨true, List.replicate suite.Scenarios.length default⟩ w) := by
    unfold RunSuite
    simp only []
    split_ifs <;> simp
  rcases hcases with h | h
  · exact ⟨_, _, h, runSequential_coverage r env _ _ _ w⟩
  · exact ⟨_, _, h, runPool_coverage r env _ _ _ w⟩

/-! ## Hook calls -/

theorem RunProcessHook_trace (env : Env) (phase : Str) (h : Hook) (inp : Input) (w : World) :
    (RunProcessHook env phase h inp w).2.trace = w.trace ++ [Event.hook phase h inp] := by
  unfold RunProcessHook
  simp only []
  split
  · rfl
  · split <;> rfl

theorem beforeHook_trace (env : Env) (s : StepState) (hk : Hook) :
    (isBefore hk = false → beforeHook env s hk = s) ∧
    (isBefore hk = true → (beforeHook env s hk).w.trace =
      s.w.trace ++ [Event.hook "before".toList hk ⟨clone s.vars, some s.req, none⟩]) := by
  constructor
  · intro h
    have h2 : toLower hk.When ≠ "before".toList := by simpa [isBefore] using h
    unfold beforeHook
    rw [if_pos h2]
  · intro h
    have h2 : ¬ (toLower hk.When ≠ "before".toList) := by simpa [isBefore] using h
    have ht := RunProcessHook_trace env "before".toList hk ⟨clone s.vars, some s.req, none⟩ s.w
    unfold beforeHook
    rw [if_neg h2]
    split
    · rename_i e
      rw [e] at ht
      exact ht
    · rename_i e
      rw [e] at ht
      exact ht

theorem afterHook_trace (env : Env) (resp : Resp) (s : StepState) (hk : Hook) :
    (isAfter hk = false → afterHook env resp s hk = s) ∧
    (isAfter hk = true → (afterHook env resp s hk).w.trace =
      s.w.trace ++ [Event.hook "after".toList hk ⟨clone s.vars, some s.req, some resp⟩]) := by
  constructor
  · intro h
    have h2 : toLower hk.When ≠ "after".toList := by simpa [isAfter] using h
    unfold afterHook
    rw [if_pos h2]
  · intro h
    have h2 : ¬ (toLower hk.When ≠ "after".toList) := by simpa [isAfter] using h
    have ht := RunProcessHook_trace env "after".toList hk
      ⟨clone s.vars, some s.req, some resp⟩ s.w
    unfold afterHook
    rw [if_neg h2]
    split
    · rename_i e
      rw [e] at ht
      exact ht
    · rename_i e
      rw [e] at ht
      exact ht

/-- The loop over the hooks ahead of the request calls the hooks of the phase
before, each once, in declared order, with an input that carries a request and
no response. -/
theorem beforeHooks_trace (env : Env) (hooks : List Hook) (s : StepState) :
    ∃ inps : List Input, inps.length = (hooks.filter isBefore).length ∧
      (hooks.foldl (beforeHook env) s).w.trace =
        s.w.trace ++ hookEvents "before".toList (hooks.filter isBefore) inps ∧
      ∀ inp ∈ inps, inp.Request.isSome = true ∧ inp.Response.isSome = false := by
  induction hooks generalizing s with
  | nil => exact ⟨[], rfl, by simp [hookEvents], by simp⟩
  | cons hk rest ih =>
    cases hb : isBefore hk with
    | false =>
      obtain ⟨inps, h1, h2, h3⟩ := ih s
      refine ⟨inps, ?_, ?_, h3⟩
      · simpa [List.filter_cons, hb] using h1
      · rw [List.foldl_cons, (beforeHook_trace env s hk).1 hb, h2]
        simp [List.filter_cons, hb]
    | true =>
      obtain ⟨inps, h1, h2, h3⟩ := ih (beforeHook env s hk)
      refine ⟨⟨clone s.vars, some s.req, none⟩ :: inps, ?_, ?_, ?_⟩
      · simp [List.filter_cons, hb, h1]
      · rw [List.foldl_cons, h2, (beforeHook_trace env s hk).2 hb]
        simp [List.filter_cons, hb, hookEvents]
      · intro inp hinp
        rcases List.mem_cons.mp hinp with e | e
        · subst e
          exact ⟨rfl, rfl⟩
        · exact h3 inp e

/-- The loop over the hooks behind the request calls the hooks of the phase
after, each once, in declared order, with an input that carries a request and a
response. -/
theorem afterHooks_trace (env : Env) (resp : Resp) (hooks : List Hook) (s : StepState) :
    ∃ inps : List Input, inps.length = (hooks.filter isAfter).length ∧
      (hooks.foldl (afterHook env resp) s).w.trace =
        s.w.trace ++ hookEvents "after".toList (hooks.filter isAfter) inps ∧
      ∀ inp ∈ inps, inp.Request.isSome = true ∧ inp.Response.isSome = true := by
  induction hooks generalizing s with
  | nil => exact ⟨[], rfl, by simp [hookEvents], by simp⟩
  | cons hk rest ih =>
    cases hb : isAfter hk with
    | false =>
      obtain ⟨inps, h1, h2, h3⟩ := ih s
      refine ⟨inps, ?_, ?_, h3⟩
      · simpa [List.filter_cons, hb] using h1
      · rw [List.foldl_cons, (afterHook_trace env resp s hk).1 hb, h2]
        simp [List.filter_cons, hb]
    | true =>
      obtain ⟨inps, h1, h2, h3⟩ := ih (afterHook env resp s hk)
      refine ⟨⟨clone s.vars, some s.req, some resp⟩ :: inps, ?_, ?_, ?_⟩
      · simp [List.filter_cons, hb, h1]
      · rw [List.foldl_cons, h2, (afterHook_trace env resp s hk).2 hb]
        simp [List.filter_cons, hb, hookEvents]
      · intro inp hinp
        rcases List.mem_cons.mp hinp with e | e
        · subst e
          exact ⟨rfl, rfl⟩
        · exact h3 inp e

theorem afterHooks_req (env : Env) (resp : Resp) (hooks : List Hook) (s : StepState) :
    (hooks.foldl (afterHook env resp) s).req = s.req := by
  induction hooks generalizing s with
  | nil => rfl
  | cons hk rest ih =>
    rw [List.foldl_cons, ih]
    unfold afterHook
    split
    · rfl
    · split <;> rfl

theorem evalExpectations_trace (r : Runner) (status : Int)
    (jsonBody : Option (List (Str × GoVal))) (vars : StrMap) (method url : Str)
    (respHeaders : RespHeaders) (rawBody : Str) (exps : List Expectation) (sr : StepResult)
    (w : World) :
    (evalExpectations r status jsonBody vars method url respHeaders rawBody exps sr w).2.trace =
      w.trace := by
  induction exps generalizing sr w with
  | nil => rfl
  | cons e rest ih =>
    simp only [evalExpectations]
    rw [ih]
    unfold evalExpectation
    split
    · split <;> try split
      all_goals rfl
    · split
      · split <;> rfl
      · split
        · split
          · rfl
          · split <;> rfl
        · rfl

/-- A step stopped by the guard leaves the world as the hooks ahead of the
request left it. -/
theorem runStep_world_guarded (r : Runner) (env : Env) (s : ScenarioState) (st : Step)
    (hg : (findUnresolved (pendingRequest env s st).URL).length > 0) :
    (runStep r env s st).w = (beforeState env s st).w := by
  unfold pendingRequest beforeState at hg
  unfold runStep beforeState
  simp only []
  rw [if_pos hg]

/-- A step that passes the guard: behind the hooks ahead of the request comes
the call of `doRequest`, which sends the pending request or nothing, then the
loop over the hooks behind the request. -/
theorem runStep_world_dispatched (r : Runner) (env : Env) (s : ScenarioState) (st : Step)
    (hg : ¬ (findUnresolved (pendingRequest env s st).URL).length > 0) :
    ∃ (resp : Resp) (s0 : StepState),
      (s0.w.trace = (beforeState env s st).w.trace ∨
        s0.w.trace = (beforeState env s st).w.trace ++ [httpEvent (pendingRequest env s st)]) ∧
      (runStep r env s st).w.trace = (st.Hooks.foldl (afterHook env resp) s0).w.trace := by
  unfold pendingRequest beforeState at hg
  unfold runStep pendingRequest beforeState
  simp only []
  rw [if_neg hg]
  simp only []
  rw [evalExpectations_trace]
  exact ⟨_, _, by
    rcases (doRequest_trace env _ _).1 with h | h
    · left
      simp only []
      rw [h]
    · right
      simp only []
      rw [h], rfl⟩

/-- The events of one step: the calls of the hooks of the phase before; then,
unless the URL of the pending request holds an unresolved token, the request
(when it can be built) and the calls of the hooks of the phase after. -/
theorem runStep_events (r : Runner) (env : Env) (s : ScenarioState) (st : Step) :
    ∃ inB : List Input, inB.length = (st.Hooks.filter isBefore).length ∧
      (∀ inp ∈ inB, inp.Request.isSome = true ∧ inp.Response.isSome = false) ∧
      ((findUnresolved (pendingRequest env s st).URL).length > 0 →
        (runStep r env s st).w.trace =
          s.w.trace ++ hookEvents "before".toList (st.Hooks.filter isBefore) inB) ∧
      (¬ (findUnresolved (pendingRequest env s st).URL).length > 0 →
        ∃ (reqEv : List Event) (inA : List Input),
          inA.length = (st.Hooks.filter isAfter).length ∧
          (∀ inp ∈ inA, inp.Request.isSome = true ∧ inp.Response.isSome = true) ∧
          (reqEv = [] ∨ reqEv = [httpEvent (pendingRequest env s st)]) ∧
          (runStep r env s st).w.trace =
            s.w.trace ++ hookEvents "before".toList (st.Hooks.filter isBefore) inB ++ reqEv ++
              hookEvents "after".toList (st.Hooks.filter isAfter) inA) := by
  obtain ⟨inB, b1, b2, b3⟩ := beforeHooks_trace env st.Hooks
    { stepRes := ⟨[], true, 0, [], [], [], StrMap.empty, [], fun _ => none, []⟩
      req := expandRequest st.Request s.vars
      vars := s.vars
      w := s.w }
  have hbs : (beforeState env s st).w.trace =
      s.w.trace ++ hookEvents "before".toList (st.Hooks.filter isBefore) inB := b2
  refine ⟨inB, b1, b3, ?_, ?_⟩
  · intro hg
    rw [runStep_world_guarded r env s st hg, hbs]
  · intro hg
    obtain ⟨resp, s0, hw, ht⟩ := runStep_world_dispatched r env s st hg
    obtain ⟨inA, a1, a2, a3⟩ := afterHooks_trace env resp st.Hooks s0
    rcases hw with hw | hw
    · refine ⟨[], inA, a1, a3, Or.inl rfl, ?_⟩
      rw [ht, a2, hw, hbs]
      simp
    · refine ⟨[httpEvent (pendingRequest env s st)], inA, a1, a3, Or.inr rfl, ?_⟩
      rw [ht, a2, hw, hbs]

/-- C12, as the code has it: a step first calls its hooks of the phase before,
each once and in declared order, whatever the earlier calls returned. If the
URL of the pending request then holds an unresolved token nothing else
happens: no request, no hook of the phase after. Otherwise the request follows
(when it can be built) and then the hooks of the phase after, each once and in
declared order. -/
theorem runStep_hooks (r : Runner) (env : Env) (s : ScenarioState) (st : Step) :
    ∃ inB : List Input, inB.length = (st.Hooks.filter isBefore).length ∧
      (∀ inp ∈ inB, inp.Request.isSome = true ∧ inp.Response.isSome = false) ∧
      ((findUnresolved (pendingRequest env s st).URL).length > 0 →
        (runStep r env s st).w.trace =
          s.w.trace ++ hookEvents "before".toList (st.Hooks.filter isBefore) inB) ∧
      (¬ (findUnresolved (pendingRequest env s st).URL).length > 0 →
        ∃ (reqEv : List Event) (inA : List Input),
          inA.length = (st.Hooks.filter isAfter).length ∧
          (∀ inp ∈ inA, inp.Request.isSome = true ∧ inp.Response.isSome = true) ∧
          (reqEv = [] ∨ reqEv = [httpEvent (pendingRequest env s st)]) ∧
          (runStep r env s st).w.trace =
            s.w.trace ++ hookEvents "before".toList (st.Hooks.filter isBefore) inB ++ reqEv ++
              hookEvents "after".toList (st.Hooks.filter isAfter) inA) :=
  runStep_events r env s st

/-- C12 fails as stated: a step whose URL keeps an unresolved token declares a
hook of the phase after, and no hook is called. -/
theorem runStep_hooks_counterexample :
    (hookedScenario "/users/${id}".toList (processHook "after".toList "audit".toList)).Steps.map
        (fun st => st.Hooks.map isAfter) = [[true]] ∧
    (runScenario New (answeringEnv [] none)
        (hookedScenario "/users/${id}".toList (processHook "after".toList "audit".toList))
        World.init).2.trace.filterMap hookSummary = [] := by
  constructor <;> rfl

theorem extendsWith_refl (P : Event → Bool) (t : List Event) : ExtendsWith P t t :=
  ⟨[], by simp, rfl⟩

theorem extendsWith_trans {P : Event → Bool} {a b c : List Event} (h1 : ExtendsWith P a b)
    (h2 : ExtendsWith P b c) : ExtendsWith P a c := by
  obtain ⟨n1, e1, p1⟩ := h1
  obtain ⟨n2, e2, p2⟩ := h2
  exact ⟨n1 ++ n2, by rw [e2, e1, List.append_assoc], by simp [List.all_append, p1, p2]⟩

theorem hookEvents_shape (phase : Str) (hooks : List Hook) (inps : List Input) (b : Bool)
    (hphase : (decide (phase = "before".toList) || decide (phase = "after".toList)) = true)
    (hb : b = decide (phase = "after".toList))
    (h : ∀ inp ∈ inps, inp.Request.isSome = true ∧ inp.Response.isSome = b) :
    (hookEvents phase hooks inps).all hookShape = true := by
  induction hooks generalizing inps with
  | nil => simp [hookEvents]
  | cons hk rest ih =>
    cases inps with
    | nil => simp [hookEvents]
    | cons inp inps =>
      have h0 := h inp (List.mem_cons_self _ _)
      have ht := ih inps (fun x hx => h x (List.mem_cons_of_mem _ hx))
      simp only [hookEvents, List.zipWith_cons_cons, List.all_cons, Bool.and_eq_true]
      refine ⟨?_, ht⟩
      simp only [hookShape, h0.1, h0.2, hb, hphase, Bool.and_self, beq_self_eq_true]

theorem runActions_shape (env : Env) (acts : List Action) (vars : StrMap) (w : World) :
    ExtendsWith hookShape w.trace (runActions env acts vars w).2.trace := by
  obtain ⟨k, _, h, _⟩ := runActions_trace env acts vars w
  refine ⟨((actionRequests acts vars).take k).map httpEvent, by rw [h], ?_⟩
  rw [List.all_eq_true]
  intro e he
  obtain ⟨q, _, rfl⟩ := List.mem_map.mp he
  rfl

theorem runStep_shape (r : Runner) (env : Env) (s : ScenarioState) (st : Step) :
    ExtendsWith hookShape s.w.trace (runStep r env s st).w.trace := by
  obtain ⟨inB, _, b3, hguard, hsent⟩ := runStep_events r env s st
  have hB := hookEvents_shape "before".toList (st.Hooks.filter isBefore) inB false
    (by decide) (by decide) b3
  by_cases hg : (findUnresolved (pendingRequest env s st).URL).length > 0
  · exact ⟨_, hguard hg, hB⟩
  · obtain ⟨reqEv, inA, _, a3, hreq, ht⟩ := hsent hg
    have hA := hookEvents_shape "after".toList (st.Hooks.filter isAfter) inA true
      (by decide) (by decide) a3
    refine ⟨hookEvents "before".toList (st.Hooks.filter isBefore) inB ++ reqEv ++
      hookEvents "after".toList (st.Hooks.filter isAfter) inA, ?_, ?_⟩
    · rw [ht]
      simp only [List.append_assoc]
    · rw [List.all_append, List.all_append, hB, hA]
      rcases hreq with e | e <;> rw [e] <;> rfl

theorem runSteps_shape (r : Runner) (env : Env) (steps : List Step) (s : ScenarioState) :
    ExtendsWith hookShape s.w.trace (steps.foldl (runStep r env) s).w.trace := by
  induction steps generalizing s with
  | nil => exact extendsWith_refl _ _
  | cons st rest ih =>
    rw [List.foldl_cons]
    exact extendsWith_trans (runStep_shape r env s st) (ih _)

/-- Every event that `runScenario` adds is a request or a hook call in the phase
before or after; the input of every hook call carries a request, in either
phase, and carries a response iff the phase is after. -/
theorem runScenario_hookInputs (r : Runner) (env : Env) (sc : Scenario) (w : World) :
    ∃ new, (runScenario r env sc w).2.trace = w.trace ++ new ∧ new.all hookShape = true := by
  have h : ExtendsWith hookShape w.trace (runScenario r env sc w).2.trace := by
    simp only [runScenario, afterSteps]
    refine extendsWith_trans ?_ (runActions_shape env sc.Teardown _ _)
    refine extendsWith_trans ?_ (runSteps_shape r env sc.Steps _)
    exact runActions_shape env sc.Setup _ w
  exact h

/-- C11 at a failing input: a step with one process hook `when: after`. The
input that `runScenario` hands to the hook carries the request as well as the
response, while the declaration of `Input` marks the request as present for the
phase before. -/
theorem runScenario_hookInputs_counterexample :
    (runScenario New (answeringEnv [] none)
        (hookedScenario "/users".toList (processHook "after".toList "audit".toList))
        World.init).2.trace.filterMap hookSummary = [("after".toList, true, true)] := by
  rfl

/-! ## Contract diff -/

theorem mem_pathOps (p : Str) (pi : PathItem) (op : OpSig) :
    op ∈ pathOps p pi ↔ op.Path = p ∧ (methodOp pi op.Method).isSome = true := by
  constructor
  · intro h
    simp only [pathOps, List.mem_append] at h
    rcases h with (((((((h | h) | h) | h) | h) | h) | h) | h) <;>
    · split at h
      · rename_i hs
        rw [List.mem_singleton] at h
        subst h
        exact ⟨rfl, hs⟩
      · simp at h
  · rintro ⟨hp, hm⟩
    obtain ⟨m, q⟩ := op
    simp only at hp hm
    subst hp
    unfold methodOp at hm
    simp only [pathOps, List.mem_append]
    split_ifs at hm with h1 h2 h3 h4 h5 h6 h7 h8
    · subst h1; simp [hm]
    · subst h2; simp [hm]
    · subst h3; simp [hm]
    · subst h4; simp [hm]
    · subst h5; simp [hm]
    · subst h6; simp [hm]
    · subst h7; simp [hm]
    · subst h8; simp [hm]
    · simp at hm

theorem pathOps_nodup (p : Str) (pi : PathItem) : (pathOps p pi).Nodup := by
  have hsub : (pathOps p pi).Sublist
      ([⟨"GET".toList, p⟩] ++ [⟨"POST".toList, p⟩] ++ [⟨"PUT".toList, p⟩] ++
        [⟨"DELETE".toList, p⟩] ++ [⟨"PATCH".toList, p⟩] ++ [⟨"HEAD".toList, p⟩] ++
        [⟨"OPTIONS".toList, p⟩] ++ [⟨"TRACE".toList, p⟩]) := by
    unfold pathOps
    have one : ∀ (c : Prop) [Decidable c] (x : OpSig), (if c then [x] else []).Sublist [x] := by
      intro c _ x
      split
      · exact List.Sublist.refl _
      · exact List.nil_sublist _
    exact ((((((((one _ _).append (one _ _)).append (one _ _)).append (one _ _)).append
      (one _ _)).append (one _ _)).append (one _ _)).append (one _ _))
  refine List.Nodup.sublist hsub ?_
  have hmap : ([⟨"GET".toList, p⟩] ++ [⟨"POST".toList, p⟩] ++ [⟨"PUT".toList, p⟩] ++
        [⟨"DELETE".toList, p⟩] ++ [⟨"PATCH".toList, p⟩] ++ [⟨"HEAD".toList, p⟩] ++
        [⟨"OPTIONS".toList, p⟩] ++ [⟨"TRACE".toList, p⟩] : List OpSig) =
      ["GET".toList, "POST".toList, "PUT".toList, "DELETE".toList, "PATCH".toList,
        "HEAD".toList, "OPTIONS".toList, "TRACE".toList].map fun m => (⟨m, p⟩ : OpSig) := rfl
  rw [hmap]
  refine List.Nodup.map ?_ (by decide)
  intro m1 m2 h
  exact (OpSig.mk.injEq _ _ _ _ ▸ h : _ ∧ _).1

theorem mem_listOpsLoop (entries : List (Str × Option PathItem)) (op : OpSig) :
    op ∈ listOpsLoop entries ↔
      ∃ pi, (op.Path, some pi) ∈ entries ∧ (methodOp pi op.Method).isSome = true := by
  induction entries with
  | nil => simp [listOpsLoop]
  | cons e rest ih =>
    obtain ⟨p, item⟩ := e
    cases item with
    | none =>
      simp only [listOpsLoop, ih, List.mem_cons, Prod.mk.injEq]
      constructor
      · rintro ⟨pi, h1, h2⟩
        exact ⟨pi, Or.inr h1, h2⟩
      · rintro ⟨pi, h1 | h1, h2⟩
        · exact absurd h1.2 (by simp)
        · exact ⟨pi, h1, h2⟩
    | some pi0 =>
      simp only [listOpsLoop, List.mem_append, mem_pathOps, ih, List.mem_cons, Prod.mk.injEq,
        Option.some.injEq]
      constructor
      · rintro (⟨h1, h2⟩ | ⟨pi, h1, h2⟩)
        · exact ⟨pi0, Or.inl ⟨h1, rfl⟩, h2⟩
        · exact ⟨pi, Or.inr h1, h2⟩
      · rintro ⟨pi, ⟨h1, h3⟩ | h1, h2⟩
        · subst h3
          exact Or.inl ⟨h1, h2⟩
        · exact Or.inr ⟨pi, h1, h2⟩

theorem listOpsLoop_path (entries : List (Str × Option PathItem)) (op : OpSig)
    (h : op ∈ listOpsLoop entries) : op.Path ∈ entries.map fun e => e.1 := by
  obtain ⟨pi, h1, _⟩ := (mem_listOpsLoop entries op).mp h
  exact List.mem_map.mpr ⟨_, h1, rfl⟩

theorem listOpsLoop_nodup (entries : List (Str × Option PathItem))
    (h : (entries.map fun e => e.1).Nodup) : (listOpsLoop entries).Nodup := by
  induction entries with
  | nil => simp [listOpsLoop]
  | cons e rest ih =>
    obtain ⟨p, item⟩ := e
    simp only [List.map_cons, List.nodup_cons] at h
    cases item with
    | none => exact ih h.2
    | some pi =>
      simp only [listOpsLoop]
      refine List.Nodup.append (pathOps_nodup p pi) (ih h.2) ?_
      intro op h1 h2
      have hp := ((mem_pathOps p pi op).mp h1).1
      have := listOpsLoop_path rest op h2
      rw [hp] at this
      exact h.1 this

theorem mem_listOps (doc : Option OpenAPI) (op : OpSig) : op ∈ listOps doc ↔ Declares doc op := by
  unfold listOps Declares
  cases doc with
  | none => simp
  | some d =>
    obtain ⟨paths⟩ := d
    cases paths with
    | none => simp
    | some entries =>
      simp only [mem_listOpsLoop, Option.some.injEq, Option.isSome_iff_exists]
      constructor
      · rintro ⟨pi, h1, o, h2⟩
        exact ⟨_, entries, pi, o, rfl, rfl, h1, h2⟩
      · rintro ⟨d2, entries2, pi, o, e1, e2, h1, h2⟩
        subst e1
        simp only [Option.some.injEq] at e2
        subst e2
        exact ⟨pi, h1, o, h2⟩

theorem listOps_nodup (doc : Option OpenAPI) (h : (pathKeys doc).Nodup) : (listOps doc).Nodup := by
  unfold listOps
  unfold pathKeys at h
  cases doc with
  | none => simp
  | some d =>
    obtain ⟨paths⟩ := d
    cases paths with
    | none => simp
    | some entries => exact listOpsLoop_nodup entries h

theorem mem_sortOps (ops : List OpSig) (op : OpSig) : op ∈ sortOps ops ↔ op ∈ ops :=
  (List.perm_insertionSort _ ops).mem_iff

theorem sortOps_nodup (ops : List OpSig) (h : ops.Nodup) : (sortOps ops).Nodup :=
  (List.perm_insertionSort _ ops).nodup_iff.mpr h

/-- C19: `Added` holds exactly the operations that B declares and A does not,
`Removed` exactly those that A declares and B does not, and no operation is
listed twice (the path maps of the documents having each key once). -/
theorem DiffDocs_added_removed (a b : Option OpenAPI) (ha : (pathKeys a).Nodup)
    (hb : (pathKeys b).Nodup) :
    (∀ op, op ∈ (DiffDocs a b).Added ↔ Declares b op ∧ ¬ Declares a op) ∧
    (∀ op, op ∈ (DiffDocs a b).Removed ↔ Declares a op ∧ ¬ Declares b op) ∧
    (DiffDocs a b).Added.Nodup ∧ (DiffDocs a b).Removed.Nodup := by
  refine ⟨?_, ?_, ?_, ?_⟩
  · intro op
    simp only [DiffDocs, mem_sortOps, List.mem_filter, toSet, Bool.not_eq_true',
      decide_eq_false_iff_not, mem_listOps]
  · intro op
    simp only [DiffDocs, mem_sortOps, List.mem_filter, toSet, Bool.not_eq_true',
      decide_eq_false_iff_not, mem_listOps]
  · exact sortOps_nodup _ ((listOps_nodup b hb).filter _)
  · exact sortOps_nodup _ ((listOps_nodup a ha).filter _)

/-- C19 on the two specs of `diff_test.go`. -/
theorem DiffDocs_added_removed_witness :
    (∀ op, op ∈ (DiffDocs specA specB).Added ↔ Declares specB op ∧ ¬ Declares specA op) ∧
    (∀ op, op ∈ (DiffDocs specA specB).Removed ↔ Declares specA op ∧ ¬ Declares specB op) ∧
    (DiffDocs specA specB).Added.Nodup ∧ (DiffDocs specA specB).Removed.Nodup :=
  DiffDocs_added_removed specA specB (by decide) (by decide)

theorem lookup_of_mem {β : Type} (l : List (Str × β)) (k : Str) (v : β)
    (hk : (l.map fun e => e.1).Nodup) (hm : (k, v) ∈ l) : l.lookup k = some v := by
  induction l with
  | nil => simp at hm
  | cons e rest ih =>
    obtain ⟨k0, v0⟩ := e
    simp only [List.map_cons, List.nodup_cons] at hk
    rcases List.mem_cons.mp hm with h | h
    · simp only [Prod.mk.injEq] at h
      obtain ⟨h1, h2⟩ := h
      subst h1 h2
      simp [List.lookup]
    · have hne : k ≠ k0 := by
        intro e
        subst e
        exact hk.1 (List.mem_map.mpr ⟨_, h, rfl⟩)
      have hbeq : (k == k0) = false := by simpa using hne
      simp only [List.lookup, hbeq]
      exact ih hk.2 h

theorem toUpper_of_methodOp (pi : PathItem) (m : Str) (o : Operation)
    (h : methodOp pi m = some o) : toUpper m = m := by
  unfold methodOp at h
  split_ifs at h with h1 h2 h3 h4 h5 h6 h7 h8
  · subst h1; rfl
  · subst h2; rfl
  · subst h3; rfl
  · subst h4; rfl
  · subst h5; rfl
  · subst h6; rfl
  · subst h7; rfl
  · subst h8; rfl

/-- For an operation that the document declares, the set of `statusSet` holds
exactly the status codes declared for it. -/
theorem mem_statusSet (doc : Option OpenAPI) (op : OpSig) (hk : (pathKeys doc).Nodup)
    (hd : Declares doc op) (c : Str) : c ∈ statusSet doc op ↔ DeclaresCode doc op c := by
  obtain ⟨d, entries, pi, o, e1, e2, hm, ho⟩ := hd
  subst e1
  obtain ⟨paths⟩ := d
  simp only at e2
  subst e2
  have hkeys : (entries.map fun e => e.1).Nodup := hk
  have hlook : pathValue (some ⟨some entries⟩) op.Path = some pi := by
    simp only [pathValue, lookup_of_mem entries op.Path (some pi) hkeys hm]
    rfl
  have hset : statusSet (some ⟨some entries⟩) op =
      match o.Responses with
      | none => []
      | some codes => codes.dedup := by
    simp only [statusSet, hlook, toUpper_of_methodOp pi op.Method o ho, ho]
  rw [hset]
  constructor
  · intro hc
    cases hr : o.Responses with
    | none => simp [hr] at hc
    | some codes =>
      simp only [hr, List.mem_dedup] at hc
      exact ⟨_, entries, pi, o, codes, rfl, rfl, hm, ho, hr, hc⟩
  · rintro ⟨d2, entries2, pi2, o2, codes, e1, e2, hm2, ho2, hr, hc⟩
    simp only [Option.some.injEq] at e1
    subst e1
    simp only [Option.some.injEq] at e2
    subst e2
    have hpi := lookup_of_mem entries op.Path (some pi2) hkeys hm2
    rw [lookup_of_mem entries op.Path (some pi) hkeys hm] at hpi
    simp only [Option.some.injEq] at hpi
    subst hpi
    rw [ho] at ho2
    simp only [Option.some.injEq] at ho2
    subst ho2
    simp only [hr, List.mem_dedup]
    exact hc

theorem statusSet_nodup (doc : Option OpenAPI) (op : OpSig) : (statusSet doc op).Nodup := by
  unfold statusSet
  split
  · exact List.nodup_nil
  · split
    · exact List.nodup_nil
    · split
      · exact List.nodup_nil
      · exact List.nodup_dedup _

theorem equalStrSet_iff (a b : List Str) (ha : a.Nodup) (hb : b.Nodup) :
    equalStrSet a b = true ↔ ∀ c, c ∈ a ↔ c ∈ b := by
  unfold equalStrSet
  constructor
  · intro h
    split at h
    · simp at h
    · rename_i hlen
      have hlen2 : a.length = b.length := by simpa using hlen
      have hsub : a ⊆ b := by
        intro c hc
        have := List.all_eq_true.mp h c hc
        simpa using this
      have hperm : a.Perm b :=
        (List.subperm_of_subset ha hsub).perm_of_length_le (by omega)
      exact fun c => hperm.mem_iff
  · intro h
    have hperm : a.Perm b := (List.perm_ext_iff_of_nodup ha hb).mpr h
    rw [if_neg (by simp [hperm.length_eq])]
    rw [List.all_eq_true]
    intro c hc
    simpa using (h c).mp hc

theorem mem_toSortedSlice (m : List Str) (c : Str) : c ∈ toSortedSlice m ↔ c ∈ m :=
  (List.perm_insertionSort _ m).mem_iff

theorem toSortedSlice_sorted (m : List Str) (h : m.Nodup) :
    (toSortedSlice m).Sorted (· < ·) :=
  (List.sorted_insertionSort (· ≤ ·) m).lt_of_le ((List.perm_insertionSort _ m).nodup_iff.mpr h)

theorem map_filterMap_key {α β : Type} (f : α → Option β) (key : β → α) (l : List α)
    (h : ∀ x y, f x = some y → key y = x) :
    (l.filterMap f).map key = l.filter fun x => (f x).isSome := by
  induction l with
  | nil => rfl
  | cons x rest ih =>
    cases hx : f x with
    | none => simp [List.filterMap_cons, hx, List.filter_cons, ih]
    | some y => simp [List.filterMap_cons, hx, List.filter_cons, ih, h x y hx]

/-- The entries of `ChangedStatus`: one for each operation of both documents
for which `equalStrSet` fails. -/
theorem mem_changedStatus (a b : Option OpenAPI) (ch : StatusChange) :
    ch ∈ (DiffDocs a b).ChangedStatus ↔
      ∃ op, op ∈ listOps a ∧ op ∈ listOps b ∧
        equalStrSet (statusSet a op) (statusSet b op) = false ∧
        ch = ⟨op.Method, op.Path, toSortedSlice (statusSet a op),
          toSortedSlice (statusSet b op)⟩ := by
  show ch ∈ sortChanges _ ↔ _
  unfold sortChanges
  rw [(List.perm_insertionSort _ _).mem_iff, List.mem_filterMap]
  constructor
  · rintro ⟨op, h1, h2⟩
    by_cases hB : toSet (listOps b) op = true
    · cases hE : equalStrSet (statusSet a op) (statusSet b op) with
      | true => simp [hB, hE] at h2
      | false =>
        simp only [hB, hE, if_true, Bool.not_false, Option.some.injEq] at h2
        exact ⟨op, h1, by simpa [toSet] using hB, hE, h2.symm⟩
    · simp [hB] at h2
  · rintro ⟨op, h1, h2, h3, h4⟩
    refine ⟨op, h1, ?_⟩
    have hB : toSet (listOps b) op = true := by simpa [toSet] using h2
    simp only [hB, h3, if_true, Bool.not_false, h4]

/-- C20: every entry of `ChangedStatus` is for an operation that both documents
declare with different sets of status codes, and its lists A and B hold exactly
the codes declared in A and in B, in strictly ascending order; every such
operation has an entry; and no operation has two entries (the path maps of the
documents having each key once). -/
theorem DiffDocs_changedStatus (a b : Option OpenAPI) (ha : (pathKeys a).Nodup)
    (hb : (pathKeys b).Nodup) :
    (∀ ch ∈ (DiffDocs a b).ChangedStatus,
      Declares a ⟨ch.Method, ch.Path⟩ ∧ Declares b ⟨ch.Method, ch.Path⟩ ∧
      ¬ (∀ c, DeclaresCode a ⟨ch.Method, ch.Path⟩ c ↔ DeclaresCode b ⟨ch.Method, ch.Path⟩ c) ∧
      (∀ c, c ∈ ch.A ↔ DeclaresCode a ⟨ch.Method, ch.Path⟩ c) ∧
      (∀ c, c ∈ ch.B ↔ DeclaresCode b ⟨ch.Method, ch.Path⟩ c) ∧
      ch.A.Sorted (· < ·) ∧ ch.B.Sorted (· < ·)) ∧
    (∀ op, Declares a op → Declares b op →
      ¬ (∀ c, DeclaresCode a op c ↔ DeclaresCode b op c) →
      ∃ ch ∈ (DiffDocs a b).ChangedStatus, ch.Method = op.Method ∧ ch.Path = op.Path) ∧
    ((DiffDocs a b).ChangedStatus.map fun ch => (⟨ch.Method, ch.Path⟩ : OpSig)).Nodup := by
  have hset : ∀ op, Declares a op → Declares b op →
      (equalStrSet (statusSet a op) (statusSet b op) = true ↔
        ∀ c, DeclaresCode a op c ↔ DeclaresCode b op c) := by
    intro op h1 h2
    rw [equalStrSet_iff _ _ (statusSet_nodup a op) (statusSet_nodup b op)]
    constructor
    · intro h c
      rw [← mem_statusSet a op ha h1, ← mem_statusSet b op hb h2]
      exact h c
    · intro h c
      rw [mem_statusSet a op ha h1, mem_statusSet b op hb h2]
      exact h c
  refine ⟨?_, ?_, ?_⟩
  · intro ch hch
    obtain ⟨op, h1, h2, h3, h4⟩ := (mem_changedStatus a b ch).mp hch
    have d1 := (mem_listOps a op).mp h1
    have d2 := (mem_listOps b op).mp h2
    subst h4
    refine ⟨d1, d2, ?_, ?_, ?_, ?_, ?_⟩
    · intro hall
      have := (hset op d1 d2).mpr hall
      rw [h3] at this
      exact Bool.false_ne_true this
    · intro c
      rw [mem_toSortedSlice]
      exact mem_statusSet a op ha d1 c
    · intro c
      rw [mem_toSortedSlice]
      exact mem_statusSet b op hb d2 c
    · exact toSortedSlice_sorted _ (statusSet_nodup a op)
    · exact toSortedSlice_sorted _ (statusSet_nodup b op)
  · intro op d1 d2 hne
    refine ⟨⟨op.Method, op.Path, toSortedSlice (statusSet a op),
      toSortedSlice (statusSet b op)⟩, ?_, rfl, rfl⟩
    rw [mem_changedStatus]
    refine ⟨op, (mem_listOps a op).mpr d1, (mem_listOps b op).mpr d2, ?_, rfl⟩
    cases hE : equalStrSet (statusSet a op) (statusSet b op) with
    | false => rfl
    | true => exact absurd ((hset op d1 d2).mp hE) hne
  · show ((sortChanges _).map _).Nodup
    unfold sortChanges
    refine ((List.perm_insertionSort _ _).map _).nodup_iff.mpr ?_
    rw [map_filterMap_key]
    · exact (listOps_nodup a ha).filter _
    · intro op ch hf
      split at hf
      · split at hf
        · simp only [Option.some.injEq] at hf
          subst hf
          rfl
        · simp at hf
      · simp at hf

/-- C20 on the two specs of `diff_test.go`, whose only change of status codes
is that of `POST /users`, from 201 to 200. -/
theorem DiffDocs_changedStatus_witness :
    (DiffDocs specA specB).ChangedStatus =
      [⟨"POST".toList, "/users".toList, ["201".toList], ["200".toList]⟩] ∧
    ((DiffDocs specA specB).ChangedStatus.map fun ch => (⟨ch.Method, ch.Path⟩ : OpSig)).Nodup :=
  ⟨by decide, (DiffDocs_changedStatus specA specB (by decide) (by decide)).2.2⟩

/-! ## Variables and request patches returned by hooks -/

theorem beforeHook_ok (env : Env) (s : StepState) (hk : Hook) (out : Output) (w1 : World)
    (hb : isBefore hk = true)
    (hrun : RunProcessHook env "before".toList hk ⟨clone s.vars, some s.req, none⟩ s.w
      = (.ok out, w1)) :
    (beforeHook env s hk).vars = mergeVars s.vars out.Vars ∧
    (beforeHook env s hk).req = (match out.Request with
      | none => s.req
      | some p => applyPatch s.req p) := by
  have hw : toLower hk.When = "before".toList := by simpa [isBefore] using hb
  unfold beforeHook
  rw [if_neg (by simp [hw]), hrun]
  exact ⟨rfl, rfl⟩

theorem afterHook_ok (env : Env) (resp : Resp) (s : StepState) (hk : Hook) (out : Output)
    (w1 : World) (ha : isAfter hk = true)
    (hrun : RunProcessHook env "after".toList hk ⟨clone s.vars, some s.req, some resp⟩ s.w
      = (.ok out, w1)) :
    (afterHook env resp s hk).vars = mergeVars s.vars out.Vars := by
  have hw : toLower hk.When = "after".toList := by simpa [isAfter] using ha
  unfold afterHook
  rw [if_neg (by simp [hw]), hrun]

theorem mergeVars_set (vars out : StrMap) (k v : Str) (h : out k = some v) (hv : v ≠ []) :
    mergeVars vars out k = some v := by
  simp [mergeVars, h, hv]

theorem mergeVars_keep (vars out : StrMap) (k : Str) (h : out k = none ∨ out k = some []) :
    mergeVars vars out k = vars k := by
  rcases h with h | h <;> simp [mergeVars, h]

/-- C23: when a hook of either phase succeeds and returns the variables `V`, the
variables of the scenario afterwards hold `V[k]` under every key `k` for which
`V[k]` is not the empty string, and under every other key, the keys that `V`
maps to the empty string included, what they held before (a value or nothing). -/
theorem hook_vars (env : Env) (resp : Resp) (s : StepState) (hk : Hook) (out : Output)
    (w1 : World) :
    (isBefore hk = true →
      RunProcessHook env "before".toList hk ⟨clone s.vars, some s.req, none⟩ s.w = (.ok out, w1) →
      (∀ k v, out.Vars k = some v → v ≠ [] → (beforeHook env s hk).vars k = some v) ∧
      (∀ k, out.Vars k = none ∨ out.Vars k = some [] →
        (beforeHook env s hk).vars k = s.vars k)) ∧
    (isAfter hk = true →
      RunProcessHook env "after".toList hk ⟨clone s.vars, some s.req, some resp⟩ s.w
        = (.ok out, w1) →
      (∀ k v, out.Vars k = some v → v ≠ [] → (afterHook env resp s hk).vars k = some v) ∧
      (∀ k, out.Vars k = none ∨ out.Vars k = some [] →
        (afterHook env resp s hk).vars k = s.vars k)) := by
  refine ⟨fun hb hrun => ?_, fun ha hrun => ?_⟩
  · rw [(beforeHook_ok env s hk out w1 hb hrun).1]
    exact ⟨fun k v h hv => mergeVars_set _ _ k v h hv, fun k h => mergeVars_keep _ _ k h⟩
  · rw [afterHook_ok env resp s hk out w1 ha hrun]
    exact ⟨fun k v h hv => mergeVars_set _ _ k v h hv, fun k h => mergeVars_keep _ _ k h⟩

theorem hook_vars_witness :
    (beforeHook (hookEnv tokenOutput) (stepAt tokenVars (simpleRequest [] []))
        (processHook "before".toList "sign".toList)).vars "token".toList = some "abc".toList ∧
    (beforeHook (hookEnv tokenOutput) (stepAt tokenVars (simpleRequest [] []))
        (processHook "before".toList "sign".toList)).vars "trace".toList = some "t1".toList ∧
    (afterHook (hookEnv tokenOutput) ⟨200, fun _ => none, []⟩
        (stepAt tokenVars (simpleRequest [] []))
        (processHook "after".toList "sign".toList)).vars "other".toList = none :=
  ⟨((hook_vars (hookEnv tokenOutput) ⟨200, fun _ => none, []⟩
      (stepAt tokenVars (simpleRequest [] [])) (processHook "before".toList "sign".toList)
      tokenOutput _).1 rfl rfl).1 _ _ rfl (by decide),
    ((hook_vars (hookEnv tokenOutput) ⟨200, fun _ => none, []⟩
      (stepAt tokenVars (simpleRequest [] [])) (processHook "before".toList "sign".toList)
      tokenOutput _).1 rfl rfl).2 _ (Or.inr rfl),
    ((hook_vars (hookEnv tokenOutput) ⟨200, fun _ => none, []⟩
      (stepAt tokenVars (simpleRequest [] [])) (processHook "after".toList "sign".toList)
      tokenOutput _).2 rfl rfl).2 _ (Or.inl rfl)⟩

theorem applyPatch_url (req : Request) (p : ReqPatch) :
    (applyPatch req p).URL = if p.URL ≠ [] then p.URL else req.URL := by
  unfold applyPatch
  simp only []
  split <;> split <;> split <;> rfl

theorem applyPatch_method (req : Request) (p : ReqPatch) :
    (applyPatch req p).Method = if p.Method ≠ [] then toUpper p.Method else req.Method := by
  unfold applyPatch
  simp only []
  split <;> split <;> split <;> rfl

theorem applyPatch_headers (req : Request) (p : ReqPatch) (k : Str) :
    (applyPatch req p).Headers k =
      match p.Headers k with
      | some v => some v
      | none => req.Headers k := by
  unfold applyPatch
  simp only []
  split <;> split <;> split <;> rfl

theorem applyPatch_timeout (req : Request) (p : ReqPatch) :
    (applyPatch req p).TimeoutMs = req.TimeoutMs := by
  unfold applyPatch
  simp only []
  split <;> split <;> split <;> rfl

theorem applyPatch_body_null (req : Request) (p : ReqPatch) (h : p.Body = .null) :
    (applyPatch req p).Body = req.Body := by
  unfold applyPatch
  simp only [h]
  split <;> split <;> rfl

theorem applyPatch_body (req : Request) (p : ReqPatch) (h : p.Body ≠ .null) :
    (applyPatch req p).Body = p.Body := by
  unfold applyPatch
  simp only []

theorem afterHook_req (env : Env) (resp : Resp) (s : StepState) (hk : Hook) :
    (afterHook env resp s hk).req = s.req := by
  unfold afterHook
  split
  · rfl
  · split <;> rfl

theorem RunProcessHook_request (env : Env) (phase : Str) (hk : Hook) (inp : Input) (w w1 : World)
    (out : Output) (hp : phase ≠ "before".toList)
    (hrun : RunProcessHook env phase hk inp w = (.ok out, w1)) : out.Request = none := by
  unfold RunProcessHook at hrun
  simp only [] at hrun
  split at hrun
  · simp at hrun
  · split at hrun
    · simp at hrun
    · simp only [Prod.mk.injEq, Except.ok.injEq] at hrun
      rw [← hrun.1]

/-- C24: when a hook ahead of the request succeeds and returns a request patch,
the pending request afterwards has the URL of the patch if that is not empty and
its own URL otherwise, the upper-cased method of the patch if that is not empty
and its own method otherwise, the body of the patch if the patch has one and its
own body otherwise, and under every header key the value of the patch if the
patch names the key and its own value (or none) otherwise; the timeout stays. A
hook behind the request never changes the pending request, and the output that
`RunProcessHook` returns in any phase other than before carries no patch. -/
theorem beforeHook_patch (env : Env) (resp : Resp) (s : StepState) (hk : Hook) (out : Output)
    (w1 : World) (p : ReqPatch) :
    (isBefore hk = true →
      RunProcessHook env "before".toList hk ⟨clone s.vars, some s.req, none⟩ s.w = (.ok out, w1) →
      out.Request = some p →
      (beforeHook env s hk).req.URL = (if p.URL ≠ [] then p.URL else s.req.URL) ∧
      (beforeHook env s hk).req.Method =
        (if p.Method ≠ [] then toUpper p.Method else s.req.Method) ∧
      (p.Body ≠ .null → (beforeHook env s hk).req.Body = p.Body) ∧
      (p.Body = .null → (beforeHook env s hk).req.Body = s.req.Body) ∧
      (∀ k v, p.Headers k = some v → (beforeHook env s hk).req.Headers k = some v) ∧
      (∀ k, p.Headers k = none → (beforeHook env s hk).req.Headers k = s.req.Headers k) ∧
      (beforeHook env s hk).req.TimeoutMs = s.req.TimeoutMs) ∧
    (afterHook env resp s hk).req = s.req ∧
    (∀ phase inp w out2 w2, phase ≠ "before".toList →
      RunProcessHook env phase hk inp w = (.ok out2, w2) → out2.Request = none) := by
  refine ⟨fun hb hrun hreq => ?_, afterHook_req env resp s hk,
    fun phase inp w out2 w2 hp h => RunProcessHook_request env phase hk inp w w2 out2 hp h⟩
  have h := (beforeHook_ok env s hk out w1 hb hrun).2
  rw [hreq] at h
  simp only [] at h
  rw [h]
  refine ⟨applyPatch_url _ _, applyPatch_method _ _, applyPatch_body _ _,
    applyPatch_body_null _ _, fun k v hk => ?_, fun k hk => ?_, applyPatch_timeout _ _⟩
  · rw [applyPatch_headers, hk]
  · rw [applyPatch_headers, hk]

/-- C24 on the request `POST /v1` and a patch with the URL `/v2`, the method
`put`, the header `X-Sig` and no body. -/
theorem beforeHook_patch_witness :
    (beforeHook (hookEnv (patchOutput signPatch)) (stepAt StrMap.empty draftRequest)
        (processHook "before".toList "sign".toList)).req.URL = "/v2".toList ∧
    (beforeHook (hookEnv (patchOutput signPatch)) (stepAt StrMap.empty draftRequest)
        (processHook "before".toList "sign".toList)).req.Method = "PUT".toList ∧
    (beforeHook (hookEnv (patchOutput signPatch)) (stepAt StrMap.empty draftRequest)
        (processHook "before".toList "sign".toList)).req.Headers "X-Sig".toList
      = some "s1".toList ∧
    (beforeHook (hookEnv (patchOutput signPatch)) (stepAt StrMap.empty draftRequest)
        (processHook "before".toList "sign".toList)).req.Headers "Accept".toList
      = some "text/plain".toList :=
  ⟨((beforeHook_patch (hookEnv (patchOutput signPatch)) ⟨200, fun _ => none, []⟩
      (stepAt StrMap.empty draftRequest) (processHook "before".toList "sign".toList)
      (patchOutput signPatch) _ signPatch).1 rfl rfl rfl).1,
    ((beforeHook_patch (hookEnv (patchOutput signPatch)) ⟨200, fun _ => none, []⟩
      (stepAt StrMap.empty draftRequest) (processHook "before".toList "sign".toList)
      (patchOutput signPatch) _ signPatch).1 rfl rfl rfl).2.1,
    ((beforeHook_patch (hookEnv (patchOutput signPatch)) ⟨200, fun _ => none, []⟩
      (stepAt StrMap.empty draftRequest) (processHook "before".toList "sign".toList)
      (patchOutput signPatch) _ signPatch).1 rfl rfl rfl).2.2.2.2.1 _ _ rfl,
    ((beforeHook_patch (hookEnv (patchOutput signPatch)) ⟨200, fun _ => none, []⟩
      (stepAt StrMap.empty draftRequest) (processHook "before".toList "sign".toList)
      (patchOutput signPatch) _ signPatch).1 rfl rfl rfl).2.2.2.2.2.1 _ rfl⟩

/-! ## The method of a request -/

theorem ofNat_upper (n : Nat) (h1 : 97 ≤ n) (h2 : n ≤ 122) :
    (Char.ofNat (n - 32)).isLower = false := by
  interval_cases n <;> decide

theorem char_toUpper_not_lower (c : Char) : (Char.toUpper c).isLower = false := by
  unfold Char.toUpper
  simp only []
  split
  · rename_i h
    exact ofNat_upper _ h.1 h.2
  · rename_i h
    unfold Char.isLower
    have e1 : (c.val ≥ 97) ↔ c.toNat ≥ 97 := by
      show (97 : UInt32) ≤ c.val ↔ _
      rw [UInt32.le_def]
      rfl
    have e2 : (c.val ≤ 122) ↔ c.toNat ≤ 122 := by
      rw [UInt32.le_def]
      rfl
    by_contra hc
    simp only [Bool.not_eq_false, Bool.and_eq_true, decide_eq_true_eq] at hc
    exact h ⟨e1.mp hc.1, e2.mp hc.2⟩

theorem toUpper_isUpper (s : Str) : IsUpper (toUpper s) := by
  intro c hc
  obtain ⟨d, -, rfl⟩ := List.mem_map.mp hc
  exact char_toUpper_not_lower d

theorem beforeHook_method (env : Env) (s : StepState) (hk : Hook)
    (h : IsUpper s.req.Method) : IsUpper (beforeHook env s hk).req.Method := by
  unfold beforeHook
  split
  · exact h
  · split
    · exact h
    · simp only []
      split
      · exact h
      · rw [applyPatch_method]
        split
        · exact toUpper_isUpper _
        · exact h

theorem beforeHooks_method (env : Env) (hooks : List Hook) (s : StepState)
    (h : IsUpper s.req.Method) : IsUpper (hooks.foldl (beforeHook env) s).req.Method := by
  induction hooks generalizing s with
  | nil => exact h
  | cons hk rest ih =>
    rw [List.foldl_cons]
    exact ih _ (beforeHook_method env s hk h)

theorem afterHook_stepMethod (env : Env) (resp : Resp) (s : StepState) (hk : Hook) :
    (afterHook env resp s hk).stepRes.Method = s.stepRes.Method := by
  unfold afterHook
  split
  · rfl
  · split
    · rfl
    · simp only []
      split <;> rfl

theorem afterHooks_stepMethod (env : Env) (resp : Resp) (hooks : List Hook) (s : StepState) :
    (hooks.foldl (afterHook env resp) s).stepRes.Method = s.stepRes.Method := by
  induction hooks generalizing s with
  | nil => rfl
  | cons hk rest ih => rw [List.foldl_cons, ih, afterHook_stepMethod]

theorem evalExpectations_stepMethod (r : Runner) (status : Int)
    (jsonBody : Option (List (Str × GoVal))) (vars : StrMap) (method url : Str)
    (respHeaders : RespHeaders) (rawBody : Str) (exps : List Expectation) (sr : StepResult)
    (w : World) :
    (evalExpectations r status jsonBody vars method url respHeaders rawBody exps sr w).1.Method =
      sr.Method := by
  induction exps generalizing sr w with
  | nil => rfl
  | cons e rest ih =>
    simp only [evalExpectations]
    rw [ih]
    split <;> rfl

/-- The method recorded for a step is the method of the pending request. -/
theorem runStep_method (r : Runner) (env : Env) (s : ScenarioState) (st : Step) :
    ∃ sr, (runStep r env s st).scRes.Steps = s.scRes.Steps ++ [sr] ∧
      sr.Method = (pendingRequest env s st).Method := by
  unfold runStep
  simp only []
  split
  · exact ⟨_, rfl, rfl⟩
  · refine ⟨_, rfl, ?_⟩
    rw [evalExpectations_stepMethod, afterHooks_stepMethod]
    generalize doRequest env _ _ = sent
    obtain ⟨o, w1⟩ := sent
    cases o <;> rfl

theorem pendingRequest_method (env : Env) (s : ScenarioState) (st : Step) :
    IsUpper (pendingRequest env s st).Method := by
  unfold pendingRequest beforeState
  exact beforeHooks_method env st.Hooks _ (toUpper_isUpper _)

/-! ## Expansion of a request -/

theorem walkInterpolateList_eq (xs : List GoVal) (vars : StrMap) :
    walkInterpolateList xs vars = xs.map fun x => walkInterpolate x vars := by
  induction xs with
  | nil => rfl
  | cons x rest ih => rw [walkInterpolateList, ih, List.map_cons]

theorem walkInterpolateMap_eq (kvs : List (Str × GoVal)) (vars : StrMap) :
    walkInterpolateMap kvs vars = kvs.map fun e => (e.1, walkInterpolate e.2 vars) := by
  induction kvs with
  | nil => rfl
  | cons e rest ih =>
    obtain ⟨k, v⟩ := e
    rw [walkInterpolateMap, ih, List.map_cons]

theorem lookup_map_value (f : GoVal → GoVal) (k : Str) (kvs : List (Str × GoVal)) :
    (kvs.map fun e => (e.1, f e.2)).lookup k = (kvs.lookup k).map f := by
  induction kvs with
  | nil => rfl
  | cons e rest ih =>
    obtain ⟨k2, v⟩ := e
    simp only [List.map_cons, List.lookup_cons]
    cases k == k2
    · exact ih
    · rfl

theorem child_walkInterpolate (v : GoVal) (vars : StrMap) (sel : Sel) :
    child (walkInterpolate v vars) sel = (child v sel).map fun c => walkInterpolate c vars := by
  cases sel with
  | idx i =>
    cases v <;> simp only [walkInterpolate, child, Option.map_none']
    rw [walkInterpolateList_eq, List.getElem?_map]
  | key k =>
    cases v <;> simp only [walkInterpolate, child, Option.map_none']
    rw [walkInterpolateMap_eq]
    exact lookup_map_value (fun c => walkInterpolate c vars) k _

/-- Every path leads in the expanded value to the expansion of what it leads to
in the value itself, and to nothing where it leads to nothing there. -/
theorem descend_walkInterpolate (path : List Sel) (v : GoVal) (vars : StrMap) :
    descend path (walkInterpolate v vars) =
      (descend path v).map fun c => walkInterpolate c vars := by
  induction path generalizing v with
  | nil => rfl
  | cons sel rest ih =>
    simp only [descend]
    rw [child_walkInterpolate]
    cases child v sel with
    | none => rfl
    | some c => exact ih c

theorem walkInterpolate_scalar (v : GoVal) (vars : StrMap) (h : isScalar v = true) :
    walkInterpolate v vars = v := by
  cases v <;> simp [isScalar] at h <;> rfl

/-- C27: `expandRequest` interpolates the URL and the value under every header
key, and leaves the header keys and the timeout as they are. In the body, every
path of map keys and list indices that leads to a string leads to its
interpolation afterwards; a path that leads to a number, a boolean or null leads
to the same value; a path that leads to a list leads to a list of the same
length, a path that leads to a map leads to a map with the same keys in the same
order (the elements and values being reached by the longer paths), and a path
that leads nowhere still leads nowhere. -/
theorem expandRequest_interpolates (rq : Request) (vars : StrMap) :
    (expandRequest rq vars).URL = interpolate rq.URL vars ∧
    (∀ k, (expandRequest rq vars).Headers k = (rq.Headers k).map fun v => interpolate v vars) ∧
    (∀ path s, descend path rq.Body = some (.str s) →
      descend path (expandRequest rq vars).Body = some (.str (interpolate s vars))) ∧
    (∀ path v, descend path rq.Body = some v → isScalar v = true →
      descend path (expandRequest rq vars).Body = some v) ∧
    (∀ path xs, descend path rq.Body = some (.list xs) →
      ∃ ys, descend path (expandRequest rq vars).Body = some (.list ys) ∧
        ys.length = xs.length ∧ ∀ i : Nat, ys[i]? = (xs[i]?).map fun x => walkInterpolate x vars) ∧
    (∀ path kvs, descend path rq.Body = some (.map kvs) →
      ∃ kvs2, descend path (expandRequest rq vars).Body = some (.map kvs2) ∧
        kvs2.map Prod.fst = kvs.map Prod.fst) ∧
    (∀ path, descend path rq.Body = none → descend path (expandRequest rq vars).Body = none) ∧
    (expandRequest rq vars).TimeoutMs = rq.TimeoutMs := by
  refine ⟨rfl, fun k => rfl, fun path s h => ?_, fun path v h hs => ?_, fun path xs h => ?_,
    fun path kvs h => ?_, fun path h => ?_, rfl⟩
  · show descend path (walkInterpolate rq.Body vars) = _
    rw [descend_walkInterpolate, h]
    rfl
  · show descend path (walkInterpolate rq.Body vars) = _
    rw [descend_walkInterpolate, h, Option.map_some', walkInterpolate_scalar v vars hs]
  · refine ⟨xs.map fun x => walkInterpolate x vars, ?_, List.length_map _ _, fun i => ?_⟩
    · show descend path (walkInterpolate rq.Body vars) = _
      rw [descend_walkInterpolate, h, Option.map_some', walkInterpolate, walkInterpolateList_eq]
    · rw [List.getElem?_map]
  · refine ⟨kvs.map fun e => (e.1, walkInterpolate e.2 vars), ?_, ?_⟩
    · show descend path (walkInterpolate rq.Body vars) = _
      rw [descend_walkInterpolate, h, Option.map_some', walkInterpolate, walkInterpolateMap_eq]
    · rw [List.map_map]
      rfl
  · show descend path (walkInterpolate rq.Body vars) = _
    rw [descend_walkInterpolate, h]
    rfl

/-- C27 on a body with a nested mapping and a list: the string under
`user.id` and the first element of `tags` are interpolated, the number under
`user.age` is kept. -/
theorem expandRequest_interpolates_witness :
    descend [.key "user".toList, .key "id".toList]
        (expandRequest ⟨"post".toList, "/u/${uuid}".toList, StrMap.empty, nestedBody, 0⟩
          sampleVars).Body = some (.str "u1".toList) ∧
    descend [.key "tags".toList, .idx 0]
        (expandRequest ⟨"post".toList, "/u/${uuid}".toList, StrMap.empty, nestedBody, 0⟩
          sampleVars).Body = some (.str "a-dev".toList) ∧
    descend [.key "user".toList, .key "age".toList]
        (expandRequest ⟨"post".toList, "/u/${uuid}".toList, StrMap.empty, nestedBody, 0⟩
          sampleVars).Body = some (.num 42) :=
  ⟨(expandRequest_interpolates ⟨"post".toList, "/u/${uuid}".toList, StrMap.empty, nestedBody, 0⟩
      sampleVars).2.2.1 [.key "user".toList, .key "id".toList] "${uuid}".toList rfl,
    (expandRequest_interpolates ⟨"post".toList, "/u/${uuid}".toList, StrMap.empty, nestedBody, 0⟩
      sampleVars).2.2.1 [.key "tags".toList, .idx 0] "a-${env}".toList rfl,
    (expandRequest_interpolates ⟨"post".toList, "/u/${uuid}".toList, StrMap.empty, nestedBody, 0⟩
      sampleVars).2.2.2.1 [.key "user".toList, .key "age".toList] (.num 42) rfl rfl⟩

/-! ## Deadlines -/

/-- Within the range where the count of nanoseconds fits an `int64`, a positive
timeout gives the deadline of that many milliseconds. -/
theorem timeoutNanos_positive (ms : Int) (h1 : 0 < ms) (h2 : ms ≤ 9223372036854) :
    timeoutNanos ms = ms * 1000000 := by
  have hw : wrapInt64 (ms * 1000000) = ms * 1000000 := by
    unfold wrapInt64
    have e : (ms * 1000000 + 2 ^ 63) % 2 ^ 64 = ms * 1000000 + 2 ^ 63 :=
      Int.emod_eq_of_lt (by positivity) (by norm_num; omega)
    rw [e]
    ring
  unfold timeoutNanos
  rw [hw, if_neg (by omega)]

/-- Within the range where the count of nanoseconds fits an `int64`, a timeout
that is zero or negative gives the deadline of ten seconds. -/
theorem timeoutNanos_default (ms : Int) (h1 : ms ≤ 0) (h2 : -9223372036854 ≤ ms) :
    timeoutNanos ms = 10000 * 1000000 := by
  have hw : wrapInt64 (ms * 1000000) = ms * 1000000 := by
    unfold wrapInt64
    have e : (ms * 1000000 + 2 ^ 63) % 2 ^ 64 = ms * 1000000 + 2 ^ 63 :=
      Int.emod_eq_of_lt (by norm_num; omega) (by norm_num; omega)
    rw [e]
    ring
  unfold timeoutNanos
  rw [hw, if_pos (by omega)]
  norm_num

/-- C30 at a failing input: for the positive timeout of 9,223,372,036,855 ms the
product with the 1,000,000 nanoseconds of a millisecond wraps to a negative
`int64`, so `doRequest` hands the request to the client under the default
deadline of ten seconds, and a hook with that timeout runs under the same
default; for 18,446,744,073,710 ms the product wraps to 448,384 nanoseconds. -/
theorem timeoutNanos_overflow :
    wrapInt64 (9223372036855 * 1000000) = -9223372036854551616 ∧
    timeoutNanos 9223372036855 = 10000 * 1000000 ∧
    (doRequest (answeringEnv [] none) longRequest World.init).2.trace
      = [Event.http longRequest (10000 * 1000000)] ∧
    timeoutNanos (processHook "before".toList "sign".toList).TimeoutMs = 10000 * 1000000 ∧
    timeoutNanos { processHook "before".toList "sign".toList with
      TimeoutMs := 9223372036855 }.TimeoutMs = 10000 * 1000000 ∧
    timeoutNanos 18446744073710 = 448384 := by
  refine ⟨by decide, by decide, ?_, by decide, by decide, by decide⟩
  simp only [doRequest, bodyErr, longRequest, answeringEnv, refusingEnv, World.init,
    List.nil_append]
  rw [show timeoutNanos 9223372036855 = 10000 * 1000000 by decide]

/-! ## Expectations of a step -/

theorem evalExpectation_world (r : Runner) (exp : Expectation) (status : Int)
    (jsonBody : Option (List (Str × GoVal))) (vars : StrMap) (method url : Str)
    (respHeaders : RespHeaders) (rawBody : Str) (w w2 : World) :
    (evalExpectation r exp status jsonBody vars method url respHeaders rawBody w).1 =
      (evalExpectation r exp status jsonBody vars method url respHeaders rawBody w2).1 := by
  unfold evalExpectation
  split
  · split
    · split <;> rfl
    · split <;> rfl
    · rfl
  · split
    · split <;> rfl
    · split
      · split
        · rfl
        · split <;> rfl
      · rfl

/-- The loop over the expectations appends the message of every expectation
that fails, in declared order, whatever the step result held before. -/
theorem evalExpectations_errors (r : Runner) (status : Int)
    (jsonBody : Option (List (Str × GoVal))) (vars : StrMap) (method url : Str)
    (respHeaders : RespHeaders) (rawBody : Str) (exps : List Expectation) (sr : StepResult)
    (w : World) :
    (evalExpectations r status jsonBody vars method url respHeaders rawBody exps sr w).1.Errors =
      sr.Errors ++
        (((exps.map fun exp =>
          (evalExpectation r exp status jsonBody vars method url respHeaders rawBody
            World.init).1).filter fun o => !o.1).map fun o => o.2) ∧
    (evalExpectations r status jsonBody vars method url respHeaders rawBody exps sr w).1.Passed =
      (sr.Passed && (exps.map fun exp =>
          (evalExpectation r exp status jsonBody vars method url respHeaders rawBody
            World.init).1).all fun o => o.1) := by
  induction exps generalizing sr w with
  | nil => simp [evalExpectations]
  | cons e rest ih =>
    have hw := evalExpectation_world r e status jsonBody vars method url respHeaders rawBody
      w World.init
    simp only [evalExpectations, List.map_cons]
    rw [← hw]
    generalize evalExpectation r e status jsonBody vars method url respHeaders rawBody w = res
    obtain ⟨⟨ok, msg⟩, w1⟩ := res
    simp only []
    rw [(ih _ w1).1, (ih _ w1).2]
    cases ok <;> simp [List.filter_cons]

/-- The result of a step that passes the guard is what the loop over the
expectations makes of the result that the hooks and the request left. -/
theorem runStep_dispatched (r : Runner) (env : Env) (s : ScenarioState) (st : Step)
    (hd : (findUnresolved (pendingRequest env s st).URL).length = 0) :
    ∃ sr0 w0, (runStep r env s st).scRes.Steps = s.scRes.Steps ++
      [(evalExpectations r (sentStatus (stepSent env s st))
        (if (sentBody (stepSent env s st)).length > 0 then
          env.jsonObject (sentBody (stepSent env s st)) else none)
        (runStep r env s st).vars (pendingRequest env s st).Method (pendingRequest env s st).URL
        (sentHeaders (stepSent env s st)) (sentBody (stepSent env s st)) st.Expect sr0 w0).1] := by
  have hg : ¬ (findUnresolved (beforeState env s st).req.URL).length > 0 := by
    unfold pendingRequest at hd
    omega
  unfold stepSent pendingRequest
  unfold beforeState at hg ⊢
  unfold runStep
  simp only []
  rw [if_neg hg]
  simp only [afterHooks_req]
  exact ⟨_, _, rfl⟩

/-- C25: for every step whose pending request passes the unresolved-variable
guard, whatever the hooks and the request of the step did: the error list of the
step result is the list of the errors met before the expectations followed by
the message of every expectation of the step that fails, in declared order, one
message each; every expectation has its outcome, and the step passes only if all
of them pass. -/
theorem runStep_expectations (r : Runner) (env : Env) (s : ScenarioState) (st : Step)
    (hd : (findUnresolved (pendingRequest env s st).URL).length = 0) :
    ∃ sr earlier, (runStep r env s st).scRes.Steps = s.scRes.Steps ++ [sr] ∧
      sr.Errors = earlier ++
        (((expectationOutcomes r env s st).filter fun o => !o.1).map fun o => o.2) ∧
      (expectationOutcomes r env s st).length = st.Expect.length ∧
      (sr.Passed = true → ∀ o ∈ expectationOutcomes r env s st, o.1 = true) := by
  obtain ⟨sr0, w0, h⟩ := runStep_dispatched r env s st hd
  refine ⟨_, sr0.Errors, h, ?_, ?_, ?_⟩
  · rw [(evalExpectations_errors _ _ _ _ _ _ _ _ _ _ _).1]
    rfl
  · simp [expectationOutcomes]
  · intro hp o ho
    rw [(evalExpectations_errors _ _ _ _ _ _ _ _ _ _ _).2] at hp
    simp only [Bool.and_eq_true, List.all_eq_true] at hp
    exact hp.2 o ho

/-- C25 on a step against an endpoint that refuses the connection: the request
error comes first, then the messages of the three expectations, which all fail. -/
theorem runStep_expectations_witness :
    ∃ sr earlier,
      (runStep New refusingEnv ⟨⟨[], true, false, []⟩, StrMap.empty, World.init⟩
        threeExpectations).scRes.Steps = [] ++ [sr] ∧
      sr.Errors = earlier ++
        ["status: got 0, want 200".toList, "jsonPath: $.id not found".toList,
          "status: got 0, want 201".toList] ∧
      3 = threeExpectations.Expect.length ∧
      (sr.Passed = true → ∀ o ∈ expectationOutcomes New refusingEnv
        ⟨⟨[], true, false, []⟩, StrMap.empty, World.init⟩ threeExpectations, o.1 = true) :=
  runStep_expectations New refusingEnv ⟨⟨[], true, false, []⟩, StrMap.empty, World.init⟩
    threeExpectations rfl

/-! ## A setup that fails -/

/-- C26: when a request of the setup actions ends in an error, the scenario
result has the pass flag false, holds one step result for every declared step,
and has `TeardownRan` set; the teardown actions are run on the variables and the
world that the steps left: the requests sent after the last step are a leading
part of the teardown requests, all of them when no teardown request ends in an
error. -/
theorem runScenario_setupError (r : Runner) (env : Env) (sc : Scenario) (w : World) (err : Str)
    (h : (runActions env sc.Setup (scenarioVars r env w) w).1 = some err) :
    (runScenario r env sc w).1.Passed = false ∧
    (runScenario r env sc w).1.Steps.length = sc.Steps.length ∧
    (runScenario r env sc w).1.TeardownRan = true ∧
    (runScenario r env sc w).2 =
      (runActions env sc.Teardown (afterSteps r env sc w).vars (afterSteps r env sc w).w).2 ∧
    ∃ k, k ≤ (actionRequests sc.Teardown (afterSteps r env sc w).vars).length ∧
      (runScenario r env sc w).2.trace =
        (afterSteps r env sc w).w.trace ++
          ((actionRequests sc.Teardown (afterSteps r env sc w).vars).take k).map httpEvent ∧
      ((runActions env sc.Teardown (afterSteps r env sc w).vars (afterSteps r env sc w).w).1
          = none →
        k = (actionRequests sc.Teardown (afterSteps r env sc w).vars).length) := by
  obtain ⟨new, g1, g2, g3, _⟩ := runSteps_result r env sc.Steps
    { scRes := ⟨sc.Name, (match (runActions env sc.Setup (scenarioVars r env w) w).1 with
        | some _ => false
        | none => true), false, []⟩
      vars := scenarioVars r env w
      w := (runActions env sc.Setup (scenarioVars r env w) w).2 }
  refine ⟨?_, ?_, rfl, rfl, ?_⟩
  · simp only [runScenario, afterSteps]
    refine g3.trans ?_
    simp only [h, Bool.false_and]
  · simp only [runScenario, afterSteps]
    refine (congrArg List.length g1).trans ?_
    simpa using g2
  · obtain ⟨k, h1, h2, h3⟩ :=
      runActions_trace env sc.Teardown (afterSteps r env sc w).vars (afterSteps r env sc w).w
    refine ⟨k, h1, ?_, h3⟩
    simp only [runScenario]
    rw [h2]

/-- C26 on a scenario with one setup request, two steps and one teardown request
against an endpoint that refuses every connection. -/
theorem runScenario_setupError_witness :
    (runScenario New refusingEnv setupScenario World.init).1.Passed = false ∧
    (runScenario New refusingEnv setupScenario World.init).1.Steps.length = 2 ∧
    (runScenario New refusingEnv setupScenario World.init).1.TeardownRan = true ∧
    (runScenario New refusingEnv setupScenario World.init).2.trace.map eventURL =
      [some "/seed".toList, some "/a".toList, some "/b".toList, some "/seed".toList] :=
  ⟨(runScenario_setupError New refusingEnv setupScenario World.init
      "do: connection refused".toList rfl).1,
    (runScenario_setupError New refusingEnv setupScenario World.init
      "do: connection refused".toList rfl).2.1,
    (runScenario_setupError New refusingEnv setupScenario World.init
      "do: connection refused".toList rfl).2.2.1, rfl⟩

/-! ## Base variables -/

theorem scenarioVars_other (r : Runner) (env : Env) (w : World) (k : Str)
    (h1 : k ≠ "uuid".toList) (h2 : k ≠ "now".toList) : scenarioVars r env w k = r.baseVars k := by
  unfold scenarioVars StrMap.set clone
  rw [if_neg h2, if_neg h1]

theorem read_append_lt (h : Heap) (m : StrMap) (a : Nat) (ha : a < h.length) :
    Heap.read (h ++ [m]) a = Heap.read h a := by
  simp [Heap.read, List.getD_eq_getElem?_getD, List.getElem?_append_left ha]

theorem read_append_length (h : Heap) (m : StrMap) : Heap.read (h ++ [m]) h.length = m := by
  simp [Heap.read, List.getD_eq_getElem?_getD]

theorem read_assign_ne (h : Heap) (a b : Nat) (k v : Str) (hab : a ≠ b) :
    (h.assign a k v).read b = h.read b := by
  simp [Heap.read, Heap.assign, List.getD_eq_getElem?_getD, List.getElem?_set_ne hab]

theorem read_assign_self (h : Heap) (a : Nat) (k v : Str) (ha : a < h.length) :
    (h.assign a k v).read a = (h.read a).set k v := by
  simp [Heap.read, Heap.assign, List.getD_eq_getElem?_getD, List.getElem?_set_self ha]

theorem length_assign (h : Heap) (a : Nat) (k v : Str) : (h.assign a k v).length = h.length := by
  simp [Heap.assign]

/-- C29: a scenario starts from the variables `scenarioVars`: the base variables
of the runner under every key other than `uuid` and `now`, whatever happened
before (so what the hooks of another scenario wrote into the variables of that
scenario is not there, in any order of execution), and the runner built by
`NewWithVars` holds the entries of the map it was given. On references: the map
that `NewWithVars` keeps is a new one, so an assignment through the reference of
the caller leaves it as it is; the map that a scenario starts from is a new one
with the entries of `scenarioVars`, building it leaves the base map as it is,
and so does every later assignment to the variables of the scenario. -/
theorem scenarioVars_frame (r : Runner) (env : Env) (sc : Scenario) (w w2 : World)
    (vars : StrMap) (h : Heap) (a : Nat) (ha : a < h.length) :
    (∀ k, k ≠ "uuid".toList → k ≠ "now".toList → scenarioVars r env w k = r.baseVars k) ∧
    scenarioVars r env w "uuid".toList = some (newUUID env w) ∧
    scenarioVars r env w "now".toList = some (env.nowText w.trace) ∧
    (∀ k, k ≠ "uuid".toList → k ≠ "now".toList →
      scenarioVars r env w2 k = scenarioVars r env w k) ∧
    (∃ s0 : ScenarioState, s0.vars = scenarioVars r env w ∧
      afterSteps r env sc w = sc.Steps.foldl (runStep r env) s0) ∧
    (∀ k, (NewWithVars vars).baseVars k = vars k) ∧
    (NewWithVarsRef h a).1 ≠ a ∧
    (NewWithVarsRef h a).2.read (NewWithVarsRef h a).1 = (NewWithVars (h.read a)).baseVars ∧
    (∀ k v, ((NewWithVarsRef h a).2.assign a k v).read (NewWithVarsRef h a).1 =
      (NewWithVars (h.read a)).baseVars) ∧
    (scenarioVarsRef env w h a).2.read (scenarioVarsRef env w h a).1 =
      scenarioVars { r with baseVars := h.read a } env w ∧
    (scenarioVarsRef env w h a).2.read a = h.read a ∧
    (∀ k v, ((scenarioVarsRef env w h a).2.assign (scenarioVarsRef env w h a).1 k v).read a =
      h.read a) := by
  have hne : h.length ≠ a := by omega
  refine ⟨fun k h1 h2 => scenarioVars_other r env w k h1 h2, by simp [scenarioVars, StrMap.set],
    by simp [scenarioVars, StrMap.set],
    fun k h1 h2 => by rw [scenarioVars_other r env w k h1 h2, scenarioVars_other r env w2 k h1 h2],
    ⟨_, rfl, rfl⟩, fun k => rfl, hne, ?_, fun k v => ?_, ?_, ?_, fun k v => ?_⟩
  · simp only [NewWithVarsRef, cloneRef, NewWithVars]
    rw [read_append_length]
  · simp only [NewWithVarsRef, cloneRef, NewWithVars]
    rw [read_assign_ne _ _ _ _ _ (Ne.symm hne), read_append_length]
  · simp only [scenarioVarsRef, cloneRef, scenarioVars]
    rw [read_assign_self _ _ _ _ (by rw [length_assign]; simp),
      read_assign_self _ _ _ _ (by simp), read_append_length]
  · simp only [scenarioVarsRef, cloneRef]
    rw [read_assign_ne _ _ _ _ _ hne, read_assign_ne _ _ _ _ _ hne, read_append_lt _ _ _ ha]
  · simp only [scenarioVarsRef, cloneRef]
    rw [read_assign_ne _ _ _ _ _ hne, read_assign_ne _ _ _ _ _ hne, read_assign_ne _ _ _ _ _ hne,
      read_append_lt _ _ _ ha]

/-- C29 on a runner with the base variables `token` and `trace`: under the key
`id` a scenario starts with nothing in any world, and the map of the runner still
holds `old` under `token` when the caller assigns `new` to its own map. -/
theorem scenarioVars_frame_witness :
    (∀ k, k ≠ "uuid".toList → k ≠ "now".toList →
      scenarioVars (NewWithVars tokenVars) refusingEnv World.init k
        = (NewWithVars tokenVars).baseVars k) ∧
    ((NewWithVarsRef [tokenVars] 0).2.assign 0 "token".toList "new".toList).read
      (NewWithVarsRef [tokenVars] 0).1 "token".toList = some "old".toList :=
  ⟨(scenarioVars_frame (NewWithVars tokenVars) refusingEnv twoTeardowns World.init World.init
      tokenVars [tokenVars] 0 (by decide)).1,
    congrFun ((scenarioVars_frame (NewWithVars tokenVars) refusingEnv twoTeardowns World.init
      World.init tokenVars [tokenVars] 0 (by decide)).2.2.2.2.2.2.2.2.1
        "token".toList "new".toList) "token".toList⟩

/-! ## Order of the diff -/

theorem opKey_lt (p1 m1 p2 m2 : Str) : opKey p1 m1 < opKey p2 m2 ↔ Before p1 m1 p2 m2 := by
  unfold opKey Before
  rw [Prod.Lex.lt_iff]

theorem opLess_iff (p1 m1 p2 m2 : Str) : opLess p1 m1 p2 m2 ↔ opKey p1 m1 < opKey p2 m2 := by
  rw [opKey_lt]
  unfold opLess Before
  by_cases h : p1 = p2
  · subst h
    simp
  · simp [h]

theorem not_opLess_iff (p1 m1 p2 m2 : Str) :
    ¬ opLess p2 m2 p1 m1 ↔ opKey p1 m1 ≤ opKey p2 m2 := by
  rw [opLess_iff, not_lt]

theorem opKey_injective (p1 m1 p2 m2 : Str) (h : opKey p1 m1 = opKey p2 m2) :
    p1 = p2 ∧ m1 = m2 := by
  unfold opKey at h
  have := toLex.injective h
  simpa using this

/-- Insertion sort by a relation that compares keys of a linear order gives a
sorted list. -/
theorem insertionSort_sorted_of_key {α β : Type} [LinearOrder β] (key : α → β)
    (r : α → α → Prop) [DecidableRel r] (hr : ∀ x y, r x y ↔ key x ≤ key y) (l : List α) :
    (l.insertionSort r).Sorted r := by
  haveI : IsTotal α r := ⟨fun x y => by rw [hr, hr]; exact le_total _ _⟩
  haveI : IsTrans α r := ⟨fun x y z => by rw [hr, hr, hr]; exact le_trans⟩
  exact List.sorted_insertionSort r l

/-- A list sorted by keys that are pairwise different is strictly ascending. -/
theorem sorted_strict_of_key {α β : Type} [LinearOrder β] (key : α → β)
    (r : α → α → Prop) (hr : ∀ x y, r x y ↔ key x ≤ key y) (l : List α)
    (hs : l.Sorted r) (hn : (l.map key).Nodup) : l.Pairwise fun x y => key x < key y := by
  have h1 : l.Pairwise fun x y => key x ≠ key y := List.pairwise_map.mp hn
  have h2 : l.Pairwise r := hs
  exact (h2.and h1).imp fun h => lt_of_le_of_ne ((hr _ _).mp h.1) h.2

/-- Two arrangements of the same elements that are both sorted by keys that are
pairwise different are the same list. -/
theorem sorted_unique_of_key {α β : Type} [LinearOrder β] (key : α → β)
    (r : α → α → Prop) (hr : ∀ x y, r x y ↔ key x ≤ key y) (l1 l2 : List α)
    (hp : l1.Perm l2) (h1 : l1.Sorted r) (h2 : l2.Sorted r) (hn : (l1.map key).Nodup) :
    l1 = l2 := by
  have s1 := sorted_strict_of_key key r hr l1 h1 hn
  have s2 := sorted_strict_of_key key r hr l2 h2 ((hp.map key).nodup_iff.mp hn)
  haveI : IsAntisymm α fun x y => key x < key y := ⟨fun x y a b => absurd b (lt_asymm a)⟩
  exact List.eq_of_perm_of_sorted hp s1 s2

/-- The result of the sort does not depend on the arrangement of its input when
the keys are pairwise different. -/
theorem insertionSort_eq_of_perm {α β : Type} [LinearOrder β] (key : α → β)
    (r : α → α → Prop) [DecidableRel r] (hr : ∀ x y, r x y ↔ key x ≤ key y) (l1 l2 : List α)
    (hp : l1.Perm l2) (hn : (l1.map key).Nodup) : l1.insertionSort r = l2.insertionSort r :=
  sorted_unique_of_key key r hr _ _
    ((List.perm_insertionSort r l1).trans (hp.trans (List.perm_insertionSort r l2).symm))
    (insertionSort_sorted_of_key key r hr l1) (insertionSort_sorted_of_key key r hr l2)
    (((List.perm_insertionSort r l1).map key).nodup_iff.mpr hn)

theorem opSig_keys_nodup (ops : List OpSig) (h : ops.Nodup) :
    (ops.map fun x => opKey x.Path x.Method).Nodup := by
  refine List.Nodup.map_on ?_ h
  intro x _ y _ e
  obtain ⟨e1, e2⟩ := opKey_injective _ _ _ _ e
  cases x
  cases y
  simp only at e1 e2
  rw [e1, e2]

theorem change_keys_nodup (ch : List StatusChange)
    (h : (ch.map fun c => (⟨c.Method, c.Path⟩ : OpSig)).Nodup) :
    (ch.map fun c => opKey c.Path c.Method).Nodup := by
  have := opSig_keys_nodup _ h
  rw [List.map_map] at this
  exact this

theorem sortOps_sorted (ops : List OpSig) :
    (sortOps ops).Sorted fun x y => ¬ opLess y.Path y.Method x.Path x.Method :=
  insertionSort_sorted_of_key (fun x : OpSig => opKey x.Path x.Method) _
    (fun x y => not_opLess_iff x.Path x.Method y.Path y.Method) ops

theorem sortChanges_sorted (ch : List StatusChange) :
    (sortChanges ch).Sorted fun x y => ¬ opLess y.Path y.Method x.Path x.Method :=
  insertionSort_sorted_of_key (fun x : StatusChange => opKey x.Path x.Method) _
    (fun x y => not_opLess_iff x.Path x.Method y.Path y.Method) ch

theorem sortOps_before (ops : List OpSig) (h : ops.Nodup) :
    (sortOps ops).Pairwise fun x y => Before x.Path x.Method y.Path y.Method := by
  have hs := sorted_strict_of_key (fun x : OpSig => opKey x.Path x.Method) _
    (fun x y => not_opLess_iff x.Path x.Method y.Path y.Method) _ (sortOps_sorted ops)
    (opSig_keys_nodup _ (sortOps_nodup ops h))
  exact hs.imp fun h => (opKey_lt _ _ _ _).mp h

theorem sortOps_perm (l1 l2 : List OpSig) (hp : l1.Perm l2) (hn : l1.Nodup) :
    sortOps l1 = sortOps l2 :=
  insertionSort_eq_of_perm (fun x : OpSig => opKey x.Path x.Method) _
    (fun x y => not_opLess_iff x.Path x.Method y.Path y.Method) l1 l2 hp (opSig_keys_nodup _ hn)

theorem sortChanges_perm (l1 l2 : List StatusChange) (hp : l1.Perm l2)
    (hn : (l1.map fun c => (⟨c.Method, c.Path⟩ : OpSig)).Nodup) :
    sortChanges l1 = sortChanges l2 :=
  insertionSort_eq_of_perm (fun x : StatusChange => opKey x.Path x.Method) _
    (fun x y => not_opLess_iff x.Path x.Method y.Path y.Method) l1 l2 hp (change_keys_nodup _ hn)

theorem DiffDocs_eq (a b : Option OpenAPI) :
    DiffDocs a b =
      ⟨sortOps ((listOps b).filter fun op => !toSet (listOps a) op),
        sortOps ((listOps a).filter fun op => !toSet (listOps b) op),
        sortChanges ((listOps a).filterMap (changedEntry a b))⟩ := rfl

theorem listOps_eq (doc : Option OpenAPI) : listOps doc = listOpsLoop (pathEntries doc) := by
  obtain _ | ⟨⟨_ | entries⟩⟩ := doc <;> rfl

theorem pathKeys_eq (doc : Option OpenAPI) :
    pathKeys doc = (pathEntries doc).map fun e => e.1 := by
  obtain _ | ⟨⟨_ | entries⟩⟩ := doc <;> rfl

theorem pathValue_eq (doc : Option OpenAPI) (path : Str) :
    pathValue doc path = ((pathEntries doc).lookup path).join := by
  obtain _ | ⟨⟨_ | entries⟩⟩ := doc <;> rfl

theorem listOpsLoop_perm (l1 l2 : List (Str × Option PathItem)) (hp : l1.Perm l2) :
    (listOpsLoop l1).Perm (listOpsLoop l2) := by
  induction hp with
  | nil => exact List.Perm.refl _
  | cons x _ ih =>
    obtain ⟨p, _ | pi⟩ := x
    · simpa only [listOpsLoop] using ih
    · simpa only [listOpsLoop] using ih.append_left _
  | swap x y l =>
    obtain ⟨p, _ | pi⟩ := x <;> obtain ⟨q, _ | qi⟩ := y <;> simp only [listOpsLoop]
    · exact List.Perm.refl _
    · exact List.Perm.refl _
    · exact List.Perm.refl _
    · rw [← List.append_assoc, ← List.append_assoc]
      exact List.Perm.append_right _ List.perm_append_comm
  | trans _ _ ih1 ih2 => exact ih1.trans ih2

theorem mem_of_lookup {β : Type} (l : List (Str × β)) (k : Str) (v : β)
    (h : l.lookup k = some v) : (k, v) ∈ l := by
  induction l with
  | nil => simp at h
  | cons e rest ih =>
    obtain ⟨k0, v0⟩ := e
    rw [List.lookup_cons] at h
    cases hk : k == k0 with
    | true =>
      rw [hk] at h
      simp only [Option.some.injEq] at h
      have : k = k0 := by simpa using hk
      subst this
      subst h
      exact List.mem_cons_self _ _
    | false =>
      rw [hk] at h
      exact List.mem_cons_of_mem _ (ih h)

/-- The lookup in a map does not depend on the order of its entries. -/
theorem lookup_perm {β : Type} (l1 l2 : List (Str × β)) (hp : l1.Perm l2)
    (hn : (l1.map fun e => e.1).Nodup) (k : Str) : l1.lookup k = l2.lookup k := by
  have hn2 : (l2.map fun e => e.1).Nodup := (hp.map _).nodup_iff.mp hn
  cases h1 : l1.lookup k with
  | some v =>
    exact (lookup_of_mem l2 k v hn2 (hp.mem_iff.mp (mem_of_lookup l1 k v h1))).symm
  | none =>
    cases h2 : l2.lookup k with
    | none => rfl
    | some v =>
      have := lookup_of_mem l1 k v hn (hp.mem_iff.mpr (mem_of_lookup l2 k v h2))
      rw [h1] at this
      exact this

theorem listOps_perm (a a2 : Option OpenAPI) (hp : (pathEntries a).Perm (pathEntries a2)) :
    (listOps a).Perm (listOps a2) := by
  rw [listOps_eq, listOps_eq]
  exact listOpsLoop_perm _ _ hp

theorem pathKeys_perm (a a2 : Option OpenAPI) (hp : (pathEntries a).Perm (pathEntries a2))
    (hn : (pathKeys a).Nodup) : (pathKeys a2).Nodup := by
  rw [pathKeys_eq] at hn ⊢
  exact (hp.map _).nodup_iff.mp hn

theorem statusSet_perm (a a2 : Option OpenAPI) (hp : (pathEntries a).Perm (pathEntries a2))
    (hn : (pathKeys a).Nodup) : statusSet a2 = statusSet a := by
  funext op
  rw [pathKeys_eq] at hn
  unfold statusSet
  rw [pathValue_eq, pathValue_eq, lookup_perm _ _ hp hn]

theorem toSet_perm (l1 l2 : List OpSig) (hp : l1.Perm l2) : toSet l2 = toSet l1 := by
  funext op
  unfold toSet
  exact decide_eq_decide.mpr hp.mem_iff.symm

theorem changedEntry_key (a b : Option OpenAPI) (op : OpSig) (ch : StatusChange)
    (h : changedEntry a b op = some ch) : (⟨ch.Method, ch.Path⟩ : OpSig) = op := by
  unfold changedEntry at h
  split at h
  · split at h
    · simp only [Option.some.injEq] at h
      subst h
      rfl
    · simp at h
  · simp at h

theorem changed_keys_nodup (a b : Option OpenAPI) (ops : List OpSig) (h : ops.Nodup) :
    ((ops.filterMap (changedEntry a b)).map fun c => (⟨c.Method, c.Path⟩ : OpSig)).Nodup := by
  rw [map_filterMap_key _ _ _ (changedEntry_key a b)]
  exact h.filter _

theorem changedEntry_perm (a a2 b b2 : Option OpenAPI)
    (hpa : (pathEntries a).Perm (pathEntries a2)) (hpb : (pathEntries b).Perm (pathEntries b2))
    (ha : (pathKeys a).Nodup) (hb : (pathKeys b).Nodup) :
    changedEntry a2 b2 = changedEntry a b := by
  funext op
  unfold changedEntry
  rw [statusSet_perm a a2 hpa ha, statusSet_perm b b2 hpb hb,
    toSet_perm _ _ (listOps_perm b b2 hpb)]

/-- The report of `DiffDocs` is the same for every order in which the paths of
the two documents are enumerated. -/
theorem DiffDocs_perm (a a2 b b2 : Option OpenAPI)
    (hpa : (pathEntries a).Perm (pathEntries a2)) (hpb : (pathEntries b).Perm (pathEntries b2))
    (ha : (pathKeys a).Nodup) (hb : (pathKeys b).Nodup) : DiffDocs a2 b2 = DiffDocs a b := by
  rw [DiffDocs_eq, DiffDocs_eq, changedEntry_perm a a2 b b2 hpa hpb ha hb,
    toSet_perm _ _ (listOps_perm a a2 hpa), toSet_perm _ _ (listOps_perm b b2 hpb),
    sortOps_perm _ _ ((listOps_perm b b2 hpb).filter _) ((listOps_nodup b hb).filter _),
    sortOps_perm _ _ ((listOps_perm a a2 hpa).filter _) ((listOps_nodup a ha).filter _),
    sortChanges_perm _ _ ((listOps_perm a a2 hpa).filterMap _)
      (changed_keys_nodup a b _ (listOps_nodup a ha))]

theorem equalStrSet_comm (a b : List Str) (ha : a.Nodup) (hb : b.Nodup) :
    equalStrSet a b = equalStrSet b a := by
  rw [Bool.eq_iff_iff, equalStrSet_iff a b ha hb, equalStrSet_iff b a hb ha]
  exact ⟨fun h c => (h c).symm, fun h c => (h c).symm⟩

theorem changedStatus_keys_nodup (a b : Option OpenAPI) (ha : (pathKeys a).Nodup) :
    ((DiffDocs a b).ChangedStatus.map fun c => (⟨c.Method, c.Path⟩ : OpSig)).Nodup := by
  rw [DiffDocs_eq]
  show ((sortChanges _).map _).Nodup
  unfold sortChanges
  exact ((List.perm_insertionSort _ _).map _).nodup_iff.mpr
    (changed_keys_nodup a b _ (listOps_nodup a ha))

theorem changedStatus_sorted (a b : Option OpenAPI) :
    (DiffDocs a b).ChangedStatus.Sorted
      fun x y => ¬ opLess y.Path y.Method x.Path x.Method := by
  rw [DiffDocs_eq]
  exact sortChanges_sorted _

/-- The entries of `ChangedStatus` for (B, A) are those for (A, B) with the two
lists exchanged, in the same order. -/
theorem changedStatus_swap (a b : Option OpenAPI) (ha : (pathKeys a).Nodup)
    (hb : (pathKeys b).Nodup) :
    (DiffDocs b a).ChangedStatus = (DiffDocs a b).ChangedStatus.map StatusChange.swap := by
  have hkey : ∀ l : List StatusChange,
      ((l.map StatusChange.swap).map fun c => (⟨c.Method, c.Path⟩ : OpSig)) =
        l.map fun c => (⟨c.Method, c.Path⟩ : OpSig) := by
    intro l
    rw [List.map_map]
    rfl
  have hn1 := changedStatus_keys_nodup b a hb
  have hn2 := changedStatus_keys_nodup a b ha
  refine sorted_unique_of_key (fun x : StatusChange => opKey x.Path x.Method) _
    (fun x y => not_opLess_iff x.Path x.Method y.Path y.Method) _ _ ?_
    (changedStatus_sorted b a) ?_ (change_keys_nodup _ hn1)
  · refine (List.perm_ext_iff_of_nodup (List.Nodup.of_map _ hn1)
      (List.Nodup.of_map _ (by rw [hkey]; exact hn2))).mpr ?_
    intro c
    rw [List.mem_map, mem_changedStatus]
    constructor
    · rintro ⟨op, h1, h2, h3, h4⟩
      refine ⟨c.swap, ?_, ?_⟩
      · rw [mem_changedStatus]
        refine ⟨op, h2, h1, ?_, ?_⟩
        · rw [equalStrSet_comm _ _ (statusSet_nodup a op) (statusSet_nodup b op)]
          exact h3
        · rw [h4]
          rfl
      · rfl
    · rintro ⟨c0, hc0, rfl⟩
      rw [mem_changedStatus] at hc0
      obtain ⟨op, h1, h2, h3, h4⟩ := hc0
      refine ⟨op, h2, h1, ?_, ?_⟩
      · rw [equalStrSet_comm _ _ (statusSet_nodup b op) (statusSet_nodup a op)]
        exact h3
      · rw [h4]
        rfl
  · show List.Pairwise _ (List.map _ _)
    rw [List.pairwise_map]
    exact changedStatus_sorted a b

/-! ## Symmetry and order of the diff -/

/-- C21: for two documents A and B whose path maps have each key once, and for
every order in which the second call enumerates the paths of the two documents:
the list `Added` of `DiffDocs(A, B)` is the list `Removed` of `DiffDocs(B, A)`,
the list `Removed` of `DiffDocs(A, B)` is the list `Added` of `DiffDocs(B, A)`,
and `ChangedStatus` of `DiffDocs(B, A)` is `ChangedStatus` of `DiffDocs(A, B)`
with the lists A and B of every entry exchanged: the same operations in the same
order. -/
theorem DiffDocs_symmetry (a a2 b b2 : Option OpenAPI)
    (hpa : (pathEntries a).Perm (pathEntries a2)) (hpb : (pathEntries b).Perm (pathEntries b2))
    (ha : (pathKeys a).Nodup) (hb : (pathKeys b).Nodup) :
    (DiffDocs a b).Added = (DiffDocs b2 a2).Removed ∧
    (DiffDocs a b).Removed = (DiffDocs b2 a2).Added ∧
    (DiffDocs b2 a2).ChangedStatus = (DiffDocs a b).ChangedStatus.map StatusChange.swap ∧
    ((DiffDocs b2 a2).ChangedStatus.map fun c => (⟨c.Method, c.Path⟩ : OpSig)) =
      (DiffDocs a b).ChangedStatus.map fun c => (⟨c.Method, c.Path⟩ : OpSig) := by
  rw [DiffDocs_perm b b2 a a2 hpb hpa hb ha]
  refine ⟨rfl, rfl, changedStatus_swap a b ha hb, ?_⟩
  rw [changedStatus_swap a b ha hb, List.map_map]
  rfl

/-- C21 on the two specs of `diff_test.go`, the second call enumerating the
paths of both in the other order. -/
theorem DiffDocs_symmetry_witness :
    (DiffDocs specA specB).Added = (DiffDocs specB2 specA2).Removed ∧
    (DiffDocs specB2 specA2).ChangedStatus =
      [⟨"POST".toList, "/users".toList, ["200".toList], ["201".toList]⟩] :=
  ⟨(DiffDocs_symmetry specA specA2 specB specB2 (List.Perm.swap _ _ _) (List.Perm.swap _ _ _)
      (by decide) (by decide)).1,
    (DiffDocs_symmetry specA specA2 specB specB2 (List.Perm.swap _ _ _) (List.Perm.swap _ _ _)
      (by decide) (by decide)).2.2.1⟩

/-- C22: for two documents whose path maps have each key once, each of the lists
`Added`, `Removed` and `ChangedStatus` is strictly ascending by path and, for
equal paths, by method; and the report is the same for every order in which the
paths of the two documents are enumerated. -/
theorem DiffDocs_sorted (a a2 b b2 : Option OpenAPI)
    (hpa : (pathEntries a).Perm (pathEntries a2)) (hpb : (pathEntries b).Perm (pathEntries b2))
    (ha : (pathKeys a).Nodup) (hb : (pathKeys b).Nodup) :
    ((DiffDocs a b).Added.Pairwise fun x y => Before x.Path x.Method y.Path y.Method) ∧
    ((DiffDocs a b).Removed.Pairwise fun x y => Before x.Path x.Method y.Path y.Method) ∧
    ((DiffDocs a b).ChangedStatus.Pairwise fun x y =>
      Before x.Path x.Method y.Path y.Method) ∧
    DiffDocs a2 b2 = DiffDocs a b := by
  refine ⟨?_, ?_, ?_, DiffDocs_perm a a2 b b2 hpa hpb ha hb⟩
  · exact sortOps_before _ ((listOps_nodup b hb).filter _)
  · exact sortOps_before _ ((listOps_nodup a ha).filter _)
  · have hs := sorted_strict_of_key (fun x : StatusChange => opKey x.Path x.Method) _
      (fun x y => not_opLess_iff x.Path x.Method y.Path y.Method) _ (changedStatus_sorted a b)
      (change_keys_nodup _ (changedStatus_keys_nodup a b ha))
    exact hs.imp fun h => (opKey_lt _ _ _ _).mp h

/-- C22 on the two specs of `diff_test.go` and the same specs with their paths
enumerated in the other order; against the empty document the three operations
of spec A come out by path, then by method. -/
theorem DiffDocs_sorted_witness :
    ((DiffDocs specA specB).Added.Pairwise fun x y =>
      Before x.Path x.Method y.Path y.Method) ∧
    DiffDocs specA2 specB2 = DiffDocs specA specB ∧
    (DiffDocs none specA2).Added =
      [⟨"GET".toList, "/health".toList⟩, ⟨"GET".toList, "/users".toList⟩,
        ⟨"POST".toList, "/users".toList⟩] :=
  ⟨(DiffDocs_sorted specA specA2 specB specB2 (List.Perm.swap _ _ _) (List.Perm.swap _ _ _)
      (by decide) (by decide)).1,
    (DiffDocs_sorted specA specA2 specB specB2 (List.Perm.swap _ _ _) (List.Perm.swap _ _ _)
      (by decide) (by decide)).2.2.2, by decide⟩

/-! ## Step results -/

theorem beforeHook_consistent (env : Env) (s : StepState) (hk : Hook)
    (h : Consistent s.stepRes) : Consistent (beforeHook env s hk).stepRes := by
  unfold beforeHook
  split
  · exact h
  · split
    · simp [Consistent]
    · simp only []
      split
      · rename_i hlen
        have hne := List.ne_nil_of_length_pos hlen
        simp [Consistent, hne]
      · exact h

theorem afterHook_consistent (env : Env) (resp : Resp) (s : StepState) (hk : Hook)
    (h : Consistent s.stepRes) : Consistent (afterHook env resp s hk).stepRes := by
  unfold afterHook
  split
  · exact h
  · split
    · simp [Consistent]
    · simp only []
      split
      · rename_i hlen
        have hne := List.ne_nil_of_length_pos hlen
        simp [Consistent, hne]
      · exact h

theorem beforeHooks_consistent (env : Env) (hooks : List Hook) (s : StepState)
    (h : Consistent s.stepRes) : Consistent (hooks.foldl (beforeHook env) s).stepRes := by
  induction hooks generalizing s with
  | nil => exact h
  | cons hk rest ih =>
    rw [List.foldl_cons]
    exact ih _ (beforeHook_consistent env s hk h)

theorem afterHooks_consistent (env : Env) (resp : Resp) (hooks : List Hook) (s : StepState)
    (h : Consistent s.stepRes) : Consistent (hooks.foldl (afterHook env resp) s).stepRes := by
  induction hooks generalizing s with
  | nil => exact h
  | cons hk rest ih =>
    rw [List.foldl_cons]
    exact ih _ (afterHook_consistent env resp s hk h)

theorem evalExpectations_consistent (r : Runner) (status : Int)
    (jsonBody : Option (List (Str × GoVal))) (vars : StrMap) (method url : Str)
    (respHeaders : RespHeaders) (rawBody : Str) (exps : List Expectation) (sr : StepResult)
    (w : World) (h : Consistent sr) :
    Consistent
      (evalExpectations r status jsonBody vars method url respHeaders rawBody exps sr w).1 := by
  induction exps generalizing sr w with
  | nil => exact h
  | cons e rest ih =>
    simp only [evalExpectations]
    apply ih
    split
    · simp [Consistent]
    · exact h

/-- Every step leaves a result whose pass flag is set exactly when it holds no
error. -/
theorem runStep_consistent (r : Runner) (env : Env) (s : ScenarioState) (st : Step) :
    ∃ sr, (runStep r env s st).scRes.Steps = s.scRes.Steps ++ [sr] ∧ Consistent sr := by
  have h1 : Consistent (beforeState env s st).stepRes := by
    unfold beforeState
    exact beforeHooks_consistent env st.Hooks _ (by simp [Consistent])
  unfold beforeState at h1
  unfold runStep
  simp only []
  split
  · exact ⟨_, rfl, by simp [Consistent]⟩
  · refine ⟨_, rfl, ?_⟩
    apply evalExpectations_consistent
    apply afterHooks_consistent
    generalize doRequest env _ _ = sent
    obtain ⟨o, w1⟩ := sent
    cases o with
    | error e => simp [Consistent]
    | ok resp => exact h1

theorem afterSteps_fold (r : Runner) (env : Env) (sc : Scenario) (w : World) :
    afterSteps r env sc w =
      sc.Steps.foldl (runStep r env) (afterSteps r env { sc with Steps := [] } w) := rfl

theorem afterSteps_split (r : Runner) (env : Env) (sc : Scenario) (w : World)
    (pre post : List Step) (st : Step) (hsteps : sc.Steps = pre ++ st :: post) :
    afterSteps r env sc w =
      post.foldl (runStep r env)
        (runStep r env (afterSteps r env { sc with Steps := pre } w) st) := by
  simp only [afterSteps, hsteps, List.foldl_append, List.foldl_cons]

/-- The result of the step at a place of the list of steps is at the same
place of the list of results. -/
theorem runScenario_step_at (r : Runner) (env : Env) (sc : Scenario) (w : World)
    (pre post : List Step) (st : Step) (hsteps : sc.Steps = pre ++ st :: post) (sr : StepResult)
    (h : (runStep r env (afterSteps r env { sc with Steps := pre } w) st).scRes.Steps =
      (afterSteps r env { sc with Steps := pre } w).scRes.Steps ++ [sr]) :
    (runScenario r env sc w).1.Steps[pre.length]? = some sr := by
  obtain ⟨new1, a1, a2, _, _⟩ := runSteps_result r env pre
    (afterSteps r env { sc with Steps := [] } w)
  have hpre : (afterSteps r env { sc with Steps := pre } w).scRes.Steps = new1 := by
    rw [afterSteps_fold]
    exact a1.trans (by simp; rfl)
  obtain ⟨new2, b1, _, _, _⟩ := runSteps_result r env post
    (runStep r env (afterSteps r env { sc with Steps := pre } w) st)
  simp only [runScenario, afterSteps_split r env sc w pre post st hsteps, b1, h, hpre]
  rw [← a2, List.append_assoc, List.getElem?_append_right (le_refl _)]
  simp

theorem runScenario_steps_length (r : Runner) (env : Env) (sc : Scenario) (w : World) :
    (runScenario r env sc w).1.Steps.length = sc.Steps.length := by
  obtain ⟨new, g1, g2, _, _⟩ := runSteps_result r env sc.Steps
    (afterSteps r env { sc with Steps := [] } w)
  show (afterSteps r env sc w).scRes.Steps.length = _
  have h0 : (afterSteps r env { sc with Steps := [] } w).scRes.Steps = [] := rfl
  rw [afterSteps_fold, g1, List.length_append, g2, h0]
  simp

theorem mem_runScenario_steps (r : Runner) (env : Env) (sc : Scenario) (w : World)
    (P : StepResult → Prop)
    (hstep : ∀ s st, ∃ sr, (runStep r env s st).scRes.Steps = s.scRes.Steps ++ [sr] ∧ P sr) :
    ∀ sr ∈ (runScenario r env sc w).1.Steps, P sr := by
  have hall := runSteps_all r env P hstep sc.Steps (afterSteps r env { sc with Steps := [] } w)
    (fun x hx => by
      have h0 : (afterSteps r env { sc with Steps := [] } w).scRes.Steps = [] := rfl
      rw [h0] at hx
      exact absurd hx (List.not_mem_nil x))
  intro sr hsr
  exact hall sr hsr

/-- C38: in every step result of a scenario the pass flag is set exactly when
the error list is empty. -/
theorem runScenario_consistent (r : Runner) (env : Env) (sc : Scenario) (w : World)
    (sr : StepResult) (hsr : sr ∈ (runScenario r env sc w).1.Steps) :
    sr.Passed = true ↔ sr.Errors = [] :=
  mem_runScenario_steps r env sc w Consistent (runStep_consistent r env) sr hsr

/-- C38 on the only step of `unresolvedScenario`, which the guard stops: the
result has failed and holds the message of the guard. -/
theorem runScenario_consistent_witness :
    ((onlyStep (runScenario New refusingEnv unresolvedScenario World.init).1).Passed = true ↔
      (onlyStep (runScenario New refusingEnv unresolvedScenario World.init).1).Errors = []) ∧
    (onlyStep (runScenario New refusingEnv unresolvedScenario World.init).1).Passed = false :=
  ⟨runScenario_consistent New refusingEnv unresolvedScenario World.init
      (onlyStep (runScenario New refusingEnv unresolvedScenario World.init).1)
      (List.mem_cons_self _ _), rfl⟩

theorem stepURL_afterHook (env : Env) (resp : Resp) (s : StepState) (hk : Hook) :
    (afterHook env resp s hk).stepRes.URL = s.stepRes.URL := by
  unfold afterHook
  split
  · rfl
  · split
    · rfl
    · simp only []
      split <;> rfl

theorem stepURL_afterHooks (env : Env) (resp : Resp) (hooks : List Hook) (s : StepState) :
    (hooks.foldl (afterHook env resp) s).stepRes.URL = s.stepRes.URL := by
  induction hooks generalizing s with
  | nil => rfl
  | cons hk rest ih => rw [List.foldl_cons, ih, stepURL_afterHook]

theorem stepURL_evalExpectations (r : Runner) (status : Int)
    (jsonBody : Option (List (Str × GoVal))) (vars : StrMap) (method url : Str)
    (respHeaders : RespHeaders) (rawBody : Str) (exps : List Expectation) (sr : StepResult)
    (w : World) :
    (evalExpectations r status jsonBody vars method url respHeaders rawBody exps sr w).1.URL =
      sr.URL := by
  induction exps generalizing sr w with
  | nil => rfl
  | cons e rest ih =>
    simp only [evalExpectations]
    rw [ih]
    split <;> rfl

/-- The result of a step records the method and the URL of its pending
request. -/
theorem runStep_request (r : Runner) (env : Env) (s : ScenarioState) (st : Step) :
    ∃ sr, (runStep r env s st).scRes.Steps = s.scRes.Steps ++ [sr] ∧
      sr.Method = (pendingRequest env s st).Method ∧ sr.URL = (pendingRequest env s st).URL := by
  unfold runStep
  simp only []
  split
  · exact ⟨_, rfl, rfl, rfl⟩
  · refine ⟨_, rfl, ?_, ?_⟩
    · rw [evalExpectations_stepMethod, afterHooks_stepMethod]
      generalize doRequest env _ _ = sent
      obtain ⟨o, w1⟩ := sent
      cases o <;> rfl
    · rw [stepURL_evalExpectations, stepURL_afterHooks]
      generalize doRequest env _ _ = sent
      obtain ⟨o, w1⟩ := sent
      cases o <;> rfl

/-- C39: the list of step results of a scenario is as long as the list of its
steps, and the result at the place of a step is the one result that this step
appends, run in the state that the steps before it left; it records the method
and the URL of the pending request of that step. This holds whatever happened
to the step and to the steps before it. -/
theorem runScenario_steps (r : Runner) (env : Env) (sc : Scenario) (w : World) :
    (runScenario r env sc w).1.Steps.length = sc.Steps.length ∧
    ∀ pre st post, sc.Steps = pre ++ st :: post →
      ∃ sr, (runScenario r env sc w).1.Steps[pre.length]? = some sr ∧
        (runStep r env (afterSteps r env { sc with Steps := pre } w) st).scRes.Steps =
          (afterSteps r env { sc with Steps := pre } w).scRes.Steps ++ [sr] ∧
        sr.Method = (pendingRequest env (afterSteps r env { sc with Steps := pre } w) st).Method ∧
        sr.URL = (pendingRequest env (afterSteps r env { sc with Steps := pre } w) st).URL := by
  refine ⟨runScenario_steps_length r env sc w, fun pre st post hsteps => ?_⟩
  obtain ⟨sr, h1, h2, h3⟩ :=
    runStep_request r env (afterSteps r env { sc with Steps := pre } w) st
  exact ⟨sr, runScenario_step_at r env sc w pre post st hsteps sr h1, h1, h2, h3⟩

/-- C39 on the three steps of `threeSteps` against an endpoint that refuses every
connection: the first request fails, the second step is stopped by the guard,
and the results still stand at the places of their steps. -/
theorem runScenario_steps_witness :
    (runScenario New refusingEnv threeSteps World.init).1.Steps.length = 3 ∧
    (runScenario New refusingEnv threeSteps World.init).1.Steps.map (fun sr => sr.URL) =
      ["/a".toList, "/b/${id}".toList, "/c".toList] ∧
    ∃ sr, (runScenario New refusingEnv threeSteps World.init).1.Steps[2]? = some sr ∧
      sr.URL = "/c".toList :=
  ⟨(runScenario_steps New refusingEnv threeSteps World.init).1, rfl,
    ((runScenario_steps New refusingEnv threeSteps World.init).2
      [⟨[], simpleRequest "GET".toList "/a".toList, [], []⟩,
        ⟨[], simpleRequest "GET".toList "/b/${id}".toList, [], []⟩]
      ⟨[], simpleRequest "GET".toList "/c".toList, [], []⟩ [] rfl).imp
      fun _ h => ⟨h.1, h.2.2.2⟩⟩

/-! ## The value of a contract expectation -/

/-- C40: for an expectation of type contract, the outcome, the message and the
world afterwards, coverage included, are the same for every value that the
expectation carries. -/
theorem evalExpectation_value (r : Runner) (exp : Expectation) (v : GoVal) (status : Int)
    (jsonBody : Option (List (Str × GoVal))) (vars : StrMap) (method url : Str)
    (respHeaders : RespHeaders) (rawBody : Str) (w : World) (ht : exp.Typ = ExpectContract) :
    evalExpectation r { exp with Value := v } status jsonBody vars method url respHeaders
        rawBody w =
      evalExpectation r exp status jsonBody vars method url respHeaders rawBody w := by
  have h1 : ExpectContract ≠ ExpectStatus := by decide
  have h2 : ExpectContract ≠ ExpectJSONPath := by decide
  unfold evalExpectation
  simp only [ht, if_neg h1, if_neg h2]

/-- C40 on a validator that accepts the response: with the value `false` the
expectation passes and `GET /users` is covered, as with the value `true`. -/
theorem evalExpectation_value_witness :
    evalExpectation (New.WithContract acceptAll) ⟨ExpectContract, [], .bool false⟩ 200 none
        StrMap.empty "GET".toList "/users".toList (fun _ => none) [] World.init =
      evalExpectation (New.WithContract acceptAll) ⟨ExpectContract, [], .bool true⟩ 200 none
        StrMap.empty "GET".toList "/users".toList (fun _ => none) [] World.init ∧
    (evalExpectation (New.WithContract acceptAll) ⟨ExpectContract, [], .null⟩ 200 none
        StrMap.empty "GET".toList "/users".toList (fun _ => none) [] World.init).1.1 = true ∧
    (evalExpectation (New.WithContract acceptAll) ⟨ExpectContract, [], .null⟩ 200 none
        StrMap.empty "GET".toList "/users".toList (fun _ => none) [] World.init).2.covered
      "GET".toList "/users".toList = true :=
  ⟨evalExpectation_value (New.WithContract acceptAll) ⟨ExpectContract, [], .bool true⟩
      (.bool false) 200 none StrMap.empty "GET".toList "/users".toList (fun _ => none) []
      World.init rfl, rfl, rfl⟩

/-! ## A hook that exits with an error -/

theorem procOutcome_exit (run : ProcRun) (out : Output) (e : Str)
    (h1 : run.stdinPipeErr = none) (h2 : run.stdoutPipeErr = none) (h3 : run.startErr = none)
    (h4 : run.encodeErr = none) (h5 : run.decoded = .ok out) (h6 : run.waitErr = some e) :
    procOutcome run = .error ("hook exit: ".toList ++ e) := by
  unfold procOutcome
  simp only [h1, h2, h3, h4, h5, h6]

theorem procOutcome_decode (run : ProcRun) (d : Str)
    (h1 : run.stdinPipeErr = none) (h2 : run.stdoutPipeErr = none) (h3 : run.startErr = none)
    (h4 : run.encodeErr = none) (h5 : run.decoded = .error d) :
    procOutcome run = .error ("decode stdout: ".toList ++ d) := by
  unfold procOutcome
  simp only [h1, h2, h3, h4, h5]

/-- C33, as the code has it: when the hook process was started, was given its
input, wrote an output document that decodes, and then exits with an error,
`RunProcessHook` returns `hook exit: ` followed by that error, and the step gets
the message `hook(before) error: hook exit: ...` (with `after` in the phase
behind the request); when what the process wrote does not decode, the error is
`decode stdout: ` followed by the decoding error, whatever the exit status. -/
theorem RunProcessHook_exit (env : Env) (phase : Str) (hk : Hook) (inp : Input) (w : World)
    (resp : Resp) (s : StepState) (e : Str) (ht : hk.Typ = "process".toList)
    (h1 : ∀ i, (env.proc w.trace hk (timeoutNanos hk.TimeoutMs) i).stdinPipeErr = none)
    (h2 : ∀ i, (env.proc w.trace hk (timeoutNanos hk.TimeoutMs) i).stdoutPipeErr = none)
    (h3 : ∀ i, (env.proc w.trace hk (timeoutNanos hk.TimeoutMs) i).startErr = none)
    (h4 : ∀ i, (env.proc w.trace hk (timeoutNanos hk.TimeoutMs) i).encodeErr = none)
    (h6 : ∀ i, (env.proc w.trace hk (timeoutNanos hk.TimeoutMs) i).waitErr = some e)
    (hw : s.w = w) :
    (∀ out, (env.proc w.trace hk (timeoutNanos hk.TimeoutMs) inp).decoded = .ok out →
      (RunProcessHook env phase hk inp w).1 = .error ("hook exit: ".toList ++ e)) ∧
    (∀ d, (env.proc w.trace hk (timeoutNanos hk.TimeoutMs) inp).decoded = .error d →
      (RunProcessHook env phase hk inp w).1 = .error ("decode stdout: ".toList ++ d)) ∧
    (isBefore hk = true →
      (∀ out, (env.proc w.trace hk (timeoutNanos hk.TimeoutMs)
          ⟨clone s.vars, some s.req, none⟩).decoded = .ok out →
        (beforeHook env s hk).stepRes.Passed = false ∧
        (beforeHook env s hk).stepRes.Errors = s.stepRes.Errors ++
          ["hook(before) error: hook exit: ".toList ++ e])) ∧
    (isAfter hk = true →
      (∀ out, (env.proc w.trace hk (timeoutNanos hk.TimeoutMs)
          ⟨clone s.vars, some s.req, some resp⟩).decoded = .ok out →
        (afterHook env resp s hk).stepRes.Passed = false ∧
        (afterHook env resp s hk).stepRes.Errors = s.stepRes.Errors ++
          ["hook(after) error: hook exit: ".toList ++ e])) := by
  have hrun : ∀ ph i out,
      (env.proc w.trace hk (timeoutNanos hk.TimeoutMs) i).decoded = .ok out →
      RunProcessHook env ph hk i w =
        (.error ("hook exit: ".toList ++ e),
          { w with trace := w.trace ++ [Event.hook ph hk i] }) := by
    intro ph i out hd
    unfold RunProcessHook
    simp only [ht, ne_eq, not_true_eq_false, if_false,
      procOutcome_exit _ out e (h1 i) (h2 i) (h3 i) (h4 i) hd (h6 i)]
  refine ⟨fun out hd => by rw [hrun phase inp out hd], fun d hd => ?_, fun hb out hd => ?_,
    fun ha out hd => ?_⟩
  · unfold RunProcessHook
    simp only [ht, ne_eq, not_true_eq_false, if_false,
      procOutcome_decode _ d (h1 inp) (h2 inp) (h3 inp) (h4 inp) hd]
  · have hwhen : toLower hk.When = "before".toList := by simpa [isBefore] using hb
    unfold beforeHook
    rw [if_neg (by simp [hwhen]), hw, hrun _ _ out hd]
    exact ⟨rfl, by simp⟩
  · have hwhen : toLower hk.When = "after".toList := by simpa [isAfter] using ha
    unfold afterHook
    rw [if_neg (by simp [hwhen]), hw, hrun _ _ out hd]
    exact ⟨rfl, by simp⟩

/-- C33 on a hook process that writes the empty output document and exits with
status 1. -/
theorem RunProcessHook_exit_witness :
    (RunProcessHook (procEnv exitRun) "before".toList (processHook "before".toList "x".toList)
        ⟨StrMap.empty, none, none⟩ World.init).1 = .error "hook exit: exit status 1".toList ∧
    (beforeHook (procEnv exitRun) (stepAt StrMap.empty (simpleRequest [] []))
        (processHook "before".toList "x".toList)).stepRes.Errors =
      ["hook(before) error: hook exit: exit status 1".toList] :=
  ⟨(RunProcessHook_exit (procEnv exitRun) "before".toList
      (processHook "before".toList "x".toList) ⟨StrMap.empty, none, none⟩ World.init
      ⟨200, fun _ => none, []⟩ (stepAt StrMap.empty (simpleRequest [] []))
      "exit status 1".toList rfl (fun _ => rfl) (fun _ => rfl) (fun _ => rfl) (fun _ => rfl)
      (fun _ => rfl) rfl).1 _ rfl,
    ((RunProcessHook_exit (procEnv exitRun) "before".toList
      (processHook "before".toList "x".toList) ⟨StrMap.empty, none, none⟩ World.init
      ⟨200, fun _ => none, []⟩ (stepAt StrMap.empty (simpleRequest [] []))
      "exit status 1".toList rfl (fun _ => rfl) (fun _ => rfl) (fun _ => rfl) (fun _ => rfl)
      (fun _ => rfl) rfl).2.2.1 rfl _ rfl).2⟩

/-- C33 fails as stated: a hook process that writes nothing to its standard
output and exits with status 1 gives the error `decode stdout: EOF`, and the
step error does not name the exit. -/
theorem RunProcessHook_exit_counterexample :
    (RunProcessHook (procEnv failedRun) "before".toList (processHook "before".toList "x".toList)
        ⟨StrMap.empty, none, none⟩ World.init).1 = .error "decode stdout: EOF".toList ∧
    (beforeHook (procEnv failedRun) (stepAt StrMap.empty (simpleRequest [] []))
        (processHook "before".toList "x".toList)).stepRes.Errors =
      ["hook(before) error: decode stdout: EOF".toList] :=
  ⟨rfl, rfl⟩

/-! ## Validation of a suite -/

theorem validateStep_none (st : Step) (i j : Nat) : validateStep st i j = none ↔ ValidStep st := by
  unfold validateStep ValidStep
  by_cases h1 : st.Request.Method = [] <;> by_cases h2 : st.Request.URL = [] <;> simp [h1, h2]

theorem validateSteps_none (steps : List Step) (i j : Nat) :
    validateSteps steps i j = none ↔ ∀ st ∈ steps, ValidStep st := by
  induction steps generalizing j with
  | nil => simp [validateSteps]
  | cons st rest ih =>
    simp only [validateSteps, List.mem_cons, forall_eq_or_imp]
    cases h : validateStep st i j with
    | some e =>
      have : ¬ ValidStep st := fun hv => by
        rw [(validateStep_none st i j).mpr hv] at h
        exact Option.noConfusion h
      simp [this]
    | none =>
      simp only [(validateStep_none st i j).mp h, true_and]
      exact ih (j + 1)

/-- The loop over the steps returns the error of the first step that is not
valid. -/
theorem validateSteps_first (pre post : List Step) (st : Step) (i j : Nat)
    (hpre : ∀ x ∈ pre, ValidStep x) (hst : ¬ ValidStep st) :
    validateSteps (pre ++ st :: post) i j = validateStep st i (j + pre.length) := by
  induction pre generalizing j with
  | nil =>
    simp only [List.nil_append, validateSteps, List.length_nil, Nat.add_zero]
    cases h : validateStep st i j with
    | some e => rfl
    | none => exact absurd ((validateStep_none st i j).mp h) hst
  | cons x rest ih =>
    have hx : validateStep x i j = none :=
      (validateStep_none x i j).mpr (hpre x (List.mem_cons_self _ _))
    simp only [List.cons_append, validateSteps, hx, List.length_cons]
    refine (ih (j + 1) (fun y hy => hpre y (List.mem_cons_of_mem _ hy))).trans ?_
    congr 1
    omega

theorem validateScenario_none (sc : Scenario) (i : Nat) :
    validateScenario sc i = none ↔ ValidScenario sc := by
  unfold validateScenario ValidScenario
  by_cases h1 : sc.Name = []
  · simp [h1]
  · by_cases h2 : sc.Steps = []
    · simp [h1, h2]
    · have h3 : ¬ sc.Steps.length = 0 := by simpa using h2
      simp only [h1, h3, if_false, ne_eq, not_false_eq_true, h2, true_and]
      exact validateSteps_none sc.Steps i 0

theorem validateScenarios_none (scs : List Scenario) (i : Nat) :
    validateScenarios scs i = none ↔ ∀ sc ∈ scs, ValidScenario sc := by
  induction scs generalizing i with
  | nil => simp [validateScenarios]
  | cons sc rest ih =>
    simp only [validateScenarios, List.mem_cons, forall_eq_or_imp]
    cases h : validateScenario sc i with
    | some e =>
      have : ¬ ValidScenario sc := fun hv => by
        rw [(validateScenario_none sc i).mpr hv] at h
        exact Option.noConfusion h
      simp [this]
    | none =>
      simp only [(validateScenario_none sc i).mp h, true_and]
      exact ih (i + 1)

/-- The loop over the scenarios returns the error of the first scenario that is
not valid. -/
theorem validateScenarios_first (pre post : List Scenario) (sc : Scenario) (i : Nat)
    (hpre : ∀ x ∈ pre, ValidScenario x) (hsc : ¬ ValidScenario sc) :
    validateScenarios (pre ++ sc :: post) i = validateScenario sc (i + pre.length) := by
  induction pre generalizing i with
  | nil =>
    simp only [List.nil_append, validateScenarios, List.length_nil, Nat.add_zero]
    cases h : validateScenario sc i with
    | some e => rfl
    | none => exact absurd ((validateScenario_none sc i).mp h) hsc
  | cons x rest ih =>
    have hx : validateScenario x i = none :=
      (validateScenario_none x i).mpr (hpre x (List.mem_cons_self _ _))
    simp only [List.cons_append, validateScenarios, hx, List.length_cons]
    refine (ih (i + 1) (fun y hy => hpre y (List.mem_cons_of_mem _ hy))).trans ?_
    congr 1
    omega

theorem validateSuite_none (s : TestSuite) : validateSuite s = none ↔ ValidSuite s := by
  unfold validateSuite ValidSuite
  by_cases h1 : s.Name = []
  · simp [h1]
  · by_cases h2 : s.Scenarios = []
    · simp [h1, h2]
    · have h3 : ¬ s.Scenarios.length = 0 := by simpa using h2
      simp only [h1, h3, if_false, ne_eq, not_false_eq_true, h2, true_and]
      exact validateScenarios_none s.Scenarios 0

theorem wraps_validateStep (st : Step) (i j : Nat) (e : GoError)
    (h : validateStep st i j = some e) : e.isValidation = true := by
  unfold validateStep at h
  split at h
  · simp only [Option.some.injEq] at h
    rw [← h]
    rfl
  · split at h
    · simp only [Option.some.injEq] at h
      rw [← h]
      rfl
    · exact Option.noConfusion h

theorem wraps_validateSteps (steps : List Step) (i j : Nat) (e : GoError)
    (h : validateSteps steps i j = some e) : e.isValidation = true := by
  induction steps generalizing j with
  | nil => exact Option.noConfusion h
  | cons st rest ih =>
    simp only [validateSteps] at h
    cases hs : validateStep st i j with
    | some e2 =>
      rw [hs] at h
      simp only [Option.some.injEq] at h
      subst h
      exact wraps_validateStep st i j e2 hs
    | none =>
      rw [hs] at h
      exact ih (j + 1) h

theorem wraps_validateScenario (sc : Scenario) (i : Nat) (e : GoError)
    (h : validateScenario sc i = some e) : e.isValidation = true := by
  unfold validateScenario at h
  split at h
  · simp only [Option.some.injEq] at h
    rw [← h]
    rfl
  · split at h
    · simp only [Option.some.injEq] at h
      rw [← h]
      rfl
    · exact wraps_validateSteps _ _ _ e h

theorem wraps_validateScenarios (scs : List Scenario) (i : Nat) (e : GoError)
    (h : validateScenarios scs i = some e) : e.isValidation = true := by
  induction scs generalizing i with
  | nil => exact Option.noConfusion h
  | cons sc rest ih =>
    simp only [validateScenarios] at h
    cases hs : validateScenario sc i with
    | some e2 =>
      rw [hs] at h
      simp only [Option.some.injEq] at h
      subst h
      exact wraps_validateScenario sc i e2 hs
    | none =>
      rw [hs] at h
      exact ih (i + 1) h

theorem wraps_validateSuite (s : TestSuite) (e : GoError) (h : validateSuite s = some e) :
    e.isValidation = true := by
  unfold validateSuite at h
  split at h
  · simp only [Option.some.injEq] at h
    rw [← h]
    rfl
  · split at h
    · simp only [Option.some.injEq] at h
      rw [← h]
      rfl
    · exact wraps_validateScenarios _ _ e h

/-- C31: `validateSuite` returns no error exactly when the suite has a name and
at least one scenario, every scenario has a name and at least one step, and the
request of every step has a method and a URL. For a decoded suite that is not
valid `ParseBytes` returns the error of `validateSuite`, which wraps
`ErrValidation`; for a valid one it returns a suite. The error names the first
failing check in declaration order: the name of the suite, then its list of
scenarios, then, for the first scenario that is not valid, its name, its list
of steps, and for its first step that is not valid the method and then the URL,
each with the index of the scenario and of the step. -/
theorem validateSuite_accepts (s : TestSuite) (decode : Str → Except Str TestSuite) (b : Str) :
    (validateSuite s = none ↔ ValidSuite s) ∧
    (decode b = .ok s → ¬ ValidSuite s →
      ∃ e, ParseBytes decode b = .error e ∧ validateSuite s = some e ∧
        e.isValidation = true) ∧
    (decode b = .ok s → ValidSuite s → ∃ t, ParseBytes decode b = .ok t) ∧
    (s.Name = [] →
      validateSuite s = some (wrapValidation "suite.name must not be empty".toList)) ∧
    (s.Name ≠ [] → s.Scenarios = [] →
      validateSuite s = some (wrapValidation "suite.scenarios must not be empty".toList)) ∧
    (∀ pre sc post, s.Name ≠ [] → s.Scenarios = pre ++ sc :: post →
      (∀ x ∈ pre, ValidScenario x) → ¬ ValidScenario sc →
      (sc.Name = [] →
        validateSuite s = some (wrapValidation ("scenario[".toList ++ fmtInt pre.length ++
          "].name must not be empty".toList))) ∧
      (sc.Name ≠ [] → sc.Steps = [] →
        validateSuite s = some (wrapValidation ("scenario[".toList ++ fmtInt pre.length ++
          "].steps must not be empty".toList))) ∧
      (∀ spre st spost, sc.Name ≠ [] → sc.Steps = spre ++ st :: spost →
        (∀ x ∈ spre, ValidStep x) → ¬ ValidStep st →
        (st.Request.Method = [] →
          validateSuite s = some (wrapValidation ("scenario[".toList ++ fmtInt pre.length ++
            "].step[".toList ++ fmtInt spre.length ++
            "].request.method must not be empty".toList))) ∧
        (st.Request.Method ≠ [] →
          validateSuite s = some (wrapValidation ("scenario[".toList ++ fmtInt pre.length ++
            "].step[".toList ++ fmtInt spre.length ++
            "].request.url must not be empty".toList))))) := by
  refine ⟨validateSuite_none s, fun hd hv => ?_, fun hd hv => ?_, fun h => ?_, fun h1 h2 => ?_,
    fun pre sc post hn hs hpre hsc => ?_⟩
  · cases he : validateSuite s with
    | none => exact absurd ((validateSuite_none s).mp he) hv
    | some e =>
      refine ⟨e, ?_, rfl, wraps_validateSuite s e he⟩
      unfold ParseBytes
      rw [hd]
      simp only [he]
  · have he := (validateSuite_none s).mpr hv
    unfold ParseBytes
    rw [hd]
    simp only [he]
    exact ⟨_, rfl⟩
  · unfold validateSuite
    rw [if_pos h]
  · unfold validateSuite
    rw [if_neg h1, if_pos (by rw [h2]; rfl)]
  · have hsuite : validateSuite s = validateScenario sc pre.length := by
      unfold validateSuite
      rw [if_neg hn, if_neg (by rw [hs]; simp), hs,
        validateScenarios_first pre post sc 0 hpre hsc, Nat.zero_add]
    refine ⟨fun h => ?_, fun h1 h2 => ?_, fun spre st spost h1 hst hspre hbad => ?_⟩
    · rw [hsuite]
      unfold validateScenario
      rw [if_pos h]
    · rw [hsuite]
      unfold validateScenario
      rw [if_neg h1, if_pos (by rw [h2]; rfl)]
    · have hscen : validateSuite s = validateStep st pre.length spre.length := by
        rw [hsuite]
        unfold validateScenario
        rw [if_neg h1, if_neg (by rw [hst]; simp), hst,
          validateSteps_first spre spost st pre.length 0 hspre hbad, Nat.zero_add]
      refine ⟨fun h => ?_, fun h => ?_⟩
      · rw [hscen]
        unfold validateStep
        rw [if_pos h]
      · have hurl : st.Request.URL = [] := by
          by_contra hu
          exact hbad ⟨h, hu⟩
        rw [hscen]
        unfold validateStep
        rw [if_neg h, if_pos hurl]

/-- C31 on a suite whose second scenario has a second step without a URL and
whose third scenario has no name: the error names the step, which comes first. -/
theorem validateSuite_accepts_witness :
    validateSuite brokenSuite =
      some (wrapValidation "scenario[1].step[1].request.url must not be empty".toList) ∧
    (∃ e, ParseBytes (fun _ => .ok brokenSuite) [] = .error e ∧
      validateSuite brokenSuite = some e ∧ e.isValidation = true) ∧
    validateSuite failThenPass = none :=
  ⟨((((validateSuite_accepts brokenSuite (fun _ => .ok brokenSuite) []).2.2.2.2.2
      [oneStep "A".toList "/a".toList 200]
      { Name := "B".toList, Env := [], Tags := [], Setup := []
        Steps := [⟨[], simpleRequest "get".toList "/b".toList, [], []⟩,
          ⟨[], simpleRequest "get".toList [], [], []⟩]
        Teardown := [] }
      [oneStep [] "/c".toList 200] (by decide) rfl (by decide) (by decide)).2.2
      [⟨[], simpleRequest "get".toList "/b".toList, [], []⟩]
      ⟨[], simpleRequest "get".toList [], [], []⟩ [] (by decide) rfl (by decide)
      (by decide)).2 (by decide)),
    (validateSuite_accepts brokenSuite (fun _ => .ok brokenSuite) []).2.1 rfl (by decide),
    (validateSuite_accepts failThenPass (fun _ => .ok failThenPass) []).1.mpr (by decide)⟩

/-! ## The coverage report -/

theorem map_ite_singleton {α β : Type} (f : α → β) (c : Bool) (a : α) :
    (if c = true then [a] else []).map f = if c = true then [f a] else [] := by
  cases c <;> rfl

theorem pathSigs_eq (p : Str) (pi : PathItem) :
    pathSigs p pi = (pathOps p pi).map fun op => sig op.Method op.Path := by
  unfold pathSigs pathOps
  simp only [List.map_append, map_ite_singleton]

theorem allOpsLoop_eq (entries : List (Str × Option PathItem)) :
    allOpsLoop entries = (listOpsLoop entries).map fun op => sig op.Method op.Path := by
  induction entries with
  | nil => rfl
  | cons e rest ih =>
    obtain ⟨p, _ | pi⟩ := e
    · simpa only [allOpsLoop, listOpsLoop] using ih
    · simp only [allOpsLoop, listOpsLoop, List.map_append, ih, pathSigs_eq]

/-- The list of `allOps` holds the text of every operation of `listOps`, in the
same order. -/
theorem allOps_eq (doc : Option OpenAPI) :
    allOps doc = (listOps doc).map fun op => sig op.Method op.Path := by
  obtain _ | ⟨⟨_ | entries⟩⟩ := doc
  · rfl
  · rfl
  · exact allOpsLoop_eq entries

theorem sig_injective (m1 m2 p1 p2 : Str) (h1 : ' ' ∉ m1) (h2 : ' ' ∉ m2)
    (h : sig m1 p1 = sig m2 p2) : m1 = m2 ∧ p1 = p2 := by
  unfold sig at h
  induction m1 generalizing m2 with
  | nil =>
    cases m2 with
    | nil =>
      simp only [List.nil_append, List.cons.injEq, true_and] at h
      exact ⟨rfl, h⟩
    | cons c rest =>
      simp only [List.nil_append, List.cons_append, List.cons.injEq] at h
      exact absurd (h.1 ▸ List.mem_cons_self _ _) h2
  | cons a rest ih =>
    cases m2 with
    | nil =>
      simp only [List.nil_append, List.cons_append, List.cons.injEq] at h
      exact absurd (h.1 ▸ List.mem_cons_self _ _) h1
    | cons c rest2 =>
      simp only [List.cons_append, List.cons.injEq] at h
      obtain ⟨e1, e2⟩ := ih rest2 (fun hm => h1 (List.mem_cons_of_mem _ hm))
        (fun hm => h2 (List.mem_cons_of_mem _ hm)) h.2
      exact ⟨by rw [h.1, e1], e2⟩

theorem methodOp_token (pi : PathItem) (m : Str) (o : Operation)
    (h : methodOp pi m = some o) : ' ' ∉ m := by
  unfold methodOp at h
  split_ifs at h with h1 h2 h3 h4 h5 h6 h7 h8
  all_goals (subst_vars; decide)

theorem listOps_token (doc : Option OpenAPI) (op : OpSig) (h : op ∈ listOps doc) :
    ' ' ∉ op.Method := by
  obtain ⟨d, entries, pi, o, _, _, _, ho⟩ := (mem_listOps doc op).mp h
  exact methodOp_token pi op.Method o ho

theorem allOps_nodup (doc : Option OpenAPI) (hk : (pathKeys doc).Nodup) :
    (allOps doc).Nodup := by
  rw [allOps_eq]
  refine List.Nodup.map_on ?_ (listOps_nodup doc hk)
  intro x hx y hy e
  obtain ⟨e1, e2⟩ := sig_injective _ _ _ _ (listOps_token doc x hx) (listOps_token doc y hy) e
  cases x
  cases y
  simp only at e1 e2
  rw [e1, e2]

theorem mem_allOps (doc : Option OpenAPI) (c : Str) :
    c ∈ allOps doc ↔ ∃ op, Declares doc op ∧ c = sig op.Method op.Path := by
  rw [allOps_eq, List.mem_map]
  constructor
  · rintro ⟨op, h, rfl⟩
    exact ⟨op, (mem_listOps doc op).mp h, rfl⟩
  · rintro ⟨op, h, rfl⟩
    exact ⟨op, (mem_listOps doc op).mpr h, rfl⟩

theorem mem_flattenCovered (m : CoveredMap) (c : Str) :
    c ∈ flattenCovered m ↔
      ∃ method paths p v, (method, paths) ∈ m ∧ (p, v) ∈ paths ∧ c = sig (toUpper method) p := by
  unfold flattenCovered
  simp only [List.mem_flatMap, List.mem_map, Prod.exists]
  constructor
  · rintro ⟨method, paths, hm, p, v, hp, rfl⟩
    exact ⟨method, paths, p, v, hm, hp, rfl⟩
  · rintro ⟨method, paths, p, v, hm, hp, rfl⟩
    exact ⟨method, paths, hm, p, v, hp, rfl⟩

theorem mem_sortStrings (l : List Str) (c : Str) : c ∈ sortStrings l ↔ c ∈ l :=
  (List.perm_insertionSort _ l).mem_iff

theorem sortStrings_sorted (l : List Str) (h : l.Nodup) : (sortStrings l).Sorted (· < ·) :=
  (List.sorted_insertionSort (· ≤ ·) l).lt_of_le ((List.perm_insertionSort _ l).nodup_iff.mpr h)

theorem roundEven_int (k : Int) : roundEven (k : ℚ) = k := by
  unfold roundEven
  simp

theorem roundEven_mono (a b : ℚ) (h : a ≤ b) : roundEven a ≤ roundEven b := by
  have hfa := Int.floor_le a
  have hfb := Int.floor_le b
  have hla := Int.lt_floor_add_one a
  have hlb := Int.lt_floor_add_one b
  have hf : ⌊a⌋ ≤ ⌊b⌋ := Int.floor_mono h
  have ha1 : roundEven a ≤ ⌊a⌋ + 1 := by
    unfold roundEven
    split_ifs <;> omega
  have hb0 : ⌊b⌋ ≤ roundEven b := by
    unfold roundEven
    split_ifs <;> omega
  rcases hf.lt_or_eq with hlt | heq
  · omega
  · unfold roundEven
    rw [heq]
    have hab : a - (⌊b⌋ : ℚ) ≤ b - (⌊b⌋ : ℚ) := by linarith
    split_ifs <;> first | omega | (exfalso; linarith)

theorem roundPos_int (n : Int) (h0 : 0 < n) (h1 : n ≤ 2 ^ 53) : roundPos (n : ℚ) = n := by
  have hn0 : (0 : ℚ) < (n : ℚ) := by exact_mod_cast h0
  have hlo := Int.zpow_log_le_self (b := 2) (by norm_num) hn0
  have hhi := Int.lt_zpow_succ_log_self (b := 2) (by norm_num) (n : ℚ)
  have hn53 : (n : ℚ) ≤ 2 ^ (53 : ℤ) := by
    have : ((n : ℤ) : ℚ) ≤ ((2 ^ 53 : ℤ) : ℚ) := by exact_mod_cast h1
    norm_num at this ⊢
    exact this
  have he : Int.log 2 (n : ℚ) ≤ 53 := by
    by_contra hc
    push_neg at hc
    have h2 : (2 : ℚ) ^ (54 : ℤ) ≤ (2 : ℚ) ^ Int.log 2 (n : ℚ) :=
      zpow_le_zpow_right₀ (by norm_num) (by omega)
    have h3 : (2 : ℚ) ^ (53 : ℤ) < (2 : ℚ) ^ (54 : ℤ) := by norm_num
    have h4 : ((2 : ℕ) : ℚ) = 2 := by norm_num
    rw [h4] at hlo
    linarith
  have h4 : ((2 : ℕ) : ℚ) = 2 := by norm_num
  rw [h4] at hlo hhi
  unfold roundPos
  generalize Int.log 2 (n : ℚ) = e at *
  have hu : (2 : ℚ) ^ (e - 52) ≠ 0 := zpow_ne_zero _ (by norm_num)
  suffices hk : ∃ k : Int, (n : ℚ) / (2 : ℚ) ^ (e - 52) = (k : ℚ) by
    obtain ⟨k, hk⟩ := hk
    rw [hk, roundEven_int, ← hk]
    field_simp
  rcases (show e ≤ 52 ∨ e = 53 by omega) with h52 | h53
  · refine ⟨n * 2 ^ (52 - e).toNat, ?_⟩
    have h5 : (2 : ℚ) ^ (e - 52) = ((2 : ℚ) ^ ((52 - e).toNat))⁻¹ := by
      rw [← zpow_natCast, ← zpow_neg]
      congr 1
      rw [Int.toNat_of_nonneg (by omega)]
      ring
    rw [h5]
    push_cast
    field_simp
  · subst h53
    have h6 : (n : ℚ) = 2 ^ (53 : ℤ) := le_antisymm hn53 hlo
    refine ⟨2 ^ 52, ?_⟩
    rw [h6]
    norm_num

theorem roundPos_bounds (x : ℚ) (hx : 0 < x) :
    (2 : ℚ) ^ Int.log 2 x ≤ roundPos x ∧ roundPos x ≤ (2 : ℚ) ^ (Int.log 2 x + 1) := by
  have hlo := Int.zpow_log_le_self (b := 2) (by norm_num) hx
  have hhi := Int.lt_zpow_succ_log_self (b := 2) (by norm_num) x
  have h4 : ((2 : ℕ) : ℚ) = 2 := by norm_num
  rw [h4] at hlo hhi
  unfold roundPos
  generalize Int.log 2 x = e at *
  have hu : (0 : ℚ) < (2 : ℚ) ^ (e - 52) := zpow_pos (by norm_num) _
  have e1 : (2 : ℚ) ^ e = ((2 ^ 52 : Int) : ℚ) * (2 : ℚ) ^ (e - 52) := by
    rw [zpow_sub₀ (by norm_num)]
    norm_num
    ring
  have e2 : (2 : ℚ) ^ (e + 1) = ((2 ^ 53 : Int) : ℚ) * (2 : ℚ) ^ (e - 52) := by
    rw [zpow_sub₀ (by norm_num), zpow_add₀ (by norm_num)]
    norm_num
    ring
  have m1 : (2 ^ 52 : Int) ≤ roundEven (x / (2 : ℚ) ^ (e - 52)) := by
    have := roundEven_mono ((2 ^ 52 : Int) : ℚ) (x / (2 : ℚ) ^ (e - 52)) (by
      rw [le_div_iff₀ hu, ← e1]
      exact hlo)
    rwa [roundEven_int] at this
  have m2 : roundEven (x / (2 : ℚ) ^ (e - 52)) ≤ (2 ^ 53 : Int) := by
    have := roundEven_mono (x / (2 : ℚ) ^ (e - 52)) ((2 ^ 53 : Int) : ℚ) (by
      rw [div_le_iff₀ hu, ← e2]
      exact hhi.le)
    rwa [roundEven_int] at this
  rw [e1, e2]
  constructor
  · exact mul_le_mul_of_nonneg_right (by exact_mod_cast m1) hu.le
  · exact mul_le_mul_of_nonneg_right (by exact_mod_cast m2) hu.le

theorem roundPos_mono (x y : ℚ) (hx : 0 < x) (h : x ≤ y) : roundPos x ≤ roundPos y := by
  have hy : 0 < y := lt_of_lt_of_le hx h
  have hl : Int.log 2 x ≤ Int.log 2 y := Int.log_mono_right hx h
  rcases hl.lt_or_eq with hlt | heq
  · have h1 := (roundPos_bounds x hx).2
    have h2 := (roundPos_bounds y hy).1
    have h3 : (2 : ℚ) ^ (Int.log 2 x + 1) ≤ (2 : ℚ) ^ Int.log 2 y :=
      zpow_le_zpow_right₀ (by norm_num) (by omega)
    linarith
  · unfold roundPos
    rw [heq]
    have hu : (0 : ℚ) < (2 : ℚ) ^ (Int.log 2 y - 52) := zpow_pos (by norm_num) _
    apply mul_le_mul_of_nonneg_right _ hu.le
    have := roundEven_mono (x / (2 : ℚ) ^ (Int.log 2 y - 52)) (y / (2 : ℚ) ^ (Int.log 2 y - 52))
      (div_le_div_of_nonneg_right h hu.le)
    exact_mod_cast this

theorem round64_int (n : Int) (h0 : 0 ≤ n) (h1 : n ≤ 2 ^ 53) : round64 (n : ℚ) = n := by
  unfold round64
  rcases h0.lt_or_eq with hpos | hz
  · have hn0 : (0 : ℚ) < (n : ℚ) := by exact_mod_cast hpos
    rw [if_neg hn0.ne', if_neg (not_lt.mpr hn0.le)]
    exact roundPos_int n hpos h1
  · subst hz
    simp

theorem round64_mono (x y : ℚ) (hx : 0 ≤ x) (h : x ≤ y) : round64 x ≤ round64 y := by
  unfold round64
  rcases hx.lt_or_eq with hpos | hz
  · have hy : 0 < y := lt_of_lt_of_le hpos h
    rw [if_neg hpos.ne', if_neg (not_lt.mpr hpos.le), if_neg hy.ne', if_neg (not_lt.mpr hy.le)]
    exact roundPos_mono x y hpos h
  · subst hz
    rw [if_pos rfl]
    rcases h.lt_or_eq with hy | hy
    · rw [if_neg hy.ne', if_neg (not_lt.mpr hy.le)]
      exact le_trans (zpow_pos (by norm_num) _).le (roundPos_bounds y hy).1
    · rw [if_pos hy.symm]

/-- A value of binary exponent `e` rounds to `m * 2 ^ (e - 52)` when `m` is
the integer within less than a half of it on that grid. -/
theorem round64_eq (x : ℚ) (e m : Int) (h1 : (2 : ℚ) ^ e ≤ x) (h2 : x < (2 : ℚ) ^ (e + 1))
    (h3 : (m : ℚ) - 1 / 2 < x / (2 : ℚ) ^ (e - 52)) (h4 : x / (2 : ℚ) ^ (e - 52) < (m : ℚ) + 1 / 2) :
    round64 x = (m : ℚ) * (2 : ℚ) ^ (e - 52) := by
  have hx : 0 < x := lt_of_lt_of_le (zpow_pos (by norm_num) _) h1
  have he : Int.log 2 x = e := by
    apply le_antisymm
    · have := (Int.lt_zpow_iff_log_lt (b := 2) (by norm_num) hx (x := e + 1)).mp (by
        simpa using h2)
      omega
    · exact (Int.zpow_le_iff_le_log (b := 2) (by norm_num) hx).mp (by simpa using h1)
  unfold round64
  rw [if_neg hx.ne', if_neg (not_lt.mpr hx.le)]
  unfold roundPos
  rw [he]
  congr 1
  generalize x / (2 : ℚ) ^ (e - 52) = q at h3 h4
  have hfl := Int.floor_le q
  have hlt := Int.lt_floor_add_one q
  norm_cast
  unfold roundEven
  have c1 : m - 1 ≤ ⌊q⌋ := by
    have : ((m - 1 : Int) : ℚ) ≤ q := by push_cast; linarith
    exact Int.le_floor.mpr this
  have c2 : ⌊q⌋ ≤ m := by
    have : q < ((m + 1 : Int) : ℚ) := by push_cast; linarith
    have := Int.floor_lt.mpr this
    omega
  rcases (show ⌊q⌋ = m - 1 ∨ ⌊q⌋ = m by omega) with hf | hf
  · rw [hf]
    have : ¬ (q - ((m - 1 : Int) : ℚ) < 1 / 2) := by push_cast; linarith
    rw [if_neg this]
    have : (1 / 2 : ℚ) < q - ((m - 1 : Int) : ℚ) := by push_cast; linarith
    rw [if_pos this]
    ring
  · rw [hf]
    have : q - (m : ℚ) < 1 / 2 := by linarith
    rw [if_pos this]

theorem pct_exact (n d : Int) (h0 : 0 ≤ n) (h1 : n ≤ d) (hd : d ≠ 0)
    (hs : 100 * d ≤ 2 ^ 53) : pct n d = round64 (100 * (n : ℚ) / (d : ℚ)) := by
  unfold pct
  rw [if_neg hd, round64_int n h0 (by omega), round64_int d (by omega) (by omega)]
  have h2 := round64_int (n * 100) (by omega) (by omega)
  push_cast at h2
  rw [h2, mul_comm]

theorem pct_bounds (n d : Int) (h0 : 0 ≤ n) (h1 : n ≤ d) (hs : 100 * d ≤ 2 ^ 53) :
    0 ≤ pct n d ∧ pct n d ≤ 100 := by
  by_cases hd : d = 0
  · unfold pct
    rw [if_pos hd]
    norm_num
  · rw [pct_exact n d h0 h1 hd hs]
    have hd0 : (0 : ℚ) < d := by
      have : 0 < d := by omega
      exact_mod_cast this
    have hn0 : (0 : ℚ) ≤ n := by exact_mod_cast h0
    have hnd : (n : ℚ) ≤ d := by exact_mod_cast h1
    have hq0 : (0 : ℚ) ≤ 100 * (n : ℚ) / (d : ℚ) := by positivity
    have hq1 : 100 * (n : ℚ) / (d : ℚ) ≤ 100 := by
      rw [div_le_iff₀ hd0]
      nlinarith
    have z0 : round64 0 = 0 := by
      unfold round64
      rw [if_pos rfl]
    have z1 : round64 100 = 100 := by
      have := round64_int 100 (by norm_num) (by norm_num)
      exact_mod_cast this
    constructor
    · have := round64_mono 0 _ le_rfl hq0
      rwa [z0] at this
    · have := round64_mono _ 100 hq0 hq1
      rwa [z1] at this

/-- C32: for a document whose path map has each key once and that declares at
most `2 ^ 53 / 100` operations, and every covered map, the report of
`ComputeCoverage` has: `Total` the number of operations that the document
declares; `CoveredSet` exactly the declared operations whose text `METHOD path`
is a key of the flattened covered map (the method of an entry upper-cased, the
value of the entry not read), `UncoveredSet` exactly the other declared
operations; both lists strictly ascending, without a common element, and
together a rearrangement of the declared operations; `Covered` the length of
`CoveredSet`; `Percent` 100 when `Total` is 0 and otherwise the `float64`
nearest to `100 * Covered / Total`, which is that quotient itself when it is an
integer; `Percent` is between 0 and 100. Two covered maps that agree on the
declared operations give the same report: entries for other operations are
ignored. -/
theorem ComputeCoverage_report (doc : Option OpenAPI) (covered c2 : CoveredMap)
    (hk : (pathKeys doc).Nodup) (hsize : 100 * (ComputeCoverage doc covered).Total ≤ 2 ^ 53) :
    (ComputeCoverage doc covered).Total = (listOps doc).length ∧
    (∀ c, c ∈ (ComputeCoverage doc covered).CoveredSet ↔
      (∃ op, Declares doc op ∧ c = sig op.Method op.Path) ∧ c ∈ flattenCovered covered) ∧
    (∀ c, c ∈ (ComputeCoverage doc covered).UncoveredSet ↔
      (∃ op, Declares doc op ∧ c = sig op.Method op.Path) ∧ c ∉ flattenCovered covered) ∧
    (∀ c, c ∈ flattenCovered covered ↔
      ∃ method paths p v, (method, paths) ∈ covered ∧ (p, v) ∈ paths ∧
        c = sig (toUpper method) p) ∧
    (ComputeCoverage doc covered).CoveredSet.Sorted (· < ·) ∧
    (ComputeCoverage doc covered).UncoveredSet.Sorted (· < ·) ∧
    (∀ c ∈ (ComputeCoverage doc covered).CoveredSet,
      c ∉ (ComputeCoverage doc covered).UncoveredSet) ∧
    ((ComputeCoverage doc covered).CoveredSet ++
      (ComputeCoverage doc covered).UncoveredSet).Perm (allOps doc) ∧
    (ComputeCoverage doc covered).Covered = (ComputeCoverage doc covered).CoveredSet.length ∧
    ((ComputeCoverage doc covered).Total = 0 → (ComputeCoverage doc covered).Percent = 100) ∧
    ((ComputeCoverage doc covered).Total ≠ 0 →
      (ComputeCoverage doc covered).Percent =
        round64 (100 * ((ComputeCoverage doc covered).Covered : ℚ) /
          ((ComputeCoverage doc covered).Total : ℚ))) ∧
    (∀ k : Int, (ComputeCoverage doc covered).Total ≠ 0 →
      100 * (ComputeCoverage doc covered).Covered = k * (ComputeCoverage doc covered).Total →
      (ComputeCoverage doc covered).Percent = k) ∧
    0 ≤ (ComputeCoverage doc covered).Percent ∧
    (ComputeCoverage doc covered).Percent ≤ 100 ∧
    ((∀ op ∈ allOps doc, op ∈ flattenCovered c2 ↔ op ∈ flattenCovered covered) →
      ComputeCoverage doc c2 = ComputeCoverage doc covered) := by
  have hnd := allOps_nodup doc hk
  have hs : 100 * ((allOps doc).length : Int) ≤ 2 ^ 53 := hsize
  have hle : (((allOps doc).filter fun op => decide (op ∈ flattenCovered covered)).length : Int) ≤
      ((allOps doc).length : Int) := by
    exact_mod_cast List.length_filter_le _ (allOps doc)
  have hpe : (ComputeCoverage doc covered).Percent =
      pct (((allOps doc).filter fun op => decide (op ∈ flattenCovered covered)).length : Int)
        ((allOps doc).length : Int) := rfl
  have hcov : (ComputeCoverage doc covered).Covered =
      (((allOps doc).filter fun op => decide (op ∈ flattenCovered covered)).length : Int) := rfl
  have htot : (ComputeCoverage doc covered).Total = ((allOps doc).length : Int) := rfl
  refine ⟨?_, fun c => ?_, fun c => ?_, mem_flattenCovered covered, ?_, ?_, fun c hc hu => ?_,
    ?_, ?_, fun h0 => ?_, fun h0 => ?_, fun k h0 hq => ?_, ?_, ?_, fun hagree => ?_⟩
  · show ((allOps doc).length : Int) = _
    rw [allOps_eq, List.length_map]
  · show c ∈ sortStrings _ ↔ _
    rw [mem_sortStrings, List.mem_filter, mem_allOps]
    simp
  · show c ∈ sortStrings _ ↔ _
    rw [mem_sortStrings, List.mem_filter, mem_allOps]
    simp
  · exact sortStrings_sorted _ (hnd.filter _)
  · exact sortStrings_sorted _ (hnd.filter _)
  · have h1 : c ∈ sortStrings _ := hc
    have h2 : c ∈ sortStrings _ := hu
    rw [mem_sortStrings, List.mem_filter] at h1 h2
    simp only [decide_eq_true_eq] at h1
    simp only [Bool.not_eq_true', decide_eq_false_iff_not] at h2
    exact h2.2 h1.2
  · show (sortStrings _ ++ sortStrings _).Perm _
    refine ((List.perm_insertionSort _ _).append (List.perm_insertionSort _ _)).trans ?_
    exact List.filter_append_perm _ _
  · show ((List.filter _ _).length : Int) = ((sortStrings _).length : Int)
    rw [sortStrings, (List.perm_insertionSort _ _).length_eq]
  · rw [hpe]
    rw [htot] at h0
    unfold pct
    rw [if_pos h0]
  · rw [hpe, hcov, htot]
    rw [htot] at h0
    exact pct_exact _ _ (by positivity) hle h0 hs
  · rw [hpe]
    rw [htot] at h0
    rw [hcov, htot] at hq
    rw [pct_exact _ _ (by positivity) hle h0 hs]
    have hd0 : (((allOps doc).length : Int) : ℚ) ≠ 0 := by exact_mod_cast h0
    have hq2 : 100 * ((((allOps doc).filter fun op =>
        decide (op ∈ flattenCovered covered)).length : Int) : ℚ) =
        (k : ℚ) * (((allOps doc).length : Int) : ℚ) := by exact_mod_cast hq
    rw [hq2, mul_div_assoc, div_self hd0, mul_one]
    have hk0 : 0 ≤ k := by
      by_contra hneg
      push_neg at hneg
      have hpos : (0 : Int) < ((allOps doc).length : Int) := by omega
      have : k * ((allOps doc).length : Int) < 0 := mul_neg_of_neg_of_pos hneg hpos
      have h3 : (0 : Int) ≤ 100 * (((allOps doc).filter fun op =>
        decide (op ∈ flattenCovered covered)).length : Int) := by positivity
      omega
    have hk1 : k ≤ 100 := by
      by_contra hbig
      push_neg at hbig
      have hpos : (0 : Int) < ((allOps doc).length : Int) := by omega
      have : 100 * ((allOps doc).length : Int) < k * ((allOps doc).length : Int) :=
        mul_lt_mul_of_pos_right hbig hpos
      omega
    exact round64_int k hk0 (by omega)
  · rw [hpe]
    exact (pct_bounds _ _ (by positivity) hle hs).1
  · rw [hpe]
    exact (pct_bounds _ _ (by positivity) hle hs).2
  · have h1 : ((allOps doc).filter fun op => decide (op ∈ flattenCovered c2)) =
        (allOps doc).filter fun op => decide (op ∈ flattenCovered covered) :=
      List.filter_congr fun op hop => decide_eq_decide.mpr (hagree op hop)
    have h2 : ((allOps doc).filter fun op => !decide (op ∈ flattenCovered c2)) =
        (allOps doc).filter fun op => !decide (op ∈ flattenCovered covered) :=
      List.filter_congr fun op hop => by rw [decide_eq_decide.mpr (hagree op hop)]
    unfold ComputeCoverage
    simp only [h1, h2]

/-- C32 on the document of `TestWriteCoverage` (spec A) and a covered map that
holds `post /users`, `GET /health` with the value false, and `GET /missing`,
which the document does not declare: two of the three declared operations are
covered and `Percent` is the `float64` nearest to 200/3. -/
theorem ComputeCoverage_report_witness :
    (ComputeCoverage specA sampleCovered).Total = 3 ∧
    (ComputeCoverage specA sampleCovered).Covered = 2 ∧
    (ComputeCoverage specA sampleCovered).CoveredSet =
      ["GET /health".toList, "POST /users".toList] ∧
    (ComputeCoverage specA sampleCovered).UncoveredSet = ["GET /users".toList] ∧
    ((ComputeCoverage specA sampleCovered).Total ≠ 0 →
      (ComputeCoverage specA sampleCovered).Percent =
        round64 (100 * ((ComputeCoverage specA sampleCovered).Covered : ℚ) /
          ((ComputeCoverage specA sampleCovered).Total : ℚ))) ∧
    (ComputeCoverage specA sampleCovered).Percent ≤ 100 :=
  ⟨(ComputeCoverage_report specA sampleCovered sampleCovered (by decide) (by decide)).1,
    by decide, by decide, by decide,
    (ComputeCoverage_report specA sampleCovered sampleCovered (by decide)
      (by decide)).2.2.2.2.2.2.2.2.2.2.1,
    (ComputeCoverage_report specA sampleCovered sampleCovered (by decide)
      (by decide)).2.2.2.2.2.2.2.2.2.2.2.2.2.1⟩

/-- C32 read with the exact quotient, at two covered operations of three: the
report holds the `float64` 66.66666666666667, which is
4691249611844267 / 2 ^ 46 and not 200/3. -/
theorem ComputeCoverage_report_counterexample :
    (ComputeCoverage specA sampleCovered).Total = 3 ∧
    (ComputeCoverage specA sampleCovered).Covered = 2 ∧
    (ComputeCoverage specA sampleCovered).Percent = 4691249611844267 / 70368744177664 ∧
    (ComputeCoverage specA sampleCovered).Percent ≠
      100 * ((ComputeCoverage specA sampleCovered).Covered : ℚ) /
        ((ComputeCoverage specA sampleCovered).Total : ℚ) := by
  have ht : (ComputeCoverage specA sampleCovered).Total = 3 := by decide
  have hc : (ComputeCoverage specA sampleCovered).Covered = 2 := by decide
  have hp : (ComputeCoverage specA sampleCovered).Percent =
      pct (ComputeCoverage specA sampleCovered).Covered
        (ComputeCoverage specA sampleCovered).Total := rfl
  have hv : (ComputeCoverage specA sampleCovered).Percent =
      4691249611844267 / 70368744177664 := by
    rw [hp, hc, ht, pct_exact 2 3 (by norm_num) (by norm_num) (by norm_num) (by norm_num)]
    have h := round64_eq (100 * ((2 : Int) : ℚ) / ((3 : Int) : ℚ)) 6 4691249611844267
      (by norm_num) (by norm_num) (by norm_num) (by norm_num)
    rw [h]
    norm_num
  refine ⟨ht, hc, hv, ?_⟩
  rw [hv, hc, ht]
  norm_num

/-! ## The injected `uuid` -/

theorem hexDigit_digitChar (k : Nat) (h : k < 16) : hexDigit (Nat.digitChar k) = k := by
  interval_cases k <;> rfl

theorem hexValue_toDigitsCore (fuel n : Nat) (ds : Str) (h : n < fuel) :
    hexValue (Nat.toDigitsCore 16 fuel n ds) = n * 16 ^ ds.length + hexValue ds := by
  induction fuel generalizing n ds with
  | zero => omega
  | succ f ih =>
    simp only [Nat.toDigitsCore]
    have hmod : hexDigit (Nat.digitChar (n % 16)) = n % 16 :=
      hexDigit_digitChar _ (Nat.mod_lt _ (by decide))
    split
    · rename_i hz
      simp only [hexValue, hmod]
      have : n = n % 16 := by omega
      rw [← this]
    · rename_i hz
      rw [ih (n / 16) _ (by omega)]
      simp only [hexValue, hmod, List.length_cons, pow_succ]
      have hn : n = 16 * (n / 16) + n % 16 := (Nat.div_add_mod n 16).symm
      conv_rhs => rw [hn]
      ring

/-- The text that `%x` writes determines the number. -/
theorem hexValue_fmtHex (n : Nat) : hexValue (fmtHex n) = n := by
  unfold fmtHex Nat.toDigits
  rw [hexValue_toDigitsCore _ _ _ (Nat.lt_succ_self n)]
  simp [hexValue]

theorem fmtHex_injective (a b : Nat) (h : fmtHex a = fmtHex b) : a = b := by
  rw [← hexValue_fmtHex a, ← hexValue_fmtHex b, h]

/-- The `uuid` of a scenario is the hexadecimal text of the clock reading in
nanoseconds taken when the scenario starts, so the values of two scenarios are
different exactly when the two readings are different. -/
theorem scenarioVars_uuid (r : Runner) (env : Env) (w w2 : World) :
    scenarioVars r env w "uuid".toList = some (fmtHex (env.unixNano w.trace)) ∧
    (scenarioVars r env w "uuid".toList = scenarioVars r env w2 "uuid".toList ↔
      env.unixNano w.trace = env.unixNano w2.trace) := by
  have h : ∀ x : World,
      scenarioVars r env x "uuid".toList = some (fmtHex (env.unixNano x.trace)) := by
    intro x
    simp [scenarioVars, StrMap.set, newUUID]
  refine ⟨h w, ?_⟩
  rw [h w, h w2]
  constructor
  · intro e
    exact fmtHex_injective _ _ (Option.some.inj e)
  · intro e
    rw [e]

/-- C34 at a failing input: a suite of two scenarios run by a pool of two
workers that read the same value from the clock when they start their
scenarios. Both scenarios get the same `uuid` and send it in their requests. -/
theorem RunSuite_uuid_collision :
    suiteURLs (RunSuite (New.WithParallel 2) frozenClockEnv [1, 0] (some uuidSuite) World.init) =
      [some "/u/180231d5856d0000".toList, some "/u/180231d5856d0000".toList] := by
  rfl

/-! ## The response body in the input of a hook -/

/-- C36 at a failing input: when the response body is not empty and not a JSON
value, the encoder of the input document returns an error for a hook behind the
request, so the hook is not given its input, the call of `RunProcessHook` fails,
and the step fails with `hook(after) error: encode stdin: ...`. -/
theorem afterHook_rawBody (valid : Str → Bool) (status : Int) (hdrs : RespHeaders) (body : Str)
    (s : StepState) (hk : Hook) (ha : isAfter hk = true) (ht : hk.Typ = "process".toList)
    (hb : body ≠ []) (hv : valid body = false) :
    (afterHook (rawMessageEnv valid body) ⟨status, hdrs, body⟩ s hk).stepRes.Passed = false ∧
    (afterHook (rawMessageEnv valid body) ⟨status, hdrs, body⟩ s hk).stepRes.Errors =
      s.stepRes.Errors ++
        ["hook(after) error: encode stdin: json: error calling MarshalJSON for type json.RawMessage".toList] := by
  have hwhen : toLower hk.When = "after".toList := by simpa [isAfter] using ha
  have hrun : RunProcessHook (rawMessageEnv valid body) "after".toList hk
      ⟨clone s.vars, some s.req, some ⟨status, hdrs, body⟩⟩ s.w =
      (.error "encode stdin: json: error calling MarshalJSON for type json.RawMessage".toList,
        { s.w with trace := s.w.trace ++
          [Event.hook "after".toList hk ⟨clone s.vars, some s.req, some ⟨status, hdrs, body⟩⟩] }) := by
    unfold RunProcessHook
    simp only [ht, ne_eq, not_true_eq_false, if_false, rawMessageEnv, procOutcome, encodeInputErr,
      hb, hv, Bool.false_eq_true]
    rfl
  unfold afterHook
  rw [if_neg (by simp [hwhen]), hrun]
  exact ⟨rfl, rfl⟩

/-- C36 on a step with a hook behind the request whose request is answered with
the two bytes `OK`. -/
theorem afterHook_rawBody_witness :
    (afterHook (rawMessageEnv (fun _ => false) "OK".toList) ⟨200, fun _ => none, "OK".toList⟩
        (stepAt StrMap.empty (simpleRequest "GET".toList "/ping".toList))
        (processHook "after".toList "audit".toList)).stepRes.Passed = false ∧
    (onlyStep (runScenario New (rawMessageEnv (fun _ => false) "OK".toList)
        (hookedScenario "/ping".toList (processHook "after".toList "audit".toList))
        World.init).1).Errors =
      ["hook(after) error: encode stdin: json: error calling MarshalJSON for type json.RawMessage".toList] :=
  ⟨(afterHook_rawBody (fun _ => false) 200 (fun _ => none) "OK".toList
      (stepAt StrMap.empty (simpleRequest "GET".toList "/ping".toList))
      (processHook "after".toList "audit".toList) rfl rfl (by decide) rfl).1, rfl⟩

/-! ## The header map of a step -/

theorem read_expandHeadersRef (h : Heap) (a : Nat) (vars : StrMap) (ha : a < h.length) :
    (expandHeadersRef h a vars).read a = expandHeaders (h.read a) vars := by
  simp [expandHeadersRef, Heap.read, List.getD_eq_getElem?_getD, List.getElem?_set_self ha]

/-- C37 at a failing input: the step declares the header `X-Id` with the value
`${uuid}`. After `expandRequest` ran with `uuid = u1`, the header map of the
step holds `u1`, not the declared text; a second expansion of the same step
with `uuid = u2` finds no placeholder and keeps `u1`. -/
theorem expandHeadersRef_overwrites :
    (∀ (h : Heap) (a : Nat) (vars : StrMap), a < h.length →
      (expandHeadersRef h a vars).read a = expandHeaders (h.read a) vars) ∧
    Heap.read [idHeaders] 0 "X-Id".toList = some "${uuid}".toList ∧
    (expandHeadersRef [idHeaders] 0 (StrMap.empty.set "uuid".toList "u1".toList)).read 0
      "X-Id".toList = some "u1".toList ∧
    (expandHeadersRef
      (expandHeadersRef [idHeaders] 0 (StrMap.empty.set "uuid".toList "u1".toList)) 0
      (StrMap.empty.set "uuid".toList "u2".toList)).read 0 "X-Id".toList = some "u1".toList :=
  ⟨read_expandHeadersRef, rfl, rfl, rfl⟩

/-! ## Concurrent updates of the coverage set -/

/-- C35 at a failing input: two goroutines record `GET /users` and
`GET /health` in an empty coverage set. Under the schedule in which both make
the test before either assigns the inner map, both finish, and the pair of the
first is lost: the coverage set is not the union. When one runs after the
other, both pairs are there. -/
theorem runSchedule_lost_update :
    (runSchedule [true, false, true, true, false, false] CovMem.init
        ⟨"GET".toList, "/users".toList, .test⟩ ⟨"GET".toList, "/health".toList, .test⟩).2.1.pc
      = .done ∧
    (runSchedule [true, false, true, true, false, false] CovMem.init
        ⟨"GET".toList, "/users".toList, .test⟩ ⟨"GET".toList, "/health".toList, .test⟩).2.2.pc
      = .done ∧
    (runSchedule [true, false, true, true, false, false] CovMem.init
        ⟨"GET".toList, "/users".toList, .test⟩ ⟨"GET".toList, "/health".toList, .test⟩).1.covers
      "GET".toList "/users".toList = false ∧
    (runSchedule [true, false, true, true, false, false] CovMem.init
        ⟨"GET".toList, "/users".toList, .test⟩ ⟨"GET".toList, "/health".toList, .test⟩).1.covers
      "GET".toList "/health".toList = true ∧
    (runSchedule [true, true, true, false, false, false] CovMem.init
        ⟨"GET".toList, "/users".toList, .test⟩ ⟨"GET".toList, "/health".toList, .test⟩).1.covers
      "GET".toList "/users".toList = true ∧
    (runSchedule [true, true, true, false, false, false] CovMem.init
        ⟨"GET".toList, "/users".toList, .test⟩ ⟨"GET".toList, "/health".toList, .test⟩).1.covers
      "GET".toList "/health".toList = true := by
  refine ⟨by decide, by decide, by decide, by decide, by decide, by decide⟩

/-! ## The teardown requests, one by one -/

theorem sentWorld_zero (w : World) (reqs : List Request) : sentWorld w reqs 0 = w := by
  simp [sentWorld]

theorem sentWorld_succ (w : World) (q : Request) (reqs : List Request) (k : Nat) :
    sentWorld w (q :: reqs) (k + 1) =
      sentWorld { w with trace := w.trace ++ [httpEvent q] } reqs k := by
  simp [sentWorld]

/-- A request that can be built is handed to the client, one that cannot is
not. -/
theorem doRequest_sent (env : Env) (q : Request) (w : World) :
    (Buildable env q → (doRequest env q w).2 = { w with trace := w.trace ++ [httpEvent q] }) ∧
    (¬ Buildable env q → (doRequest env q w).2 = w ∧ ∃ e, (doRequest env q w).1 = .error e) := by
  unfold Buildable doRequest httpEvent
  cases hb : bodyErr env q.Body with
  | some e => simp
  | none =>
    cases hn : env.newRequestErr q.Method q.URL with
    | some e => simp
    | none =>
      cases env.http w.trace q (timeoutNanos q.TimeoutMs) <;> simp

/-- What `runActions` does, request by request: every request ahead of the
first one that ends in an error is answered, the run ends with that one, and
without an error every request is answered. -/
theorem runActions_exact (env : Env) (acts : List Action) (vars : StrMap) (w : World) :
    ((runActions env acts vars w).1 = none →
      (runActions env acts vars w).2 =
        sentWorld w (actionRequests acts vars) (actionRequests acts vars).length ∧
      ∀ i q, (actionRequests acts vars)[i]? = some q →
        ∃ resp, (doRequest env q (sentWorld w (actionRequests acts vars) i)).1 = .ok resp) ∧
    (∀ err, (runActions env acts vars w).1 = some err →
      ∃ j q, (actionRequests acts vars)[j]? = some q ∧
        (∀ i p, i < j → (actionRequests acts vars)[i]? = some p →
          ∃ resp, (doRequest env p (sentWorld w (actionRequests acts vars) i)).1 = .ok resp) ∧
        doRequest env q (sentWorld w (actionRequests acts vars) j) =
          (.error err, (runActions env acts vars w).2)) := by
  induction acts generalizing w with
  | nil =>
    refine ⟨fun _ => ⟨by simp [runActions, actionRequests, sentWorld], ?_⟩, ?_⟩
    · intro i q h
      simp [actionRequests] at h
    · intro err h
      simp [runActions] at h
  | cons a rest ih =>
    cases ha : a.Request with
    | none =>
      have hreq : actionRequests (a :: rest) vars = actionRequests rest vars := by
        simp [actionRequests, ha]
      have hrun : runActions env (a :: rest) vars w = runActions env rest vars w := by
        simp [runActions, ha]
      rw [hreq, hrun]
      exact ih w
    | some rq =>
      have hreq : actionRequests (a :: rest) vars =
          expandRequest rq vars :: actionRequests rest vars := by
        simp [actionRequests, ha]
      rw [hreq]
      cases hd : doRequest env (expandRequest rq vars) w with
      | mk out w1 =>
        cases out with
        | error e =>
          have hrun : runActions env (a :: rest) vars w = (some e, w1) := by
            simp [runActions, ha, hd]
          rw [hrun]
          refine ⟨fun h => by simp at h, ?_⟩
          intro err herr
          simp only [Option.some.injEq] at herr
          subst herr
          refine ⟨0, expandRequest rq vars, by simp, ?_, ?_⟩
          · intro i p hi
            omega
          · rw [sentWorld_zero, hd]
        | ok resp =>
          have hw1 : w1 = { w with trace := w.trace ++ [httpEvent (expandRequest rq vars)] } := by
            have := (doRequest_trace env (expandRequest rq vars) w).2 resp (by rw [hd])
            rw [hd] at this
            exact this
          have hrun : runActions env (a :: rest) vars w = runActions env rest vars w1 := by
            simp [runActions, ha, hd]
          rw [hrun]
          obtain ⟨ih1, ih2⟩ := ih w1
          constructor
          · intro hnone
            obtain ⟨g1, g2⟩ := ih1 hnone
            refine ⟨?_, ?_⟩
            · rw [g1, List.length_cons, sentWorld_succ, hw1]
            · intro i q hq
              cases i with
              | zero =>
                simp only [List.getElem?_cons_zero, Option.some.injEq] at hq
                subst hq
                rw [sentWorld_zero, hd]
                exact ⟨resp, rfl⟩
              | succ i =>
                simp only [List.getElem?_cons_succ] at hq
                rw [sentWorld_succ, ← hw1]
                exact g2 i q hq
          · intro err herr
            obtain ⟨j, q, g1, g2, g3⟩ := ih2 err herr
            refine ⟨j + 1, q, by simpa using g1, ?_, ?_⟩
            · intro i p hi hp
              cases i with
              | zero =>
                simp only [List.getElem?_cons_zero, Option.some.injEq] at hp
                subst hp
                rw [sentWorld_zero, hd]
                exact ⟨resp, rfl⟩
              | succ i =>
                simp only [List.getElem?_cons_succ] at hp
                rw [sentWorld_succ, ← hw1]
                exact g2 i p (by omega) hp
            · rw [sentWorld_succ, ← hw1]
              exact g3

theorem sentWorld_next (w : World) (reqs : List Request) (j : Nat) (q : Request)
    (h : reqs[j]? = some q) :
    ({ sentWorld w reqs j with trace := (sentWorld w reqs j).trace ++ [httpEvent q] } : World) =
      sentWorld w reqs (j + 1) := by
  simp [sentWorld, List.take_succ, h]

/-- C2, as the code has it: after the last step `runScenario` takes the teardown
requests in declared order. When none of them ends in an error, every one is
handed to the client exactly once and answered. When one ends in an error, every
request ahead of the first such one has been handed to the client exactly once
and answered, the failing one has been handed to the client once if it could be
built and not at all otherwise, and no request behind it is sent. -/
theorem runScenario_teardown (r : Runner) (env : Env) (sc : Scenario) (w : World) :
    ((runActions env sc.Teardown (afterSteps r env sc w).vars (afterSteps r env sc w).w).1 = none →
      (runScenario r env sc w).2 =
        sentWorld (afterSteps r env sc w).w
          (actionRequests sc.Teardown (afterSteps r env sc w).vars)
          (actionRequests sc.Teardown (afterSteps r env sc w).vars).length ∧
      ∀ i q, (actionRequests sc.Teardown (afterSteps r env sc w).vars)[i]? = some q →
        ∃ resp, (doRequest env q (sentWorld (afterSteps r env sc w).w
          (actionRequests sc.Teardown (afterSteps r env sc w).vars) i)).1 = .ok resp) ∧
    (∀ err,
      (runActions env sc.Teardown (afterSteps r env sc w).vars (afterSteps r env sc w).w).1
        = some err →
      ∃ j q, (actionRequests sc.Teardown (afterSteps r env sc w).vars)[j]? = some q ∧
        (∀ i p, i < j →
          (actionRequests sc.Teardown (afterSteps r env sc w).vars)[i]? = some p →
          ∃ resp, (doRequest env p (sentWorld (afterSteps r env sc w).w
            (actionRequests sc.Teardown (afterSteps r env sc w).vars) i)).1 = .ok resp) ∧
        (doRequest env q (sentWorld (afterSteps r env sc w).w
          (actionRequests sc.Teardown (afterSteps r env sc w).vars) j)).1 = .error err ∧
        (Buildable env q →
          (runScenario r env sc w).2 = sentWorld (afterSteps r env sc w).w
            (actionRequests sc.Teardown (afterSteps r env sc w).vars) (j + 1)) ∧
        (¬ Buildable env q →
          (runScenario r env sc w).2 = sentWorld (afterSteps r env sc w).w
            (actionRequests sc.Teardown (afterSteps r env sc w).vars) j)) := by
  obtain ⟨h1, h2⟩ :=
    runActions_exact env sc.Teardown (afterSteps r env sc w).vars (afterSteps r env sc w).w
  refine ⟨fun hn => h1 hn, fun err herr => ?_⟩
  obtain ⟨j, q, g1, g2, g3⟩ := h2 err herr
  refine ⟨j, q, g1, g2, by rw [g3], fun hb => ?_, fun hb => ?_⟩
  · have hs := (doRequest_sent env q (sentWorld (afterSteps r env sc w).w
      (actionRequests sc.Teardown (afterSteps r env sc w).vars) j)).1 hb
    rw [g3] at hs
    show (runActions env sc.Teardown (afterSteps r env sc w).vars (afterSteps r env sc w).w).2 = _
    rw [hs]
    exact sentWorld_next _ _ j q g1
  · have hs := ((doRequest_sent env q (sentWorld (afterSteps r env sc w).w
      (actionRequests sc.Teardown (afterSteps r env sc w).vars) j)).2 hb).1
    rw [g3] at hs
    exact hs

/-- C2, as the code has it, on three teardown requests of which the endpoint
answers the first and refuses the second: `/a` and `/b` are sent, `/c` is not. -/
theorem runScenario_teardown_witness :
    (runScenario New oneAnswerEnv threeTeardowns World.init).2.trace.map eventURL =
      [some "/a".toList, some "/b".toList] ∧
    ∃ j q, (actionRequests threeTeardowns.Teardown
        (afterSteps New oneAnswerEnv threeTeardowns World.init).vars)[j]? = some q ∧
      (∀ i p, i < j →
        (actionRequests threeTeardowns.Teardown
          (afterSteps New oneAnswerEnv threeTeardowns World.init).vars)[i]? = some p →
        ∃ resp, (doRequest oneAnswerEnv p
          (sentWorld (afterSteps New oneAnswerEnv threeTeardowns World.init).w
            (actionRequests threeTeardowns.Teardown
              (afterSteps New oneAnswerEnv threeTeardowns World.init).vars) i)).1 = .ok resp) ∧
      (doRequest oneAnswerEnv q
        (sentWorld (afterSteps New oneAnswerEnv threeTeardowns World.init).w
          (actionRequests threeTeardowns.Teardown
            (afterSteps New oneAnswerEnv threeTeardowns World.init).vars) j)).1
        = .error "do: connection refused".toList ∧
      (Buildable oneAnswerEnv q →
        (runScenario New oneAnswerEnv threeTeardowns World.init).2 =
          sentWorld (afterSteps New oneAnswerEnv threeTeardowns World.init).w
            (actionRequests threeTeardowns.Teardown
              (afterSteps New oneAnswerEnv threeTeardowns World.init).vars) (j + 1)) ∧
      (¬ Buildable oneAnswerEnv q →
        (runScenario New oneAnswerEnv threeTeardowns World.init).2 =
          sentWorld (afterSteps New oneAnswerEnv threeTeardowns World.init).w
            (actionRequests threeTeardowns.Teardown
              (afterSteps New oneAnswerEnv threeTeardowns World.init).vars) j) :=
  ⟨rfl, (runScenario_teardown New oneAnswerEnv threeTeardowns World.init).2
    "do: connection refused".toList rfl⟩

/-! ## The method of a request, on ASCII text -/

theorem ofNat_ascii (n : Nat) (h1 : 97 ≤ n) (h2 : n ≤ 122) :
    (Char.ofNat (n - 32)).toNat < 128 := by
  interval_cases n <;> decide

theorem char_toUpper_ascii (c : Char) (h : c.toNat < 128) : (Char.toUpper c).toNat < 128 := by
  unfold Char.toUpper
  simp only []
  split
  · rename_i hr
    exact ofNat_ascii _ hr.1 hr.2
  · exact h

theorem toUpper_isAscii (s : Str) (h : IsAscii s) : IsAscii (toUpper s) := by
  intro c hc
  obtain ⟨d, hd, rfl⟩ := List.mem_map.mp hc
  exact char_toUpper_ascii d (h d hd)

theorem beforeHook_ascii (env : Env) (s : StepState) (hk : Hook)
    (hpatch : ∀ phase hk inp w0 out w1 p, RunProcessHook env phase hk inp w0 = (.ok out, w1) →
      out.Request = some p → IsAscii p.Method)
    (h : IsAscii s.req.Method) : IsAscii (beforeHook env s hk).req.Method := by
  unfold beforeHook
  split
  · exact h
  · split
    · exact h
    · rename_i out w1 hrun
      simp only []
      split
      · exact h
      · rename_i p hp
        rw [applyPatch_method]
        split
        · exact toUpper_isAscii _ (hpatch _ _ _ _ _ _ p hrun hp)
        · exact h

theorem beforeHooks_ascii (env : Env) (hooks : List Hook) (s : StepState)
    (hpatch : ∀ phase hk inp w0 out w1 p, RunProcessHook env phase hk inp w0 = (.ok out, w1) →
      out.Request = some p → IsAscii p.Method)
    (h : IsAscii s.req.Method) : IsAscii (hooks.foldl (beforeHook env) s).req.Method := by
  induction hooks generalizing s with
  | nil => exact h
  | cons hk rest ih =>
    rw [List.foldl_cons]
    exact ih _ (beforeHook_ascii env s hk hpatch h)

theorem pendingRequest_ascii (env : Env) (s : ScenarioState) (st : Step)
    (hpatch : ∀ phase hk inp w0 out w1 p, RunProcessHook env phase hk inp w0 = (.ok out, w1) →
      out.Request = some p → IsAscii p.Method)
    (h : IsAscii st.Request.Method) : IsAscii (pendingRequest env s st).Method := by
  unfold pendingRequest beforeState
  exact beforeHooks_ascii env st.Hooks _ hpatch (toUpper_isAscii _ h)

/-- A property that every step of the list establishes for its result holds for
all the results that the loop over these steps adds. -/
theorem runSteps_all_mem (r : Runner) (env : Env) (P : StepResult → Prop)
    (steps : List Step)
    (hstep : ∀ s, ∀ st ∈ steps,
      ∃ sr, (runStep r env s st).scRes.Steps = s.scRes.Steps ++ [sr] ∧ P sr)
    (s : ScenarioState) (h : ∀ x ∈ s.scRes.Steps, P x) :
    ∀ x ∈ (steps.foldl (runStep r env) s).scRes.Steps, P x := by
  induction steps generalizing s with
  | nil => exact h
  | cons st rest ih =>
    rw [List.foldl_cons]
    apply ih (fun s2 st2 hst2 => hstep s2 st2 (List.mem_cons_of_mem _ hst2))
    obtain ⟨sr, h1, h2⟩ := hstep s st (List.mem_cons_self _ _)
    intro x hx
    rw [h1] at hx
    rcases List.mem_append.mp hx with hx | hx
    · exact h x hx
    · rw [List.mem_singleton.mp hx]
      exact h2

/-- The only patch that a hook returns under `hookEnv` is the patch of the
output document given to `hookEnv`. -/
theorem hookEnv_patch (out0 : Output) (phase : Str) (hk : Hook) (inp : Input) (w0 w1 : World)
    (out : Output) (p : ReqPatch)
    (hrun : RunProcessHook (hookEnv out0) phase hk inp w0 = (.ok out, w1))
    (hp : out.Request = some p) : out0.Request = some p := by
  unfold RunProcessHook at hrun
  simp only [] at hrun
  split at hrun
  · simp at hrun
  · simp only [hookEnv, procOutcome] at hrun
    simp only [Prod.mk.injEq, Except.ok.injEq] at hrun
    obtain ⟨h1, -⟩ := hrun
    split at h1
    · rw [← h1] at hp
      simp at hp
    · rw [← h1] at hp
      exact hp

/-- C28: for a declared method and hook patches whose methods are ASCII text,
the method that `expandRequest` returns is the upper-cased declared method
whatever the variables are, so two variable maps give the same method and no
token in it is substituted; it is ASCII text without a lower-case letter. The
method recorded in a step result is the method of the pending request as the
hooks ahead of the request leave it, and it is ASCII text without a lower-case
letter whatever patches the hooks returned. -/
theorem expandRequest_method (rq : Request) (vars vars2 : StrMap) (r : Runner) (env : Env)
    (sc : Scenario) (w : World) (hrq : IsAscii rq.Method)
    (hdecl : ∀ st ∈ sc.Steps, IsAscii st.Request.Method)
    (hpatch : ∀ phase hk inp w0 out w1 p, RunProcessHook env phase hk inp w0 = (.ok out, w1) →
      out.Request = some p → IsAscii p.Method) :
    (expandRequest rq vars).Method = toUpper rq.Method ∧
    (expandRequest rq vars2).Method = (expandRequest rq vars).Method ∧
    IsAscii (expandRequest rq vars).Method ∧
    IsUpper (expandRequest rq vars).Method ∧
    (∀ s st, IsAscii st.Request.Method →
      ∃ sr, (runStep r env s st).scRes.Steps = s.scRes.Steps ++ [sr] ∧
        sr.Method = (pendingRequest env s st).Method ∧ IsAscii sr.Method ∧ IsUpper sr.Method) ∧
    (∀ sr ∈ (runScenario r env sc w).1.Steps, IsAscii sr.Method ∧ IsUpper sr.Method) := by
  have hstep : ∀ s st, IsAscii st.Request.Method →
      ∃ sr, (runStep r env s st).scRes.Steps = s.scRes.Steps ++ [sr] ∧
        sr.Method = (pendingRequest env s st).Method ∧ IsAscii sr.Method ∧
        IsUpper sr.Method := by
    intro s st hst
    obtain ⟨sr, h1, h2⟩ := runStep_method r env s st
    refine ⟨sr, h1, h2, ?_, ?_⟩
    · rw [h2]
      exact pendingRequest_ascii env s st hpatch hst
    · rw [h2]
      exact pendingRequest_method env s st
  refine ⟨rfl, rfl, toUpper_isAscii _ hrq, toUpper_isUpper _, hstep, ?_⟩
  have hall := runSteps_all_mem r env (fun x => IsAscii x.Method ∧ IsUpper x.Method) sc.Steps
    (fun s st hmem => by
      obtain ⟨x, h1, -, h3, h4⟩ := hstep s st (hdecl st hmem)
      exact ⟨x, h1, h3, h4⟩)
    (afterSteps r env { sc with Steps := [] } w)
    (fun x hx => by
      have h0 : (afterSteps r env { sc with Steps := [] } w).scRes.Steps = [] := rfl
      rw [h0] at hx
      exact absurd hx (List.not_mem_nil x))
  intro sr hsr
  exact hall sr hsr

/-- C28 on the request `POST /v1` declared in lower case and a step whose hook
ahead of the request returns a patch with the method `put`: the method recorded
for the step is `PUT`. -/
theorem expandRequest_method_witness :
    (expandRequest { draftRequest with Method := "post".toList } sampleVars).Method =
      "POST".toList ∧
    (onlyStep (runScenario New (hookEnv (patchOutput signPatch))
      (hookedScenario "/v1".toList (processHook "before".toList "sign".toList))
      World.init).1).Method = "PUT".toList ∧
    IsUpper (onlyStep (runScenario New (hookEnv (patchOutput signPatch))
      (hookedScenario "/v1".toList (processHook "before".toList "sign".toList))
      World.init).1).Method :=
  ⟨(expandRequest_method { draftRequest with Method := "post".toList } sampleVars StrMap.empty
      New (hookEnv (patchOutput signPatch))
      (hookedScenario "/v1".toList (processHook "before".toList "sign".toList)) World.init
      (by decide) (by decide)
      (fun phase hk inp w0 out w1 p hrun hp => by
        have h := hookEnv_patch (patchOutput signPatch) phase hk inp w0 w1 out p hrun hp
        simp only [patchOutput, Option.some.injEq] at h
        rw [← h]
        decide)).1,
    rfl,
    ((expandRequest_method { draftRequest with Method := "post".toList } sampleVars StrMap.empty
      New (hookEnv (patchOutput signPatch))
      (hookedScenario "/v1".toList (processHook "before".toList "sign".toList)) World.init
      (by decide) (by decide)
      (fun phase hk inp w0 out w1 p hrun hp => by
        have h := hookEnv_patch (patchOutput signPatch) phase hk inp w0 w1 out p hrun hp
        simp only [patchOutput, Option.some.injEq] at h
        rw [← h]
        decide)).2.2.2.2.2 _ (List.mem_cons_self _ _)).2⟩

/-! ## A covered pair that a later expectation finds gone -/

/-- C18 at a failing input: in a pool of two workers the pair `GET /users` is
in the coverage set when the first worker starts to evaluate its next contract
expectation, and it is not in the set when that expectation has been
evaluated, because in between the second worker assigns a new inner map for
`GET`. -/
theorem runSchedule_drops_pair :
    usersRecorded.2.1.pc = .done ∧
    usersRecorded.2.2.pc = .create ∧
    usersRecorded.1.covers "GET".toList "/users".toList = true ∧
    healthRecorded.2.1.pc = .done ∧
    healthRecorded.1.covers "GET".toList "/health".toList = true ∧
    healthRecorded.1.covers "GET".toList "/users".toList = false := by
  refine ⟨by decide, by decide, by decide, by decide, by decide, by decide⟩

end SeaQA
